import Mathlib

/-!
Shallow embedding of the virtual-memory core of the `os4` kernel
(`src/os4/src/mm/{address,frame_allocator,page_table,memory_set}.rs`).

Machine integers (`usize`) are modelled as `Nat`; points where the Rust
code can panic (failed `assert!`, `unwrap()` on `None`, checked
under/overflow) are modelled with `Option`, `none` standing for the
fatal panic.  Physical memory is modelled as two total functions: a
page-table-entry view (`ppn → index → entry bits`, matching
`PhysPageNum::get_pte_array`) and a byte view (`ppn → offset → byte`,
matching `PhysPageNum::get_bytes_array`).
-/

namespace Os4

/-- `PAGE_SIZE` from `config.rs` (the spec fixes 4 KiB pages). -/
def PAGE_SIZE : Nat := 4096

/-- `PAGE_SIZE_BITS` from `config.rs` (the spec fixes a 12-bit page offset). -/
def PAGE_SIZE_BITS : Nat := 12

/-- Modelled from the spec: `USER_STACK_SIZE` lives in the repository's
`config.rs`, which is not part of the sources given; the spec only says the
user stack has a fixed size, so we pick two pages. -/
def USER_STACK_SIZE : Nat := 8192

/-- Modelled from the spec: `TRAMPOLINE` from `config.rs` (not in the given
sources) is the fixed single page at the very top of the virtual range. -/
def TRAMPOLINE : Nat := 2 ^ 64 - PAGE_SIZE

/-- Modelled from the spec: `TRAP_CONTEXT` from `config.rs` (not in the given
sources) is the fixed virtual slot immediately below the trampoline. -/
def TRAP_CONTEXT : Nat := TRAMPOLINE - PAGE_SIZE

/-- Modelled from the spec: the linker symbol `strampoline` (boot glue is out
of scope); any page-aligned physical address works for the theorems below. -/
def strampoline : Nat := 0x80200000

/-! ## Address arithmetic (`mm/address.rs`) -/

/-- `VirtAddr::floor` (also `PhysAddr::floor`): truncate to a page number. -/
def VirtAddr.floor (v : Nat) : Nat := v / PAGE_SIZE

/-- `VirtAddr::ceil` (also `PhysAddr::ceil`): the source computes
`(self.0 - 1 + PAGE_SIZE) / PAGE_SIZE` in unsigned arithmetic; for the
address `0` the subtraction underflows, which checked arithmetic reports as
a panic (`none`). -/
def VirtAddr.ceil (v : Nat) : Option Nat :=
  if v = 0 then none else some ((v - 1 + PAGE_SIZE) / PAGE_SIZE)

/-- `VirtAddr::page_offset` (also `PhysAddr::page_offset`). -/
def VirtAddr.page_offset (v : Nat) : Nat := v % PAGE_SIZE

/-- `VirtPageNum::indexes`: the three 9-bit page-table indices, most
significant first. -/
def VirtPageNum.indexes (vpn : Nat) : List Nat :=
  [vpn >>> 18 % 512, vpn >>> 9 % 512, vpn % 512]

/-- Level-0 (root) index of a virtual page number. -/
def idx0 (vpn : Nat) : Nat := vpn >>> 18 % 512

/-- Level-1 index of a virtual page number. -/
def idx1 (vpn : Nat) : Nat := vpn >>> 9 % 512

/-- Level-2 (leaf) index of a virtual page number. -/
def idx2 (vpn : Nat) : Nat := vpn % 512

/-! ## Page-table entries (`mm/page_table.rs`) -/

/-- `PTEFlags::V`. -/
def PTEV : Nat := 1
/-- `PTEFlags::R`. -/
def PTER : Nat := 2
/-- `PTEFlags::W`. -/
def PTEW : Nat := 4
/-- `PTEFlags::X`. -/
def PTEX : Nat := 8
/-- `PTEFlags::U`. -/
def PTEU : Nat := 16

/-- `PageTableEntry`: a 64-bit entry, kept as its raw bits. -/
structure PageTableEntry where
  bits : Nat
deriving DecidableEq, Repr

/-- `PageTableEntry::new`: `ppn.0 << 10 | flags.bits`. -/
def PageTableEntry.new (ppn flags : Nat) : PageTableEntry :=
  ⟨ppn <<< 10 ||| flags⟩

/-- `PageTableEntry::empty`. -/
def PageTableEntry.empty : PageTableEntry := ⟨0⟩

/-- `PageTableEntry::ppn`: bits `[55:10]` (mask of 44 bits after the shift). -/
def PageTableEntry.ppn (pte : PageTableEntry) : Nat :=
  pte.bits >>> 10 &&& (2 ^ 44 - 1)

/-- `PageTableEntry::flags`: the low byte (`bits as u8`). -/
def PageTableEntry.flags (pte : PageTableEntry) : Nat := pte.bits % 256

/-- `PageTableEntry::is_valid`. -/
def PageTableEntry.is_valid (pte : PageTableEntry) : Bool :=
  pte.flags &&& PTEV ≠ 0

/-- `PageTableEntry::readable`. -/
def PageTableEntry.readable (pte : PageTableEntry) : Bool :=
  pte.flags &&& PTER ≠ 0

/-- `PageTableEntry::writable`. -/
def PageTableEntry.writable (pte : PageTableEntry) : Bool :=
  pte.flags &&& PTEW ≠ 0

/-- `PageTableEntry::executable`. -/
def PageTableEntry.executable (pte : PageTableEntry) : Bool :=
  pte.flags &&& PTEX ≠ 0

/-! ## The frame allocator (`mm/frame_allocator.rs`) -/

/-- `StackFrameAllocator`: `current`/`end` bounds plus the recycle stack
(`Vec` with its top modelled as the list head). -/
structure StackFrameAllocator where
  current : Nat
  end_ : Nat
  recycled : List Nat
deriving DecidableEq, Repr

/-- `StackFrameAllocator::new` followed by `init(l, r)`. -/
def StackFrameAllocator.init (l r : Nat) : StackFrameAllocator :=
  ⟨l, r, []⟩

/-- `StackFrameAllocator::alloc`: pop the recycle stack if non-empty,
otherwise hand out `current` (and advance it) unless the pool is exhausted. -/
def StackFrameAllocator.alloc (s : StackFrameAllocator) :
    Option Nat × StackFrameAllocator :=
  match s.recycled with
  | p :: rest => (some p, ⟨s.current, s.end_, rest⟩)
  | [] =>
    if s.current = s.end_ then (none, s)
    else (some s.current, ⟨s.current + 1, s.end_, []⟩)

/-- `StackFrameAllocator::dealloc`: panics (`none`) if `ppn` was never
allocated (`ppn >= current`) or is already on the recycle stack. -/
def StackFrameAllocator.dealloc (s : StackFrameAllocator) (ppn : Nat) :
    Option StackFrameAllocator :=
  if ppn ≥ s.current ∨ ppn ∈ s.recycled then none
  else some ⟨s.current, s.end_, ppn :: s.recycled⟩

/-- Modelled from the spec: `frame_remain_num` is re-exported by `mm/mod.rs`
and called by `MemorySet::mmap`, but its definition is missing from the given
sources; the spec calls it "the allocator's remaining-frame count", which is
the never-used tail plus the recycle stack. -/
def frame_remain_num (s : StackFrameAllocator) : Nat :=
  (s.end_ - s.current) + s.recycled.length

/-- One request made to the frame allocator. -/
inductive FAOp where
  | alloc : FAOp
  | dealloc : Nat → FAOp
deriving DecidableEq, Repr

/-- Run one operation; the second component records the page number an
`alloc` returned (a `dealloc` records nothing). -/
def StackFrameAllocator.step (s : StackFrameAllocator) :
    FAOp → Option (StackFrameAllocator × Option Nat)
  | .alloc => let (r, s') := s.alloc; some (s', r)
  | .dealloc p => (s.dealloc p).map fun s' => (s', none)

/-- Run a sequence of operations, collecting each step's `alloc` result;
`none` if any step panics. -/
def StackFrameAllocator.run (s : StackFrameAllocator) :
    List FAOp → Option (StackFrameAllocator × List (Option Nat))
  | [] => some (s, [])
  | op :: rest =>
    match s.step op with
    | none => none
    | some (s', r) =>
      match s'.run rest with
      | none => none
      | some (sf, rs) => some (sf, r :: rs)

/-! ## Physical memory and the global allocator

`FRAME_ALLOCATOR` together with the raw physical pages reachable through
`PhysPageNum::get_pte_array` / `get_bytes_array` form the ambient state
every `mm` operation threads. -/

/-- Point update of the page-table-entry view. -/
def memSet (m : Nat → Nat → Nat) (p i v : Nat) : Nat → Nat → Nat :=
  fun q j => if q = p ∧ j = i then v else m q j

/-- Zero-fill one whole page of a view (`FrameTracker::new`). -/
def memZeroPage (m : Nat → Nat → Nat) (p : Nat) : Nat → Nat → Nat :=
  fun q j => if q = p then 0 else m q j

/-- The ambient physical state: the entry view and byte view of physical
pages plus the global `FRAME_ALLOCATOR`. -/
structure Phys where
  mem : Nat → Nat → Nat
  bytes : Nat → Nat → Nat
  fa : StackFrameAllocator

/-- `frame_alloc().unwrap()` as used inside the `mm` module: allocate a page
number and zero-fill the page (`FrameTracker::new`); `none` when the pool is
exhausted and the `unwrap` panics. -/
def Phys.frame_alloc (ph : Phys) : Option (Nat × Phys) :=
  match ph.fa.alloc with
  | (some p, fa') =>
    some (p, ⟨memZeroPage ph.mem p, memZeroPage ph.bytes p, fa'⟩)
  | (none, _) => none

/-- `frame_dealloc` (run by `FrameTracker::drop`); `none` when the
allocator's validity check panics. -/
def Phys.frame_dealloc (ph : Phys) (p : Nat) : Option Phys :=
  (ph.fa.dealloc p).map fun fa' => ⟨ph.mem, ph.bytes, fa'⟩

/-! ## The page table (`mm/page_table.rs`) -/

/-- `PageTable`: root page number plus the owned node frames. -/
structure PageTable where
  root_ppn : Nat
  frames : List Nat
deriving DecidableEq, Repr

/-- `PageTable::new`: allocate the (zero-filled) root node. -/
def PageTable.new (ph : Phys) : Option (PageTable × Phys) :=
  (ph.frame_alloc).map fun (p, ph') => (⟨p, [p]⟩, ph')

/-- `PageTable::from_token`: non-owning view over the low 44 bits. -/
def PageTable.from_token (satp : Nat) : PageTable :=
  ⟨satp &&& (2 ^ 44 - 1), []⟩

/-- `PageTable::token`: `8usize << 60 | self.root_ppn.0`. -/
def PageTable.token (pt : PageTable) : Nat :=
  8 <<< 60 ||| pt.root_ppn

/-- The body of `find_pte`'s `for (i, idx) in idxs.iter().enumerate()` loop:
at `i == 2` the current entry is the result; otherwise an invalid entry
aborts the walk, a valid one is descended through. -/
def find_pte_loop (ph : Phys) : Nat → Nat → List Nat → Option PageTableEntry
  | _, _, [] => none
  | node, i, idx :: rest =>
    let pte : PageTableEntry := ⟨ph.mem node idx⟩
    if i = 2 then some pte
    else if pte.is_valid then find_pte_loop ph pte.ppn (i + 1) rest
    else none

/-- `PageTable::find_pte`: read-only three-level walk; `none` as soon as a
non-leaf entry on the path is invalid, otherwise the leaf entry (whether or
not the leaf itself is valid). -/
def PageTable.find_pte (ph : Phys) (pt : PageTable) (vpn : Nat) :
    Option PageTableEntry :=
  find_pte_loop ph pt.root_ppn 0 (VirtPageNum.indexes vpn)

/-- One non-leaf step of `find_pte_create`: descend through a valid entry,
or allocate a fresh zero-filled node, install `V`-only pointer to it, push
it on the owned-frame list, and descend into it; `none` when the allocation
`unwrap` panics. -/
def walkStep (ph : Phys) (pt : PageTable) (node i : Nat) :
    Option (Nat × Phys × PageTable) :=
  let e : PageTableEntry := ⟨ph.mem node i⟩
  if e.is_valid then some (e.ppn, ph, pt)
  else
    match ph.frame_alloc with
    | none => none
    | some (f, ph') =>
      let pte := PageTableEntry.new f PTEV
      some (pte.ppn, ⟨memSet ph'.mem node i pte.bits, ph'.bytes, ph'.fa⟩,
        ⟨pt.root_ppn, pt.frames ++ [f]⟩)

/-- The body of `find_pte_create`'s loop: at `i == 2` the current location
is the result; otherwise the entry is created on demand (`walkStep`) and
descended through. -/
def find_pte_create_loop :
    Phys → PageTable → Nat → Nat → List Nat →
      Option ((Nat × Nat) × Phys × PageTable)
  | _, _, _, _, [] => none
  | ph, pt, node, i, idx :: rest =>
    if i = 2 then some ((node, idx), ph, pt)
    else
      match walkStep ph pt node idx with
      | none => none
      | some (n', ph', pt') => find_pte_create_loop ph' pt' n' (i + 1) rest

/-- `PageTable::find_pte_create`: walk the two non-leaf levels (creating
nodes on demand) and return the location `(node, index)` of the leaf entry. -/
def PageTable.find_pte_create (ph : Phys) (pt : PageTable) (vpn : Nat) :
    Option ((Nat × Nat) × Phys × PageTable) :=
  find_pte_create_loop ph pt pt.root_ppn 0 (VirtPageNum.indexes vpn)

/-- `PageTable::map`: walk/create to the leaf, fatally assert it is not
already valid, then install the mapping with `V` forced on. -/
def PageTable.map (ph : Phys) (pt : PageTable) (vpn ppn flags : Nat) :
    Option (Phys × PageTable) :=
  match pt.find_pte_create ph vpn with
  | none => none
  | some ((n, i), ph', pt') =>
    if (⟨ph'.mem n i⟩ : PageTableEntry).is_valid then none
    else some
      (⟨memSet ph'.mem n i (PageTableEntry.new ppn (flags ||| PTEV)).bits,
        ph'.bytes, ph'.fa⟩, pt')

/-- `PageTable::unmap`: walk (via `find_pte_create`) to the leaf, fatally
assert it is valid, then clear it to `empty`. -/
def PageTable.unmap (ph : Phys) (pt : PageTable) (vpn : Nat) :
    Option (Phys × PageTable) :=
  match pt.find_pte_create ph vpn with
  | none => none
  | some ((n, i), ph', pt') =>
    if (⟨ph'.mem n i⟩ : PageTableEntry).is_valid then
      some (⟨memSet ph'.mem n i PageTableEntry.empty.bits, ph'.bytes, ph'.fa⟩,
        pt')
    else none

/-- `PageTable::translate`: `find_pte` with the leaf entry copied out. -/
def PageTable.translate (ph : Phys) (pt : PageTable) (vpn : Nat) :
    Option PageTableEntry :=
  pt.find_pte ph vpn

/-! ## Logical segments and address spaces (`mm/memory_set.rs`) -/

/-- `MapType`. -/
inductive MapType where
  | Identical : MapType
  | Framed : MapType
deriving DecidableEq, Repr

/-- `MapPermission` bits (same numeric positions as the `PTEFlags`
R/W/X/U bits). -/
def MapPermR : Nat := 2
/-- `MapPermission::W`. -/
def MapPermW : Nat := 4
/-- `MapPermission::X`. -/
def MapPermX : Nat := 8
/-- `MapPermission::U`. -/
def MapPermU : Nat := 16

/-- Lookup in the `BTreeMap<VirtPageNum, FrameTracker>`. -/
def dfLookup : List (Nat × Nat) → Nat → Option Nat
  | [], _ => none
  | (k, v) :: rest, key => if k = key then some v else dfLookup rest key

/-- Key-ordered insert (replacing an existing binding) in the `BTreeMap`. -/
def dfInsert : List (Nat × Nat) → Nat → Nat → List (Nat × Nat)
  | [], key, v => [(key, v)]
  | (k, w) :: rest, key, v =>
    if key < k then (key, v) :: (k, w) :: rest
    else if key = k then (key, v) :: rest
    else (k, w) :: dfInsert rest key v

/-- Removal from the `BTreeMap`. -/
def dfRemove : List (Nat × Nat) → Nat → List (Nat × Nat)
  | [], _ => []
  | (k, v) :: rest, key => if k = key then rest else (k, v) :: dfRemove rest key

/-- `MapArea`: half-open page range, owned data frames, mapping strategy and
permission bits. -/
structure MapArea where
  vpn_l : Nat
  vpn_r : Nat
  data_frames : List (Nat × Nat)
  map_type : MapType
  map_perm : Nat
deriving DecidableEq, Repr

/-- `MapArea::new`: floor/ceil normalisation (`ceil` can panic at address 0,
and `VPNRange::new` fatally asserts `start <= end`). -/
def MapArea.new? (start_va end_va : Nat) (ty : MapType) (perm : Nat) :
    Option MapArea :=
  match VirtAddr.ceil end_va with
  | none => none
  | some r =>
    if VirtAddr.floor start_va ≤ r then
      some ⟨VirtAddr.floor start_va, r, [], ty, perm⟩
    else none

/-- The pages of a `MapArea` (`vpn_range` as a list). -/
def MapArea.pages (a : MapArea) : List Nat :=
  List.range' a.vpn_l (a.vpn_r - a.vpn_l)

/-- `MapArea::map_one`: identical mapping uses the page number itself;
framed mapping allocates a frame and records it (a replaced tracker is
dropped, deallocating its frame); then installs the leaf entry. -/
def MapArea.map_one (ph : Phys) (a : MapArea) (pt : PageTable) (vpn : Nat) :
    Option (Phys × MapArea × PageTable) :=
  match a.map_type with
  | .Identical =>
    (PageTable.map ph pt vpn vpn a.map_perm).map fun (ph', pt') =>
      (ph', a, pt')
  | .Framed =>
    match ph.frame_alloc with
    | none => none
    | some (f, ph1) =>
      let a' : MapArea :=
        ⟨a.vpn_l, a.vpn_r, dfInsert a.data_frames vpn f, a.map_type,
          a.map_perm⟩
      let deallocOld : Option Phys :=
        match dfLookup a.data_frames vpn with
        | none => some ph1
        | some old => ph1.frame_dealloc old
      match deallocOld with
      | none => none
      | some ph2 =>
        (PageTable.map ph2 pt vpn f a.map_perm).map fun (ph', pt') =>
          (ph', a', pt')

/-- `MapArea::unmap_one`: a framed segment first drops its recorded frame
(returning it to the allocator), then the leaf entry is removed. -/
def MapArea.unmap_one (ph : Phys) (a : MapArea) (pt : PageTable) (vpn : Nat) :
    Option (Phys × MapArea × PageTable) :=
  let dropFrame : Option (Phys × MapArea) :=
    match a.map_type with
    | .Framed =>
      match dfLookup a.data_frames vpn with
      | none => some (ph, ⟨a.vpn_l, a.vpn_r, dfRemove a.data_frames vpn,
          a.map_type, a.map_perm⟩)
      | some f =>
        (ph.frame_dealloc f).map fun ph' =>
          (ph', ⟨a.vpn_l, a.vpn_r, dfRemove a.data_frames vpn, a.map_type,
            a.map_perm⟩)
    | .Identical => some (ph, a)
  match dropFrame with
  | none => none
  | some (ph1, a1) =>
    (PageTable.unmap ph1 pt vpn).map fun (ph', pt') => (ph', a1, pt')

/-- The `for vpn in self.vpn_range` loop of `MapArea::map`. -/
def MapArea.mapLoop (ph : Phys) (a : MapArea) (pt : PageTable) :
    List Nat → Option (Phys × MapArea × PageTable)
  | [] => some (ph, a, pt)
  | v :: vs =>
    match MapArea.map_one ph a pt v with
    | none => none
    | some (ph', a', pt') => MapArea.mapLoop ph' a' pt' vs

/-- `MapArea::map`. -/
def MapArea.mapAll (ph : Phys) (a : MapArea) (pt : PageTable) :
    Option (Phys × MapArea × PageTable) :=
  MapArea.mapLoop ph a pt a.pages

/-- The `for vpn in self.vpn_range` loop of `MapArea::unmap`. -/
def MapArea.unmapLoop (ph : Phys) (a : MapArea) (pt : PageTable) :
    List Nat → Option (Phys × MapArea × PageTable)
  | [] => some (ph, a, pt)
  | v :: vs =>
    match MapArea.unmap_one ph a pt v with
    | none => none
    | some (ph', a', pt') => MapArea.unmapLoop ph' a' pt' vs

/-- `MapArea::unmap`. -/
def MapArea.unmapAll (ph : Phys) (a : MapArea) (pt : PageTable) :
    Option (Phys × MapArea × PageTable) :=
  MapArea.unmapLoop ph a pt a.pages

/-- Write a byte slice at the start of a physical page
(`dst.copy_from_slice(src)` with `dst = &mut ...get_bytes_array()[..src.len()]`). -/
def bytesWrite (b : Nat → Nat → Nat) (p : Nat) (src : List Nat) :
    Nat → Nat → Nat :=
  fun q j => if q = p ∧ j < src.length then src.getD j 0 else b q j

/-- The page-sized chunks `data[start..len.min(start + PAGE_SIZE)]` visited
by the `copy_data` loop (the loop body runs at least once, so empty data
still yields one empty chunk). -/
def chunkList (l : List Nat) : List (List Nat) :=
  if l.length ≤ PAGE_SIZE then [l.take PAGE_SIZE]
  else l.take PAGE_SIZE :: chunkList (l.drop PAGE_SIZE)
termination_by l.length
decreasing_by simp [List.length_drop]; unfold PAGE_SIZE; omega

/-- The `copy_data` loop over successive pages: translate the current page
(`unwrap` panics on `none`), write the chunk into the translated frame's
bytes, step to the next page. -/
def copyChunks (ph : Phys) (pt : PageTable) :
    Nat → List (List Nat) → Option Phys
  | _, [] => some ph
  | vpn, c :: cs =>
    match PageTable.translate ph pt vpn with
    | none => none
    | some pte =>
      copyChunks ⟨ph.mem, bytesWrite ph.bytes pte.ppn c, ph.fa⟩ pt (vpn + 1)
        cs

/-- `MapArea::copy_data` (fatally asserts the segment is framed). -/
def MapArea.copy_data (ph : Phys) (a : MapArea) (pt : PageTable)
    (data : List Nat) : Option Phys :=
  if a.map_type = .Framed then copyChunks ph pt a.vpn_l (chunkList data)
  else none

/-- `MemorySet`: one page table plus the ordered logical segments. -/
structure MemorySet where
  page_table : PageTable
  areas : List MapArea

/-- `MemorySet::new_bare`. -/
def MemorySet.new_bare (ph : Phys) : Option (MemorySet × Phys) :=
  (PageTable.new ph).map fun (pt, ph') => (⟨pt, []⟩, ph')

/-- `MemorySet::push`: map the segment, optionally copy initial data, then
append it to the segment list. -/
def MemorySet.push (ph : Phys) (ms : MemorySet) (a : MapArea)
    (data : Option (List Nat)) : Option (Phys × MemorySet) :=
  match MapArea.mapAll ph a ms.page_table with
  | none => none
  | some (ph1, a1, pt1) =>
    match data with
    | none => some (ph1, ⟨pt1, ms.areas ++ [a1]⟩)
    | some d =>
      match MapArea.copy_data ph1 a1 pt1 d with
      | none => none
      | some ph2 => some (ph2, ⟨pt1, ms.areas ++ [a1]⟩)

/-- `MemorySet::mmap`: reject bad `port` bits, then a misaligned `start`;
build the `U`-augmented permission set; reject when the start page number
exceeds the allocator's remaining-frame count or when `find_pte` fails for
some page of the range; otherwise push a fresh framed segment and succeed.
(The source writes `vpn_range.get_start() > frame_remain_num()` and
`find_pte(vpn) == None` verbatim; both are modelled as written.) -/
def MemorySet.mmap (ph : Phys) (ms : MemorySet) (start len port : Nat) :
    Option (Int × Phys × MemorySet) :=
  if port &&& (2 ^ 64 - 8) ≠ 0 ∨ port &&& 7 = 0 then some (-1, ph, ms)
  else if VirtAddr.page_offset start ≠ 0 then some (-1, ph, ms)
  else
    let map_perm := MapPermU |||
      (if port &&& 1 = 1 then MapPermR else 0) |||
      (if port &&& 2 = 2 then MapPermW else 0) |||
      (if port &&& 4 = 4 then MapPermX else 0)
    match MapArea.new? start (start + len) .Framed map_perm with
    | none => none
    | some a =>
      if a.vpn_l > frame_remain_num ph.fa then some (-1, ph, ms)
      else if a.pages.any
          (fun v => (PageTable.find_pte ph ms.page_table v).isNone) then
        some (-1, ph, ms)
      else
        match MemorySet.push ph ms a none with
        | none => none
        | some (ph', ms') => some (0, ph', ms')

/-- The `for map_area in self.areas.iter_mut()` loop of `MemorySet::munmap`:
unmap each segment wholly contained in `[s, e)` and subtract its page count
from the remaining counter. -/
def munmapLoop (ph : Phys) (pt : PageTable) (s e remain : Nat) :
    List MapArea → Option (Phys × PageTable × List MapArea × Nat)
  | [] => some (ph, pt, [], remain)
  | a :: rest =>
    if s ≤ a.vpn_l ∧ a.vpn_r ≤ e then
      match MapArea.unmapAll ph a pt with
      | none => none
      | some (ph1, a1, pt1) =>
        match munmapLoop ph1 pt1 s e (remain - (a.vpn_r - a.vpn_l)) rest with
        | none => none
        | some (ph2, pt2, rest2, remain2) =>
          some (ph2, pt2, a1 :: rest2, remain2)
    else
      match munmapLoop ph pt s e remain rest with
      | none => none
      | some (ph2, pt2, rest2, remain2) => some (ph2, pt2, a :: rest2, remain2)

/-- `MemorySet::munmap`: floor/ceil the byte range to pages, unmap the
wholly contained segments, and succeed exactly when the removed page counts
add up to the whole range. -/
def MemorySet.munmap (ph : Phys) (ms : MemorySet) (start len : Nat) :
    Option (Int × Phys × MemorySet) :=
  let s := VirtAddr.floor start
  match VirtAddr.ceil (start + len) with
  | none => none
  | some e =>
    match munmapLoop ph ms.page_table s e (e - s) ms.areas with
    | none => none
    | some (ph', pt', areas', remain) =>
      some (if remain = 0 then 0 else -1, ph', ⟨pt', areas'⟩)

/-! ## Building an address space from an executable image -/

/-- Program-header type as consumed by `from_elf`. -/
inductive PhType where
  | Load : PhType
  | Other : PhType
deriving DecidableEq, Repr

/-- Modelled from the spec: one loadable-segment entry of the executable
image as exposed by the external ELF parser (`xmas_elf`), which is outside
the given sources; per §6 only the fields below are consumed. -/
structure ProgramHeader where
  ptype : PhType
  virtual_addr : Nat
  mem_size : Nat
  offset : Nat
  file_size : Nat
  is_read : Bool
  is_write : Bool
  is_execute : Bool
deriving DecidableEq, Repr

/-- Modelled from the spec: the parsed view of an executable image (magic
bytes, raw input bytes, program headers, entry point) as exposed by the
external ELF parser. -/
structure ElfImage where
  magic : List Nat
  input : List Nat
  phs : List ProgramHeader
  entry_point : Nat

/-- The program-header loop of `from_elf`: one framed, `U`-augmented segment
per `Load` header, pushed together with its file-backed bytes; the
`max_end_vpn` accumulator is overwritten by every loadable header. -/
def elfLoop (ph : Phys) (ms : MemorySet) (input : List Nat) :
    List ProgramHeader → Nat → Option (Phys × MemorySet × Nat)
  | [], maxEnd => some (ph, ms, maxEnd)
  | p :: rest, maxEnd =>
    if p.ptype = .Load then
      let perm := MapPermU |||
        (if p.is_read then MapPermR else 0) |||
        (if p.is_write then MapPermW else 0) |||
        (if p.is_execute then MapPermX else 0)
      match MapArea.new? p.virtual_addr (p.virtual_addr + p.mem_size) .Framed
          perm with
      | none => none
      | some a =>
        match MemorySet.push ph ms a
            (some ((input.drop p.offset).take p.file_size)) with
        | none => none
        | some (ph', ms') => elfLoop ph' ms' input rest a.vpn_r
    else elfLoop ph ms input rest maxEnd

/-- The magic bytes `assert_eq!` checks for. -/
def elfMagic : List Nat := [0x7f, 0x45, 0x4c, 0x46]

/-- `MemorySet::from_elf`: fresh space, trampoline, magic check, one framed
segment per loadable header (tracking the last end page), then the guard
page gap, the fixed-size user stack (R+W+U), and the trap-context page
(R+W); returns the space, the user stack top and the entry point. -/
def MemorySet.from_elf (ph : Phys) (elf : ElfImage) :
    Option (Phys × MemorySet × Nat × Nat) :=
  match MemorySet.new_bare ph with
  | none => none
  | some (ms, ph1) =>
    match PageTable.map ph1 ms.page_table (TRAMPOLINE / PAGE_SIZE)
        (strampoline / PAGE_SIZE) (PTER ||| PTEX) with
    | none => none
    | some (ph2, pt2) =>
      if elf.magic ≠ elfMagic then none
      else
        match elfLoop ph2 ⟨pt2, ms.areas⟩ elf.input elf.phs 0 with
        | none => none
        | some (ph3, ms3, maxEnd) =>
          let user_stack_bottom := maxEnd * PAGE_SIZE + PAGE_SIZE
          let user_stack_top := user_stack_bottom + USER_STACK_SIZE
          match MapArea.new? user_stack_bottom user_stack_top .Framed
              (MapPermR ||| MapPermW ||| MapPermU) with
          | none => none
          | some stackArea =>
            match MemorySet.push ph3 ms3 stackArea none with
            | none => none
            | some (ph4, ms4) =>
              match MapArea.new? TRAP_CONTEXT TRAMPOLINE .Framed
                  (MapPermR ||| MapPermW) with
              | none => none
              | some trapArea =>
                match MemorySet.push ph4 ms4 trapArea none with
                | none => none
                | some (ph5, ms5) =>
                  some (ph5, ms5, user_stack_top, elf.entry_point)

/-- `PhysAddr::ceil` has the same body as `VirtAddr::ceil`. -/
def PhysAddr.ceil (v : Nat) : Option Nat := VirtAddr.ceil v

/-! ## The walk, unrolled: named path components -/

/-- The root-level entry read by a walk for `vpn`. -/
def entry0 (ph : Phys) (pt : PageTable) (vpn : Nat) : PageTableEntry :=
  ⟨ph.mem pt.root_ppn (idx0 vpn)⟩

/-- The level-1 node the root entry points to. -/
def node1 (ph : Phys) (pt : PageTable) (vpn : Nat) : Nat :=
  (entry0 ph pt vpn).ppn

/-- The level-1 entry read by a walk for `vpn`. -/
def entry1 (ph : Phys) (pt : PageTable) (vpn : Nat) : PageTableEntry :=
  ⟨ph.mem (node1 ph pt vpn) (idx1 vpn)⟩

/-- The leaf node the level-1 entry points to. -/
def node2 (ph : Phys) (pt : PageTable) (vpn : Nat) : Nat :=
  (entry1 ph pt vpn).ppn

/-- The leaf entry read by a walk for `vpn`. -/
def leafEntry (ph : Phys) (pt : PageTable) (vpn : Nat) : PageTableEntry :=
  ⟨ph.mem (node2 ph pt vpn) (idx2 vpn)⟩

/-- Both non-leaf entries on `vpn`'s path are valid. -/
def pathOk (ph : Phys) (pt : PageTable) (vpn : Nat) : Bool :=
  (entry0 ph pt vpn).is_valid && (entry1 ph pt vpn).is_valid

/-- The location `(node, index)` of `vpn`'s leaf entry. -/
def leafLoc (ph : Phys) (pt : PageTable) (vpn : Nat) : Nat × Nat :=
  (node2 ph pt vpn, idx2 vpn)

/-- The path is valid and the leaf itself carries the `V` bit: `vpn` has a
live translation. -/
def validLeaf (ph : Phys) (pt : PageTable) (vpn : Nat) : Bool :=
  pathOk ph pt vpn && (leafEntry ph pt vpn).is_valid

/-- The allocator state is consistent and can only hand out page numbers
that avoid the (already-used) `bad` list: `current` has not run past `end`,
the pool fits in 44-bit page numbers, the recycle stack is duplicate-free
and below `current`, and everything in `bad` is below `current`. -/
def allocFresh (fa : StackFrameAllocator) (bad : List Nat) : Prop :=
  fa.current ≤ fa.end_ ∧ fa.end_ ≤ 2 ^ 44 ∧ fa.recycled.Nodup ∧
    (∀ p ∈ fa.recycled, p < fa.current ∧ p ∉ bad) ∧ ∀ b ∈ bad, b < fa.current

/-! ## Concrete machines used as witnesses -/

/-- A small concrete entry view: node 1 (root) points to node 2, node 2 to
node 3, and node 3 holds a valid leaf for page 5 with flags `V|R|W|U`. -/
def memW : Nat → Nat → Nat := fun p i =>
  if p = 1 ∧ i = 0 then 2049
  else if p = 2 ∧ i = 0 then 3073
  else if p = 3 ∧ i = 0 then 5143
  else 0

/-- Concrete physical state around `memW`, with pages 1–5 already handed
out by the allocator. -/
def phW : Phys := ⟨memW, fun _ _ => 0, ⟨6, 10, []⟩⟩

/-- The concrete page table rooted at node 1. -/
def ptW : PageTable := ⟨1, [1, 2, 3]⟩

/-- A one-area address space over `ptW`: a single framed one-page segment
at page 0 recording data frame 5, with permission bits `R|W|U`. -/
def msW3 : MemorySet := ⟨ptW, [⟨0, 1, [(0, 5)], MapType.Framed, 22⟩]⟩

/-- A freshly created empty address space: all-zero root node at page 100
(exactly the state `new_bare` leaves behind on an all-zero machine whose
allocator starts at page 100). -/
def phC : Phys := ⟨fun _ _ => 0, fun _ _ => 0, ⟨101, 200, []⟩⟩

/-- The empty `MemorySet` over the root node 100. -/
def msC : MemorySet := ⟨⟨100, [100]⟩, []⟩

/-- Internal consistency of the allocator: every recycled page number was
previously handed out (`< current`) and the recycle stack is duplicate-free. -/
def FAWF (s : StackFrameAllocator) : Prop :=
  (∀ q ∈ s.recycled, q < s.current) ∧ s.recycled.Nodup

/-- Page `p` is a live allocation: it was handed out and is not on the
recycle stack. -/
def FALive (p : Nat) (s : StackFrameAllocator) : Prop :=
  p < s.current ∧ p ∉ s.recycled

/-! ## Notions used to specify `munmap` -/

/-- Run a sequence of frame releases (the RAII `FrameTracker` drops). -/
def runDeallocs (fa : StackFrameAllocator) : List Nat → Option StackFrameAllocator
  | [] => some fa
  | p :: ps =>
    match fa.dealloc p with
    | none => none
    | some fa' => runDeallocs fa' ps

/-- The entry view after the leaf entries of the pages in `D` (walked in
`ph0`) have been cleared. -/
def clearedMem (ph0 : Phys) (pt : PageTable) (D : List Nat) :
    Nat → Nat → Nat :=
  fun p i =>
    if ∃ d ∈ D, p = node2 ph0 pt d ∧ i = idx2 d then 0 else ph0.mem p i

/-- `w`'s leaf location does not collide with any location read on `v`'s
walk (nor with `v`'s own leaf when `v ≠ w`): the tree-shape assumption. -/
def leafSep (ph : Phys) (pt : PageTable) (v w : Nat) : Prop :=
  (node2 ph pt w ≠ pt.root_ppn ∨ idx2 w ≠ idx0 v) ∧
  (node2 ph pt w ≠ node1 ph pt v ∨ idx2 w ≠ idx1 v) ∧
  (v ≠ w → node2 ph pt w ≠ node2 ph pt v ∨ idx2 w ≠ idx2 v)

instance (ph : Phys) (pt : PageTable) (v w : Nat) :
    Decidable (leafSep ph pt v w) := by
  unfold leafSep
  infer_instance

/-- The frames `MapArea::unmap` drops, in drop order. -/
def areaFreeList (a : MapArea) : List Nat :=
  match a.map_type with
  | .Framed => a.pages.filterMap (fun v => dfLookup a.data_frames v)
  | .Identical => []

/-- Whether a segment is wholly contained in the page range `[s, e)` (the
test `munmap` applies). -/
def containedSeg (s e : Nat) (a : MapArea) : Prop :=
  s ≤ a.vpn_l ∧ a.vpn_r ≤ e

instance (s e : Nat) (a : MapArea) : Decidable (containedSeg s e a) :=
  inferInstanceAs (Decidable (_ ∧ _))

/-- The frames the whole `munmap` loop drops, in drop order. -/
def munmapFreeList (areas : List MapArea) (s e : Nat) : List Nat :=
  ((areas.filter (fun a => decide (containedSeg s e a))).map
    areaFreeList).flatten

/-- Page `v` lies in some segment wholly contained in `[s, e)`. -/
def containedPage (areas : List MapArea) (s e v : Nat) : Prop :=
  ∃ a ∈ areas, containedSeg s e a ∧ a.vpn_l ≤ v ∧ v < a.vpn_r

instance (areas : List MapArea) (s e v : Nat) :
    Decidable (containedPage areas s e v) := by
  unfold containedPage
  exact List.decidableBEx _ areas

/-- Total page count of the wholly contained segments. -/
def sumLens (areas : List MapArea) (s e : Nat) : Nat :=
  ((areas.filter (fun a => decide (containedSeg s e a))).map
    (fun a => a.vpn_r - a.vpn_l)).sum

/-! ## Notions used to specify `from_elf` -/

/-- The trampoline's virtual page number. -/
def trampVpn : Nat := TRAMPOLINE / PAGE_SIZE

/-- The trap context's virtual page number. -/
def trapVpn : Nat := TRAP_CONTEXT / PAGE_SIZE

/-- First page of a program header's segment. -/
def phL (p : ProgramHeader) : Nat := VirtAddr.floor p.virtual_addr

/-- One past the last page of a program header's segment (the total version
of `ceil`, defined for the nonzero ends `from_elf` is fed). -/
def phR (p : ProgramHeader) : Nat :=
  (p.virtual_addr + p.mem_size - 1 + PAGE_SIZE) / PAGE_SIZE

/-- The permission bits `from_elf` derives from a loadable header's flags. -/
def phPerm (p : ProgramHeader) : Nat :=
  MapPermU ||| (if p.is_read then MapPermR else 0) |||
    (if p.is_write then MapPermW else 0) |||
    (if p.is_execute then MapPermX else 0)

/-- The end pages of the loadable segments, in header order. -/
def loadEnds (phs : List ProgramHeader) : List Nat :=
  phs.filterMap fun p => if p.ptype = .Load then some (phR p) else none

/-- Total page count of the loadable segments. -/
def loadPages (phs : List ProgramHeader) : Nat :=
  (phs.map fun p => if p.ptype = .Load then phR p - phL p else 0).sum

/-- The number of page chunks `copy_data` writes for `n` bytes of data (its
loop body runs at least once). -/
def chunkCount (n : Nat) : Nat :=
  if n = 0 then 1 else (n + PAGE_SIZE - 1) / PAGE_SIZE

/-- Translating `v` never yields a valid leaf: the page is unmapped. -/
def unmappedAt (ph : Phys) (pt : PageTable) (v : Nat) : Prop :=
  ∀ pte, PageTable.translate ph pt v = some pte → pte.is_valid = false

/-- The fixed trampoline spine of a `from_elf` page table: the root sends
index 511 to node `t1`, `t1` sends 511 to `t2`, and `t2` holds the
trampoline leaf (flags `V|R|X`) at 511; apart from the optional user
pointer at root index 0, nothing else in these three nodes is set. -/
def trampSpine (m : Nat → Nat → Nat) (r t1 t2 : Nat)
    (uo : Option (Nat × Nat)) : Prop :=
  (∀ i < 512, m r i =
    if i = 511 then t1 <<< 10 ||| 1
    else match uo with
    | some (u1, _) => if i = 0 then u1 <<< 10 ||| 1 else 0
    | none => 0) ∧
  (∀ i < 512, m t1 i = if i = 511 then t2 <<< 10 ||| 1 else 0) ∧
  (∀ i < 512, m t2 i =
    if i = 511 then (strampoline / PAGE_SIZE) <<< 10 ||| 11 else 0)

/-- The user spine: root index 0 points to `u1`, `u1` index 0 to `u2`, and
the leaf node `u2` holds exactly the leaves recorded by `S` (page number and
flag byte per user page). -/
def userSpine (m : Nat → Nat → Nat) (u1 u2 : Nat)
    (S : Nat → Option (Nat × Nat)) : Prop :=
  (∀ i < 512, m u1 i = if i = 0 then u2 <<< 10 ||| 1 else 0) ∧
  (∀ i < 512, m u2 i =
    match S i with
    | some (p, f) => p <<< 10 ||| f
    | none => 0)

/-- The builder invariant threaded through `from_elf`'s pushes: a clean
allocator (no recycled frames, inside a 44-bit pool) that has already
handed out the pairwise-distinct table nodes, the trampoline spine, an
optional user spine holding exactly the leaves `S`, and `S` confined to the
first leaf node with well-formed, valid entries. -/
def BInv (ph : Phys) (pt : PageTable) (r t1 t2 : Nat)
    (uo : Option (Nat × Nat)) (S : Nat → Option (Nat × Nat)) : Prop :=
  pt.root_ppn = r ∧
  ph.fa.recycled = [] ∧ ph.fa.current ≤ ph.fa.end_ ∧ ph.fa.end_ ≤ 2 ^ 44 ∧
  r < ph.fa.current ∧ t1 < ph.fa.current ∧ t2 < ph.fa.current ∧
  r ≠ t1 ∧ r ≠ t2 ∧ t1 ≠ t2 ∧
  trampSpine ph.mem r t1 t2 uo ∧
  (match uo with
   | none => ∀ v, S v = none
   | some (u1, u2) =>
     u1 < ph.fa.current ∧ u2 < ph.fa.current ∧
     u1 ≠ r ∧ u1 ≠ t1 ∧ u1 ≠ t2 ∧ u2 ≠ r ∧ u2 ≠ t1 ∧ u2 ≠ t2 ∧ u1 ≠ u2 ∧
     userSpine ph.mem u1 u2 S) ∧
  (∀ v p f, S v = some (p, f) →
    v < 512 ∧ p < 2 ^ 44 ∧ f < 256 ∧ f &&& PTEV ≠ 0)

/-- A minimal two-segment executable image: one page of R+X code at
address 0, one page of R+W data at 0x1000, no file bytes, entry point 0. -/
def elfW : ElfImage :=
  ⟨elfMagic, [],
    [⟨.Load, 0, 4096, 0, 0, true, false, true⟩,
     ⟨.Load, 4096, 4096, 0, 0, true, true, false⟩], 0⟩

/-! # Theorems -/

/-- Disjoint `|` after a left shift is addition. -/
theorem shiftLeft_or_eq_add (a k b : Nat) (h : b < 2 ^ k) :
    a <<< k ||| b = a * 2 ^ k + b := by
  apply Nat.eq_of_testBit_eq
  intro j
  rw [Nat.testBit_or, Nat.testBit_shiftLeft]
  have hm : a * 2 ^ k + b = 2 ^ k * a + b := by ring
  rw [hm, Nat.testBit_mul_pow_two_add a h j]
  by_cases hj : j < k
  · have hk : ¬ (j ≥ k) := by omega
    simp [hk, hj]
  · have hb : b.testBit j = false :=
      Nat.testBit_lt_two_pow
        (lt_of_lt_of_le h (Nat.pow_le_pow_right (by omega) (by omega)))
    have hk : j ≥ k := by omega
    simp [hk, hj, hb]

/-- The raw bits of a freshly built entry, in arithmetic form. -/
theorem pte_new_bits (f fl : Nat) (hfl : fl < 2 ^ 10) :
    (PageTableEntry.new f fl).bits = f * 2 ^ 10 + fl := by
  unfold PageTableEntry.new
  exact shiftLeft_or_eq_add f 10 fl hfl

/-- A fresh entry's target page number is recovered exactly when it fits in
44 bits. -/
theorem pte_new_ppn (f fl : Nat) (hf : f < 2 ^ 44) (hfl : fl < 2 ^ 10) :
    (PageTableEntry.new f fl).ppn = f := by
  unfold PageTableEntry.ppn
  rw [pte_new_bits f fl hfl, Nat.shiftRight_eq_div_pow]
  have hdiv : (f * 2 ^ 10 + fl) / 2 ^ 10 = f := by
    have hm : f * 2 ^ 10 + fl = 2 ^ 10 * f + fl := by ring
    rw [hm, Nat.mul_add_div (by positivity), Nat.div_eq_of_lt hfl,
      Nat.add_zero]
  rw [hdiv, Nat.and_pow_two_sub_one_eq_mod, Nat.mod_eq_of_lt hf]

/-- A fresh entry's flag byte is its flag argument when that is a byte. -/
theorem pte_new_flags (f fl : Nat) (hfl : fl < 256) :
    (PageTableEntry.new f fl).flags = fl := by
  unfold PageTableEntry.flags
  rw [pte_new_bits f fl (lt_trans hfl (by norm_num))]
  have hm : f * 2 ^ 10 + fl = 256 * (f * 4) + fl := by ring
  rw [hm, Nat.mul_add_mod, Nat.mod_eq_of_lt hfl]

/-- A fresh entry whose flags carry the `V` bit is valid. -/
theorem pte_new_valid (f fl : Nat) (hfl : fl < 256) (hv : fl &&& PTEV ≠ 0) :
    (PageTableEntry.new f fl).is_valid = true := by
  unfold PageTableEntry.is_valid
  rw [pte_new_flags f fl hfl]
  simpa using hv

/-- What one `frame_alloc().unwrap()` can do under `allocFresh`: either the
pool is exhausted, or it hands out a 44-bit page number avoiding `bad`,
zero-fills it, and remains fresh for `bad` extended by that page. -/
theorem frame_alloc_fresh (ph : Phys) (bad : List Nat)
    (h : allocFresh ph.fa bad) :
    ph.frame_alloc = none ∨
      ∃ f ph', ph.frame_alloc = some (f, ph') ∧ f < 2 ^ 44 ∧ f ∉ bad ∧
        ph'.mem = memZeroPage ph.mem f ∧
        ph'.bytes = memZeroPage ph.bytes f ∧
        allocFresh ph'.fa (f :: bad) ∧ ph.fa.current ≤ ph'.fa.current ∧
        ph'.fa.end_ = ph.fa.end_ := by
  obtain ⟨hce, he, hnd, hrec, hbad⟩ := h
  rcases hrc : ph.fa.recycled with _ | ⟨p, rest⟩
  · by_cases hcur : ph.fa.current = ph.fa.end_
    · left
      unfold Phys.frame_alloc StackFrameAllocator.alloc
      rw [hrc]
      simp [hcur]
    · right
      have hclt : ph.fa.current < ph.fa.end_ := by omega
      refine ⟨ph.fa.current,
        ⟨memZeroPage ph.mem ph.fa.current, memZeroPage ph.bytes ph.fa.current,
          ⟨ph.fa.current + 1, ph.fa.end_, []⟩⟩, ?_, by omega, ?_, rfl, rfl,
        ?_, Nat.le_succ _, rfl⟩
      · unfold Phys.frame_alloc StackFrameAllocator.alloc
        rw [hrc]
        simp [hcur]
      · intro hmem
        exact absurd (hbad _ hmem) (by omega)
      · refine ⟨by simp; omega, by simp; omega, by simp, by simp, ?_⟩
        intro b hb
        rcases List.mem_cons.mp hb with hbc | hbb
        · simp [hbc]
        · have := hbad b hbb; simp; omega
  · right
    have hp := hrec p (by rw [hrc]; exact List.mem_cons_self p rest)
    refine ⟨p, ⟨memZeroPage ph.mem p, memZeroPage ph.bytes p,
      ⟨ph.fa.current, ph.fa.end_, rest⟩⟩, ?_, by omega, hp.2, rfl, rfl,
      ?_, le_refl _, rfl⟩
    · unfold Phys.frame_alloc StackFrameAllocator.alloc
      rw [hrc]
    · rw [hrc] at hnd
      refine ⟨hce, he, (List.nodup_cons.mp hnd).2, ?_, ?_⟩
      · intro q hq
        have hqr : q ∈ ph.fa.recycled := by
          rw [hrc]; exact List.mem_cons_of_mem _ hq
        refine ⟨(hrec q hqr).1, ?_⟩
        intro hmem
        rcases List.mem_cons.mp hmem with hqp | hqb
        · exact (List.nodup_cons.mp hnd).1 (hqp ▸ hq)
        · exact (hrec q hqr).2 hqb
      · intro b hb
        rcases List.mem_cons.mp hb with hbp | hbb
        · exact hbp ▸ hp.1
        · exact hbad b hbb

/-- Characterisation of the read-only walk (the three-iteration loop,
unrolled). -/
theorem find_pte_eq (ph : Phys) (pt : PageTable) (vpn : Nat) :
    PageTable.find_pte ph pt vpn =
      if pathOk ph pt vpn then some (leafEntry ph pt vpn) else none := by
  by_cases h0 : (entry0 ph pt vpn).is_valid <;>
    by_cases h1 : (entry1 ph pt vpn).is_valid <;>
    simp only [entry0, entry1, node1, node2, idx0, idx1, idx2] at h0 h1 <;>
    simp [PageTable.find_pte, VirtPageNum.indexes, find_pte_loop, pathOk,
      leafEntry, node2, entry1, node1, entry0, idx0, idx1, idx2, h0, h1]

/-- When the path is already fully valid, `find_pte_create` performs no
allocation and no write: it merely returns the leaf location. -/
theorem find_pte_create_of_pathOk (ph : Phys) (pt : PageTable) (vpn : Nat)
    (h : pathOk ph pt vpn = true) :
    PageTable.find_pte_create ph pt vpn =
      some ((node2 ph pt vpn, idx2 vpn), ph, pt) := by
  rw [pathOk, Bool.and_eq_true] at h
  have h0 := h.1
  have h1 := h.2
  simp only [entry0, idx0] at h0
  simp only [entry1, node1, entry0, idx0, idx1] at h1
  simp [PageTable.find_pte_create, VirtPageNum.indexes, find_pte_create_loop,
    walkStep, h0, h1, node2, entry1, node1, entry0, idx0, idx1, idx2]

/-- C10: for every address with value at least 1, `ceil` returns the
page-number ceiling of `value / 4096` (given in closed form and
characterised as the least page whose end covers the address); for the
address 0 the unsigned subtraction `0 - 1` underflows, so under checked
arithmetic `ceil` panics instead of returning page 0.  `PhysAddr::ceil`
has the identical body. -/
theorem virtAddr_ceil_spec (v : Nat) (h : 1 ≤ v) :
    VirtAddr.ceil v = some ((v + PAGE_SIZE - 1) / PAGE_SIZE) ∧
    v ≤ ((v + PAGE_SIZE - 1) / PAGE_SIZE) * PAGE_SIZE ∧
    ((v + PAGE_SIZE - 1) / PAGE_SIZE) * PAGE_SIZE < v + PAGE_SIZE ∧
    VirtAddr.ceil 0 = none ∧ PhysAddr.ceil v = VirtAddr.ceil v := by
  have hv : v ≠ 0 := by omega
  have key : v - 1 + PAGE_SIZE = v + PAGE_SIZE - 1 := by
    unfold PAGE_SIZE; omega
  have hdm := Nat.div_add_mod (v + PAGE_SIZE - 1) PAGE_SIZE
  have hlt : (v + PAGE_SIZE - 1) % PAGE_SIZE < PAGE_SIZE :=
    Nat.mod_lt _ (by unfold PAGE_SIZE; omega)
  refine ⟨by simp [VirtAddr.ceil, hv, key], ?_, ?_, by simp [VirtAddr.ceil],
    rfl⟩
  · have := hdm
    unfold PAGE_SIZE at *
    omega
  · have := hdm
    unfold PAGE_SIZE at *
    omega

/-- Witness for `virtAddr_ceil_spec` at `v = 5000`. -/
theorem virtAddr_ceil_spec_witness :
    VirtAddr.ceil 5000 = some ((5000 + PAGE_SIZE - 1) / PAGE_SIZE) ∧
    5000 ≤ ((5000 + PAGE_SIZE - 1) / PAGE_SIZE) * PAGE_SIZE ∧
    ((5000 + PAGE_SIZE - 1) / PAGE_SIZE) * PAGE_SIZE < 5000 + PAGE_SIZE ∧
    VirtAddr.ceil 0 = none ∧ PhysAddr.ceil 5000 = VirtAddr.ceil 5000 :=
  virtAddr_ceil_spec 5000 (by omega)

/-- The mode tag `8 << 60` occupies bits untouched by a 44-bit root page
number, so the `|` in `token` is an addition. -/
theorem shiftLeft_or_low (r : Nat) (h : r < 2 ^ 44) :
    8 <<< 60 ||| r = 2 ^ 63 + r := by
  have h63 : r < 2 ^ 63 := lt_of_lt_of_le h (by norm_num)
  apply Nat.eq_of_testBit_eq
  intro j
  have hmul : (2 : Nat) ^ 63 + r = 2 ^ 63 * 1 + r := by ring
  rw [Nat.testBit_or, Nat.testBit_shiftLeft, hmul,
    Nat.testBit_mul_pow_two_add 1 h63 j]
  by_cases hj : j < 63
  · rw [if_pos hj]
    by_cases h60 : 60 ≤ j
    · have h8 : (8 : Nat).testBit (j - 60) = false := by
        have hc : j - 60 = 0 ∨ j - 60 = 1 ∨ j - 60 = 2 := by omega
        rcases hc with hc | hc | hc <;> rw [hc] <;> decide
      have hge : decide (j ≥ 60) = true := by simpa using h60
      simp [h8, hge]
    · have hge : decide (j ≥ 60) = false := by simpa using h60
      simp [hge]
  · rw [if_neg hj]
    have hrf : r.testBit j = false :=
      Nat.testBit_lt_two_pow
        (lt_of_lt_of_le h (Nat.pow_le_pow_right (by omega) (by omega)))
    by_cases hj63 : j = 63
    · subst hj63
      simp [hrf]
      decide
    · have h1f : (1 : Nat).testBit (j - 63) = false := by
        apply Nat.testBit_lt_two_pow
        calc (1 : Nat) < 2 ^ 1 := by norm_num
        _ ≤ 2 ^ (j - 63) := Nat.pow_le_pow_right (by omega) (by omega)
      have h8 : (8 : Nat).testBit (j - 60) = false := by
        apply Nat.testBit_lt_two_pow
        calc (8 : Nat) < 2 ^ 4 := by norm_num
        _ ≤ 2 ^ (j - 60) := Nat.pow_le_pow_right (by omega) (by omega)
      simp [h8, hrf, h1f]

/-- C2 counterexample: `token()` is `8 << 60 | root`, which differs from the
claimed `(3 << 62) | root` already for the root page number 0. -/
theorem token_counterexample :
    PageTable.token ⟨0, []⟩ ≠ 3 <<< 62 ||| (0 : Nat) := by decide

/-- C2 (amended): for a root page number of at most 44 bits, `token()`
returns `(8 << 60) | root` — the fixed SV39 mode tag `8` in the top four
bits (not `3 << 62`) and the root physical page number in the low 44 bits,
as `from_token` recovers. -/
theorem token_spec (pt : PageTable) (h : pt.root_ppn < 2 ^ 44) :
    PageTable.token pt = 2 ^ 63 + pt.root_ppn ∧
    PageTable.token pt >>> 60 = 8 ∧
    PageTable.token pt &&& (2 ^ 44 - 1) = pt.root_ppn ∧
    (PageTable.from_token (PageTable.token pt)).root_ppn = pt.root_ppn := by
  have key : PageTable.token pt = 2 ^ 63 + pt.root_ppn := shiftLeft_or_low _ h
  have hmod : PageTable.token pt &&& (2 ^ 44 - 1) = pt.root_ppn := by
    rw [key, Nat.and_pow_two_sub_one_eq_mod]
    have he : (2 : Nat) ^ 63 + pt.root_ppn = 2 ^ 44 * 2 ^ 19 + pt.root_ppn :=
      by norm_num
    rw [he, Nat.mul_add_mod, Nat.mod_eq_of_lt h]
  refine ⟨key, ?_, hmod, hmod⟩
  rw [key, Nat.shiftRight_eq_div_pow]
  have hr : pt.root_ppn < 2 ^ 60 := lt_of_lt_of_le h (by norm_num)
  have he : (2 : Nat) ^ 63 + pt.root_ppn = 2 ^ 60 * 8 + pt.root_ppn := by
    norm_num
  rw [he, Nat.mul_add_div (by positivity), Nat.div_eq_of_lt hr]

/-- Witness for `token_spec` at the concrete root page number 5. -/
theorem token_spec_witness :
    PageTable.token ⟨5, []⟩ = 2 ^ 63 + 5 ∧
    PageTable.token ⟨5, []⟩ >>> 60 = 8 ∧
    PageTable.token ⟨5, []⟩ &&& (2 ^ 44 - 1) = 5 ∧
    (PageTable.from_token (PageTable.token ⟨5, []⟩)).root_ppn = 5 :=
  token_spec ⟨5, []⟩ (by norm_num)

/-- A `walkStep` through a valid entry descends without any state change. -/
theorem walkStep_valid (ph : Phys) (pt : PageTable) (node i : Nat)
    (h : (⟨ph.mem node i⟩ : PageTableEntry).is_valid = true) :
    walkStep ph pt node i =
      some ((⟨ph.mem node i⟩ : PageTableEntry).ppn, ph, pt) := by
  unfold walkStep
  simp [h]

/-- A non-leaf loop iteration through a valid entry just descends. -/
theorem loop_step_valid (ph : Phys) (pt : PageTable) (node i idx : Nat)
    (rest : List Nat) (hi : ¬ i = 2)
    (h : (⟨ph.mem node idx⟩ : PageTableEntry).is_valid = true) :
    find_pte_create_loop ph pt node i (idx :: rest) =
      find_pte_create_loop ph pt ((⟨ph.mem node idx⟩ : PageTableEntry).ppn)
        (i + 1) rest := by
  rw [find_pte_create_loop, if_neg hi, walkStep_valid ph pt node idx h]

/-- A non-leaf loop iteration at an invalid entry with an exhausted
allocator panics. -/
theorem loop_step_invalid_none (ph : Phys) (pt : PageTable)
    (node i idx : Nat) (rest : List Nat) (hi : ¬ i = 2)
    (h : (⟨ph.mem node idx⟩ : PageTableEntry).is_valid = false)
    (halloc : ph.frame_alloc = none) :
    find_pte_create_loop ph pt node i (idx :: rest) = none := by
  rw [find_pte_create_loop, if_neg hi]
  unfold walkStep
  rw [if_neg (by simp [h]), halloc]

/-- A non-leaf loop iteration at an invalid entry allocates a fresh
zero-filled node, installs a `V`-only pointer to it, records it in the
owned-frame list, and descends into it. -/
theorem loop_step_invalid_alloc (ph ph1 : Phys) (pt : PageTable)
    (node i idx f : Nat) (rest : List Nat) (hi : ¬ i = 2)
    (h : (⟨ph.mem node idx⟩ : PageTableEntry).is_valid = false)
    (halloc : ph.frame_alloc = some (f, ph1)) :
    find_pte_create_loop ph pt node i (idx :: rest) =
      find_pte_create_loop
        ⟨memSet ph1.mem node idx (PageTableEntry.new f PTEV).bits, ph1.bytes,
          ph1.fa⟩
        ⟨pt.root_ppn, pt.frames ++ [f]⟩
        ((PageTableEntry.new f PTEV).ppn) (i + 1) rest := by
  rw [find_pte_create_loop, if_neg hi]
  unfold walkStep
  rw [if_neg (by simp [h]), halloc]

/-- The `i == 2` iteration returns the current location. -/
theorem loop_last (ph : Phys) (pt : PageTable) (node idx : Nat)
    (rest : List Nat) :
    find_pte_create_loop ph pt node 2 (idx :: rest) =
      some ((node, idx), ph, pt) := by
  rw [find_pte_create_loop, if_pos rfl]

/-- `find_pte_create` starts the loop at the root with counter 0. -/
theorem find_pte_create_eq_loop (ph : Phys) (pt : PageTable) (vpn : Nat) :
    PageTable.find_pte_create ph pt vpn =
      find_pte_create_loop ph pt pt.root_ppn 0
        [idx0 vpn, idx1 vpn, idx2 vpn] := rfl

/-- When the path to `vpn` is not fully valid, `find_pte_create` either
dies on allocator exhaustion or ends at a leaf entry that is (still)
invalid — the freshly created nodes are zero-filled. -/
theorem find_pte_create_not_pathOk (ph : Phys) (pt : PageTable) (vpn : Nat)
    (hf : allocFresh ph.fa [pt.root_ppn, node1 ph pt vpn])
    (hpath : pathOk ph pt vpn = false) :
    PageTable.find_pte_create ph pt vpn = none ∨
      ∃ loc ph' pt',
        PageTable.find_pte_create ph pt vpn = some (loc, ph', pt') ∧
        (⟨ph'.mem loc.1 loc.2⟩ : PageTableEntry).is_valid = false := by
  rw [pathOk, Bool.and_eq_false_iff] at hpath
  rw [find_pte_create_eq_loop]
  by_cases h0 : (entry0 ph pt vpn).is_valid
  · -- level 0 is valid, so level 1 must be the invalid one
    have h1 : (entry1 ph pt vpn).is_valid = false := by
      rcases hpath with hc | hc
      · exact absurd h0 (by simp [hc])
      · exact hc
    have h0' : (⟨ph.mem pt.root_ppn (idx0 vpn)⟩ : PageTableEntry).is_valid =
        true := h0
    rw [loop_step_valid ph pt _ 0 _ _ (by omega) h0']
    have hnn : (⟨ph.mem pt.root_ppn (idx0 vpn)⟩ : PageTableEntry).ppn =
        node1 ph pt vpn := rfl
    rw [hnn]
    simp only [Nat.zero_add]
    have h1' : (⟨ph.mem (node1 ph pt vpn) (idx1 vpn)⟩ :
        PageTableEntry).is_valid = false := h1
    rcases frame_alloc_fresh ph _ hf with hnone | ⟨f, ph1, halloc, hf44,
      hfbad, hmem1, _, _, _, _⟩
    · rw [loop_step_invalid_none ph pt _ 1 _ _ (by omega) h1' hnone]
      exact Or.inl rfl
    · rw [loop_step_invalid_alloc ph ph1 pt _ 1 _ f _ (by omega) h1' halloc]
      have hppn : (PageTableEntry.new f PTEV).ppn = f :=
        pte_new_ppn f PTEV hf44 (by decide)
      rw [hppn, loop_last]
      right
      refine ⟨(f, idx2 vpn), _, _, rfl, ?_⟩
      have hfne : f ≠ node1 ph pt vpn := by
        intro hcontra
        exact hfbad (by simp [hcontra])
      show (⟨memSet ph1.mem (node1 ph pt vpn) (idx1 vpn) _ f (idx2 vpn)⟩ :
        PageTableEntry).is_valid = false
      simp only [memSet, hmem1, memZeroPage]
      rw [if_neg (by tauto)]
      simp [PageTableEntry.is_valid, PageTableEntry.flags]
  · -- level 0 is invalid: two fresh nodes get created
    have h0' : (⟨ph.mem pt.root_ppn (idx0 vpn)⟩ : PageTableEntry).is_valid =
        false := by simpa using h0
    rcases frame_alloc_fresh ph _ hf with hnone | ⟨f0, ph1, halloc, h044,
      h0bad, hmem1, hbytes1, hfresh1, _, _⟩
    · rw [loop_step_invalid_none ph pt _ 0 _ _ (by omega) h0' hnone]
      exact Or.inl rfl
    · rw [loop_step_invalid_alloc ph ph1 pt _ 0 _ f0 _ (by omega) h0' halloc]
      simp only [Nat.zero_add]
      have hppn0 : (PageTableEntry.new f0 PTEV).ppn = f0 :=
        pte_new_ppn f0 PTEV h044 (by decide)
      rw [hppn0]
      have h0root : f0 ≠ pt.root_ppn := by
        intro hcontra
        exact h0bad (by simp [hcontra])
      -- the state after installing the pointer to f0 in the root
      set ph1w : Phys :=
        ⟨memSet ph1.mem pt.root_ppn (idx0 vpn)
          (PageTableEntry.new f0 PTEV).bits, ph1.bytes, ph1.fa⟩ with hph1w
      have hread1 : ph1w.mem f0 (idx1 vpn) = 0 := by
        simp only [hph1w, memSet, hmem1, memZeroPage]
        rw [if_neg (by tauto)]
        simp
      have h1' : (⟨ph1w.mem f0 (idx1 vpn)⟩ : PageTableEntry).is_valid =
          false := by
        rw [hread1]
        decide
      have hf1w : allocFresh ph1w.fa (f0 :: [pt.root_ppn, node1 ph pt vpn]) :=
        hfresh1
      rcases frame_alloc_fresh ph1w _ hf1w with hnone1 | ⟨f1, ph2, halloc1,
        h144, h1bad, hmem2, _, _, _, _⟩
      · rw [loop_step_invalid_none ph1w _ _ 1 _ _ (by omega) h1' hnone1]
        exact Or.inl rfl
      · rw [loop_step_invalid_alloc ph1w ph2 _ _ 1 _ f1 _ (by omega) h1'
          halloc1]
        have hppn1 : (PageTableEntry.new f1 PTEV).ppn = f1 :=
          pte_new_ppn f1 PTEV h144 (by decide)
        rw [hppn1, loop_last]
        right
        refine ⟨(f1, idx2 vpn), _, _, rfl, ?_⟩
        have hf1f0 : f1 ≠ f0 := by
          intro hcontra
          exact h1bad (by simp [hcontra])
        show (⟨memSet ph2.mem f0 (idx1 vpn) _ f1 (idx2 vpn)⟩ :
          PageTableEntry).is_valid = false
        simp only [memSet, hmem2, memZeroPage]
        rw [if_neg (by tauto)]
        simp [PageTableEntry.is_valid, PageTableEntry.flags]

/-- C5: if `vpn`'s leaf entry is valid, `unmap(vpn)` reaches it without
creating any node (the owned-frame list and the allocator are unchanged)
and clears exactly that leaf entry to `empty`; if the leaf is not valid —
whether because the leaf itself lacks `V` or because the path is broken —
`unmap` fails fatally.  The `allocFresh` hypothesis states the allocator
has not already handed out the nodes on `vpn`'s path. -/
theorem unmap_spec (ph : Phys) (pt : PageTable) (vpn : Nat)
    (hf : allocFresh ph.fa [pt.root_ppn, node1 ph pt vpn]) :
    PageTable.unmap ph pt vpn =
      if validLeaf ph pt vpn then
        some (⟨memSet ph.mem (node2 ph pt vpn) (idx2 vpn)
          PageTableEntry.empty.bits, ph.bytes, ph.fa⟩, pt)
      else none := by
  by_cases hpath : pathOk ph pt vpn
  · have hc := find_pte_create_of_pathOk ph pt vpn hpath
    unfold PageTable.unmap
    rw [hc]
    by_cases hleaf : (leafEntry ph pt vpn).is_valid
    · have hv : validLeaf ph pt vpn = true := by
        rw [validLeaf, hpath, hleaf]
        rfl
      have hleaf' : (⟨ph.mem (node2 ph pt vpn) (idx2 vpn)⟩ :
          PageTableEntry).is_valid = true := hleaf
      rw [hv]
      simp [hleaf']
    · have hv : validLeaf ph pt vpn = false := by
        rw [validLeaf, hpath]
        simpa using hleaf
      have hleaf' : (⟨ph.mem (node2 ph pt vpn) (idx2 vpn)⟩ :
          PageTableEntry).is_valid = false := by simpa using hleaf
      rw [hv]
      simp [hleaf']
  · have hv : validLeaf ph pt vpn = false := by
      rw [validLeaf]
      simp only [Bool.not_eq_true] at hpath
      rw [hpath]
      rfl
    rw [hv]
    have hpath' : pathOk ph pt vpn = false := by simpa using hpath
    rcases find_pte_create_not_pathOk ph pt vpn hf hpath' with hnone |
      ⟨loc, ph', pt', hsome, hinv⟩
    · unfold PageTable.unmap
      rw [hnone]
      rfl
    · unfold PageTable.unmap
      rw [hsome]
      simp [hinv]

/-- Witness for `unmap_spec`: on the concrete three-node table, page 0 has
a valid leaf and `unmap` clears exactly it. -/
theorem unmap_spec_witness :
    PageTable.unmap phW ptW 0 =
      if validLeaf phW ptW 0 then
        some (⟨memSet phW.mem (node2 phW ptW 0) (idx2 0)
          PageTableEntry.empty.bits, phW.bytes, phW.fa⟩, ptW)
      else none :=
  unmap_spec phW ptW 0 (by
    refine ⟨by decide, by decide, by decide, ?_, by decide⟩
    intro p hp
    simp [phW] at hp)

/-- C6: `translate(vpn)` is a read-only walk (it takes the physical state
and returns only a copied entry, never an updated state): it returns `none`
exactly when one of the two non-leaf levels along the path from the root is
invalid, and otherwise returns a copy of the leaf entry. -/
theorem translate_spec (ph : Phys) (pt : PageTable) (vpn : Nat) :
    PageTable.translate ph pt vpn =
      if (entry0 ph pt vpn).is_valid && (entry1 ph pt vpn).is_valid
      then some (leafEntry ph pt vpn) else none :=
  find_pte_eq ph pt vpn

/-- `alloc` from a non-empty recycle stack pops its top. -/
theorem step_alloc_cons (s : StackFrameAllocator) (q : Nat) (rest : List Nat)
    (h : s.recycled = q :: rest) :
    s.step .alloc = some (⟨s.current, s.end_, rest⟩, some q) := by
  simp [StackFrameAllocator.step, StackFrameAllocator.alloc, h]

/-- `alloc` from an exhausted pool returns nothing and keeps the state. -/
theorem step_alloc_exhausted (s : StackFrameAllocator)
    (h1 : s.recycled = []) (h2 : s.current = s.end_) :
    s.step .alloc = some (s, none) := by
  simp [StackFrameAllocator.step, StackFrameAllocator.alloc, h1, h2]

/-- `alloc` from a non-exhausted pool with an empty recycle stack hands out
`current`. -/
theorem step_alloc_fresh (s : StackFrameAllocator)
    (h1 : s.recycled = []) (h2 : ¬ s.current = s.end_) :
    s.step .alloc =
      some (⟨s.current + 1, s.end_, []⟩, some s.current) := by
  simp [StackFrameAllocator.step, StackFrameAllocator.alloc, h1, h2]

/-- A `dealloc` that passes the validity check pushes onto the stack. -/
theorem step_dealloc_ok (s : StackFrameAllocator) (q : Nat)
    (h : ¬ (q ≥ s.current ∨ q ∈ s.recycled)) :
    s.step (.dealloc q) =
      some (⟨s.current, s.end_, q :: s.recycled⟩, none) := by
  simp [StackFrameAllocator.step, StackFrameAllocator.dealloc, h]

/-- A `dealloc` of a never-allocated or already-recycled page panics. -/
theorem step_dealloc_panic (s : StackFrameAllocator) (q : Nat)
    (h : q ≥ s.current ∨ q ∈ s.recycled) :
    s.step (.dealloc q) = none := by
  simp [StackFrameAllocator.step, StackFrameAllocator.dealloc, h]

/-- `run` on a cons, written with `Option` combinators. -/
theorem run_cons_eq (s : StackFrameAllocator) (op : FAOp)
    (rest : List FAOp) :
    s.run (op :: rest) =
      (s.step op).bind fun sr =>
        (sr.1.run rest).map fun frs => (frs.1, sr.2 :: frs.2) := by
  rw [StackFrameAllocator.run]
  rcases s.step op with _ | ⟨s1, r⟩
  · rfl
  · show (match s1.run rest with
      | none => none
      | some (sf, rs) => some (sf, r :: rs)) =
      Option.map (fun frs => (frs.1, r :: frs.2)) (s1.run rest)
    rcases s1.run rest with _ | ⟨sf, rs⟩
    · rfl
    · rfl

/-- A `step` preserves allocator consistency. -/
theorem fawf_step (s s' : StackFrameAllocator) (op : FAOp) (r : Option Nat)
    (hwf : FAWF s) (hstep : s.step op = some (s', r)) : FAWF s' := by
  obtain ⟨hlt, hnd⟩ := hwf
  cases op with
  | alloc =>
    rcases hrc : s.recycled with _ | ⟨q, rest⟩
    · by_cases hc : s.current = s.end_
      · rw [step_alloc_exhausted s hrc hc] at hstep
        cases hstep
        exact ⟨hlt, hnd⟩
      · rw [step_alloc_fresh s hrc hc] at hstep
        cases hstep
        exact ⟨by simp, by simp⟩
    · rw [step_alloc_cons s q rest hrc] at hstep
      cases hstep
      rw [hrc] at hlt hnd
      refine ⟨fun x hx => hlt x (List.mem_cons_of_mem _ hx),
        (List.nodup_cons.mp hnd).2⟩
  | dealloc q =>
    by_cases hc : q ≥ s.current ∨ q ∈ s.recycled
    · rw [step_dealloc_panic s q hc] at hstep
      cases hstep
    · rw [step_dealloc_ok s q hc] at hstep
      cases hstep
      push_neg at hc
      constructor
      · intro x hx
        rcases List.mem_cons.mp hx with rfl | hx
        · exact hc.1
        · exact hlt x hx
      · exact List.nodup_cons.mpr ⟨hc.2, hnd⟩

/-- A `step` that is not `dealloc p` and whose `alloc` result is not `p`
keeps `p` live. -/
theorem falive_step (p : Nat) (s s' : StackFrameAllocator) (op : FAOp)
    (r : Option Nat) (hlive : FALive p s)
    (hop : op ≠ FAOp.dealloc p) (hstep : s.step op = some (s', r)) :
    FALive p s' := by
  obtain ⟨hplt, hpnr⟩ := hlive
  cases op with
  | alloc =>
    rcases hrc : s.recycled with _ | ⟨q, rest⟩
    · by_cases hc : s.current = s.end_
      · rw [step_alloc_exhausted s hrc hc] at hstep
        cases hstep
        exact ⟨hplt, hpnr⟩
      · rw [step_alloc_fresh s hrc hc] at hstep
        cases hstep
        exact ⟨by simp; omega, by simp⟩
    · rw [step_alloc_cons s q rest hrc] at hstep
      cases hstep
      rw [hrc] at hpnr
      exact ⟨hplt, fun hx => hpnr (List.mem_cons_of_mem _ hx)⟩
  | dealloc q =>
    have hqp : q ≠ p := fun hc => hop (by rw [hc])
    by_cases hc : q ≥ s.current ∨ q ∈ s.recycled
    · rw [step_dealloc_panic s q hc] at hstep
      cases hstep
    · rw [step_dealloc_ok s q hc] at hstep
      cases hstep
      refine ⟨hplt, fun hx => ?_⟩
      rcases List.mem_cons.mp hx with rfl | hx
      · exact hqp rfl
      · exact hpnr hx

/-- Running a sequence that never deallocates `p` keeps `p` live (and the
allocator consistent). -/
theorem falive_run (p : Nat) (s s' : StackFrameAllocator) (ops : List FAOp)
    (rs : List (Option Nat)) (hwf : FAWF s) (hlive : FALive p s)
    (hops : FAOp.dealloc p ∉ ops) (hrun : s.run ops = some (s', rs)) :
    FAWF s' ∧ FALive p s' := by
  induction ops generalizing s rs with
  | nil =>
    rw [StackFrameAllocator.run] at hrun
    cases hrun
    exact ⟨hwf, hlive⟩
  | cons op rest ih =>
    rw [run_cons_eq] at hrun
    rw [Option.bind_eq_some] at hrun
    obtain ⟨⟨s1, r⟩, hstep, hrun⟩ := hrun
    rw [Option.map_eq_some'] at hrun
    obtain ⟨⟨sf, rsf⟩, hrest, hval⟩ := hrun
    cases hval
    have hop : op ≠ FAOp.dealloc p := fun hc =>
      hops (hc ▸ List.mem_cons_self op rest)
    exact ih s1 rsf (fawf_step s s1 op r hwf hstep)
      (falive_step p s s1 op r hlive hop hstep)
      (fun hx => hops (List.mem_cons_of_mem _ hx)) hrest

/-- Running any sequence preserves allocator consistency. -/
theorem fawf_run (s s' : StackFrameAllocator) (ops : List FAOp)
    (rs : List (Option Nat)) (hwf : FAWF s)
    (hrun : s.run ops = some (s', rs)) : FAWF s' := by
  induction ops generalizing s rs with
  | nil =>
    rw [StackFrameAllocator.run] at hrun
    cases hrun
    exact hwf
  | cons op rest ih =>
    rw [run_cons_eq] at hrun
    rw [Option.bind_eq_some] at hrun
    obtain ⟨⟨s1, r⟩, hstep, hrun⟩ := hrun
    rw [Option.map_eq_some'] at hrun
    obtain ⟨⟨sf, rsf⟩, hrest, hval⟩ := hrun
    cases hval
    exact ih s1 rsf (fawf_step s s1 op r hwf hstep) hrest

/-- A live page is never handed out again by `alloc`. -/
theorem falive_alloc_ne (p : Nat) (s : StackFrameAllocator)
    (hlive : FALive p s) : (s.alloc).1 ≠ some p := by
  obtain ⟨hplt, hpnr⟩ := hlive
  unfold StackFrameAllocator.alloc
  rcases hrc : s.recycled with _ | ⟨q, rest⟩
  · by_cases hc : s.current = s.end_
    · simp [hc]
    · simp only [if_neg hc]
      intro hx
      injection hx with hx
      omega
  · simp only []
    intro hx
    injection hx with hx
    rw [hrc] at hpnr
    exact hpnr (hx ▸ List.mem_cons_self q rest)

/-- C7: after `init(low, high)`, if some `alloc` in a run returned `p` and
`p` is never passed to `dealloc` afterwards, no later `alloc` returns `p`
again — every live allocation is unique. -/
theorem alloc_unique (low high p : Nat) (ops1 ops2 : List FAOp)
    (s1 s2 s3 : StackFrameAllocator) (rs1 rs2 : List (Option Nat))
    (h1 : (StackFrameAllocator.init low high).run ops1 = some (s1, rs1))
    (h2 : s1.alloc = (some p, s2))
    (h3 : s2.run ops2 = some (s3, rs2))
    (hnd : FAOp.dealloc p ∉ ops2) :
    (s3.alloc).1 ≠ some p := by
  have hwf0 : FAWF (StackFrameAllocator.init low high) := by
    refine ⟨fun q hq => ?_, by simp [StackFrameAllocator.init]⟩
    simp [StackFrameAllocator.init] at hq
  have hwf1 : FAWF s1 := fawf_run _ s1 ops1 rs1 hwf0 h1
  have hstep2 : s1.step FAOp.alloc = some (s2, some p) := by
    unfold StackFrameAllocator.step
    rw [h2]
  have hwf2 : FAWF s2 := fawf_step s1 s2 FAOp.alloc (some p) hwf1 hstep2
  have hlive2 : FALive p s2 := by
    obtain ⟨hlt, hnd1⟩ := hwf1
    rcases hrc : s1.recycled with _ | ⟨q, rest⟩
    · by_cases hc : s1.current = s1.end_
      · have heq := step_alloc_exhausted s1 hrc hc
        rw [hstep2] at heq
        simp at heq
      · have heq := step_alloc_fresh s1 hrc hc
        rw [hstep2] at heq
        simp only [Option.some.injEq, Prod.mk.injEq] at heq
        obtain ⟨hs2, hp⟩ := heq
        subst hs2
        subst hp
        exact ⟨Nat.lt_succ_self _, by simp⟩
    · have heq := step_alloc_cons s1 q rest hrc
      rw [hstep2] at heq
      simp only [Option.some.injEq, Prod.mk.injEq] at heq
      obtain ⟨hs2, hp⟩ := heq
      subst hs2
      subst hp
      rw [hrc] at hlt hnd1
      exact ⟨hlt p (List.mem_cons_self p rest), by
        simpa using (List.nodup_cons.mp hnd1).1⟩
  have hfin := falive_run p s2 s3 ops2 rs2 hwf2 hlive2 hnd h3
  exact falive_alloc_ne p s3 hfin.2

/-- Witness for `alloc_unique`: allocate page 0 from `init(0, 2)`, then
allocate once more; the second `alloc` cannot return 0 again. -/
theorem alloc_unique_witness :
    ((⟨2, 2, []⟩ : StackFrameAllocator).alloc).1 ≠ some 0 :=
  alloc_unique 0 2 0 [] [.alloc] ⟨0, 2, []⟩ ⟨1, 2, []⟩ ⟨2, 2, []⟩ []
    [some 1] (by decide) (by decide) (by decide) (by decide)

/-- A recycled page stays on the recycle stack through any step that does
not hand it out again. -/
theorem mem_recycled_step (p : Nat) (s s' : StackFrameAllocator) (op : FAOp)
    (r : Option Nat) (hmem : p ∈ s.recycled) (hr : r ≠ some p)
    (hstep : s.step op = some (s', r)) : p ∈ s'.recycled := by
  cases op with
  | alloc =>
    rcases hrc : s.recycled with _ | ⟨q, rest⟩
    · rw [hrc] at hmem
      simp at hmem
    · rw [step_alloc_cons s q rest hrc] at hstep
      cases hstep
      rw [hrc] at hmem
      rcases List.mem_cons.mp hmem with rfl | hmem
      · exact absurd rfl hr
      · exact hmem
  | dealloc q =>
    by_cases hc : q ≥ s.current ∨ q ∈ s.recycled
    · rw [step_dealloc_panic s q hc] at hstep
      cases hstep
    · rw [step_dealloc_ok s q hc] at hstep
      cases hstep
      exact List.mem_cons_of_mem _ hmem

/-- A recycled page stays on the recycle stack through any run none of
whose `alloc` results hands it out again. -/
theorem mem_recycled_run (p : Nat) (s s' : StackFrameAllocator)
    (ops : List FAOp) (rs : List (Option Nat)) (hmem : p ∈ s.recycled)
    (hrs : some p ∉ rs) (hrun : s.run ops = some (s', rs)) :
    p ∈ s'.recycled := by
  induction ops generalizing s rs with
  | nil =>
    rw [StackFrameAllocator.run] at hrun
    cases hrun
    exact hmem
  | cons op rest ih =>
    rw [run_cons_eq] at hrun
    rw [Option.bind_eq_some] at hrun
    obtain ⟨⟨s1, r⟩, hstep, hrun⟩ := hrun
    rw [Option.map_eq_some'] at hrun
    obtain ⟨⟨sf, rsf⟩, hrest, hval⟩ := hrun
    cases hval
    have hr : r ≠ some p := fun hc =>
      hrs (hc ▸ List.mem_cons_self r rsf)
    exact ih s1 rsf (mem_recycled_step p s s1 op r hmem hr hstep)
      (fun hx => hrs (List.mem_cons_of_mem _ hx)) hrest

/-- C8: a `dealloc(ppn)` whose page is then never handed out again by an
`alloc` is fatally rejected when repeated (double-free detection), and a
`dealloc(ppn)` of a never-allocated page (`ppn >= current`) is fatally
rejected as well. -/
theorem dealloc_double_free (s s1 s2 : StackFrameAllocator) (p : Nat)
    (ops : List FAOp) (rs : List (Option Nat))
    (h1 : s.dealloc p = some s1)
    (h2 : s1.run ops = some (s2, rs))
    (hnp : some p ∉ rs) :
    s2.dealloc p = none ∧
      ∀ (t : StackFrameAllocator) (q : Nat), t.current ≤ q →
        t.dealloc q = none := by
  constructor
  · have hmem1 : p ∈ s1.recycled := by
      unfold StackFrameAllocator.dealloc at h1
      by_cases hc : p ≥ s.current ∨ p ∈ s.recycled
      · rw [if_pos hc] at h1
        cases h1
      · rw [if_neg hc] at h1
        cases h1
        exact List.mem_cons_self _ _
    have hmem2 : p ∈ s2.recycled :=
      mem_recycled_run p s1 s2 ops rs hmem1 hnp h2
    unfold StackFrameAllocator.dealloc
    rw [if_pos (Or.inr hmem2)]
  · intro t q hq
    unfold StackFrameAllocator.dealloc
    rw [if_pos (Or.inl hq)]

/-- Witness for `dealloc_double_free`: free page 1 from the state
`(current, end, recycled) = (2, 5, [])`, then free it again. -/
theorem dealloc_double_free_witness :
    (⟨2, 5, [1]⟩ : StackFrameAllocator).dealloc 1 = none ∧
      ∀ (t : StackFrameAllocator) (q : Nat), t.current ≤ q →
        t.dealloc q = none :=
  dealloc_double_free ⟨2, 5, []⟩ ⟨2, 5, [1]⟩ ⟨2, 5, [1]⟩ 1 [] []
    (by decide) (by decide) (by decide)

/-- C9: `mmap` returns the error code `-1` and leaves both the physical
state and the address space untouched whenever `port` is 0, `port` has any
bit above bit 2 set, or `start` is not page-aligned. -/
theorem mmap_validation (ph : Phys) (ms : MemorySet) (start len port : Nat)
    (hp : port < 2 ^ 64)
    (h : port = 0 ∨ (∃ k, 3 ≤ k ∧ port.testBit k) ∨
      VirtAddr.page_offset start ≠ 0) :
    MemorySet.mmap ph ms start len port = some (-1, ph, ms) := by
  unfold MemorySet.mmap
  rcases h with rfl | h | hmis
  · rw [if_pos (Or.inr (by decide))]
  · obtain ⟨k, hk3, hkbit⟩ := h
    rw [if_pos]
    left
    have hk64 : k < 64 := by
      by_contra hge
      have hf : port.testBit k = false :=
        Nat.testBit_lt_two_pow
          (lt_of_lt_of_le hp (Nat.pow_le_pow_right (by omega) (by omega)))
      rw [hf] at hkbit
      exact Bool.noConfusion hkbit
    intro hzero
    have hbit : (port &&& (2 ^ 64 - 8)).testBit k = true := by
      rw [Nat.testBit_and, hkbit]
      have hmask : (2 ^ 64 - 8 : Nat) = (2 ^ 61 - 1) <<< 3 := by
        rw [Nat.shiftLeft_eq]
        norm_num
      rw [hmask, Nat.testBit_shiftLeft, Nat.testBit_two_pow_sub_one]
      have h1 : decide (k ≥ 3) = true := by simpa using hk3
      have h2 : decide (k - 3 < 61) = true := by
        simp only [decide_eq_true_eq]
        omega
      rw [h1, h2]
      rfl
    rw [hzero] at hbit
    simp at hbit
  · by_cases hport : port &&& (2 ^ 64 - 8) ≠ 0 ∨ port &&& 7 = 0
    · rw [if_pos hport]
    · rw [if_neg hport, if_pos hmis]

/-- Witness for `mmap_validation`: `port = 8` has bit 3 set, so `mmap`
fails and changes nothing. -/
theorem mmap_validation_witness :
    MemorySet.mmap phW ⟨ptW, []⟩ 0 0 8 = some (-1, phW, ⟨ptW, []⟩) :=
  mmap_validation phW ⟨ptW, []⟩ 0 0 8 (by norm_num)
    (Or.inr (Or.inl ⟨3, by norm_num, by decide⟩))

/-- C1 (evaluation at the failing inputs): on a fresh empty address space,
the single-page range at `0x1000` is free (`find_pte` has no translation
for page 1) and `start = 0x1000` is aligned with `port = 7` legal, yet
`mmap(0x1000, 0x1000, 7)` returns `-1` — the source's admission test
`find_pte(vpn) == None` rejects exactly the free pages.  Conversely, on a
space where page 0 *is* present (a valid leaf), `mmap(0, 0x1000, 7)` does
not return a negative code but panics inside `PageTable::map`. -/
theorem mmap_free_range_rejected :
    MemorySet.mmap phC msC 4096 4096 7 = some (-1, phC, msC) ∧
    PageTable.find_pte phC msC.page_table 1 = none ∧
    VirtAddr.page_offset 4096 = 0 ∧
    validLeaf phW ptW 0 = true ∧
    MemorySet.mmap phW ⟨ptW, []⟩ 0 4096 7 = none :=
  ⟨rfl, rfl, rfl, rfl, rfl⟩

/-- `unmap` of a page with a valid leaf clears exactly that leaf and
touches nothing else (in particular it allocates nothing). -/
theorem unmap_valid (ph : Phys) (pt : PageTable) (vpn : Nat)
    (h : validLeaf ph pt vpn = true) :
    PageTable.unmap ph pt vpn =
      some (⟨memSet ph.mem (node2 ph pt vpn) (idx2 vpn) 0, ph.bytes,
        ph.fa⟩, pt) := by
  rw [validLeaf, Bool.and_eq_true] at h
  have hc := find_pte_create_of_pathOk ph pt vpn h.1
  unfold PageTable.unmap
  rw [hc]
  have hleaf : (⟨ph.mem (node2 ph pt vpn) (idx2 vpn)⟩ :
      PageTableEntry).is_valid = true := h.2
  simp [hleaf]
  rfl

/-- On a `clearedMem` state whose cleared leaves are all separated from
`v`'s walk, `v`'s walk reads exactly what it read originally. -/
theorem walk_clearedMem (ph0 : Phys) (pt : PageTable) (D : List Nat)
    (phA : Phys) (hmem : phA.mem = clearedMem ph0 pt D) (v : Nat)
    (hsep : ∀ d ∈ D, leafSep ph0 pt v d) (hnot : v ∉ D) :
    entry0 phA pt v = entry0 ph0 pt v ∧ node1 phA pt v = node1 ph0 pt v ∧
    entry1 phA pt v = entry1 ph0 pt v ∧ node2 phA pt v = node2 ph0 pt v ∧
    leafEntry phA pt v = leafEntry ph0 pt v ∧
    validLeaf phA pt v = validLeaf ph0 pt v := by
  have he0 : entry0 phA pt v = entry0 ph0 pt v := by
    unfold entry0
    rw [hmem]
    unfold clearedMem
    rw [if_neg]
    rintro ⟨d, hd, hp, hi⟩
    rcases (hsep d hd).1 with hne | hne
    · exact hne hp.symm
    · exact hne hi.symm
  have hn1 : node1 phA pt v = node1 ph0 pt v := by
    unfold node1
    rw [he0]
  have he1 : entry1 phA pt v = entry1 ph0 pt v := by
    unfold entry1
    rw [hn1, hmem]
    unfold clearedMem
    rw [if_neg]
    rintro ⟨d, hd, hp, hi⟩
    rcases (hsep d hd).2.1 with hne | hne
    · exact hne hp.symm
    · exact hne hi.symm
  have hn2 : node2 phA pt v = node2 ph0 pt v := by
    unfold node2
    rw [he1]
  have hle : leafEntry phA pt v = leafEntry ph0 pt v := by
    unfold leafEntry
    rw [hn2, hmem]
    unfold clearedMem
    rw [if_neg]
    rintro ⟨d, hd, hp, hi⟩
    have hvd : v ≠ d := fun hc => hnot (hc ▸ hd)
    rcases (hsep d hd).2.2 hvd with hne | hne
    · exact hne hp.symm
    · exact hne hi.symm
  refine ⟨he0, hn1, he1, hn2, hle, ?_⟩
  unfold validLeaf pathOk
  rw [he0, he1, hle]

/-- Clearing one more leaf extends the cleared set. -/
theorem clearedMem_snoc (ph0 : Phys) (pt : PageTable) (D : List Nat)
    (v : Nat) :
    memSet (clearedMem ph0 pt D) (node2 ph0 pt v) (idx2 v) 0 =
      clearedMem ph0 pt (D ++ [v]) := by
  funext p i
  unfold memSet clearedMem
  by_cases h : p = node2 ph0 pt v ∧ i = idx2 v
  · rw [if_pos h, if_pos ⟨v, by simp, h⟩]
  · rw [if_neg h]
    by_cases h2 : ∃ d ∈ D, p = node2 ph0 pt d ∧ i = idx2 d
    · obtain ⟨d, hd, hh⟩ := h2
      rw [if_pos ⟨d, hd, hh⟩, if_pos ⟨d, by simp [hd], hh⟩]
    · rw [if_neg h2, if_neg]
      rintro ⟨d, hd, hh⟩
      rcases List.mem_append.mp hd with hd | hd
      · exact h2 ⟨d, hd, hh⟩
      · simp at hd
        exact h (hd ▸ hh)

/-- The empty cleared set is the original view. -/
theorem clearedMem_nil (ph0 : Phys) (pt : PageTable) :
    clearedMem ph0 pt [] = ph0.mem := by
  funext p i
  unfold clearedMem
  rw [if_neg]
  rintro ⟨d, hd, _⟩
  simp at hd

/-- Removing a different key does not change a lookup. -/
theorem dfLookup_dfRemove_ne (df : List (Nat × Nat)) (k k' : Nat)
    (h : ¬ k = k') :
    dfLookup (dfRemove df k') k = dfLookup df k := by
  induction df with
  | nil => rfl
  | cons kv rest ih =>
    obtain ⟨k1, v1⟩ := kv
    unfold dfRemove
    by_cases h1 : k1 = k'
    · rw [if_pos h1]
      have h2 : ¬ k1 = k := by omega
      have hL : dfLookup ((k1, v1) :: rest) k = dfLookup rest k := by
        show (if k1 = k then some v1 else dfLookup rest k) = dfLookup rest k
        rw [if_neg h2]
      rw [hL]
    · rw [if_neg h1]
      show (if k1 = k then some v1 else dfLookup (dfRemove rest k') k) =
        if k1 = k then some v1 else dfLookup rest k
      by_cases h2 : k1 = k
      · rw [if_pos h2, if_pos h2]
      · rw [if_neg h2, if_neg h2, ih]

/-- A release that panics aborts the whole sequence. -/
theorem runDeallocs_cons_none (fa : StackFrameAllocator) (x : Nat)
    (ps : List Nat) (h : fa.dealloc x = none) :
    runDeallocs fa (x :: ps) = none := by
  unfold runDeallocs
  rw [h]

/-- A successful release continues the sequence. -/
theorem runDeallocs_cons_some (fa fa' : StackFrameAllocator) (x : Nat)
    (ps : List Nat) (h : fa.dealloc x = some fa') :
    runDeallocs fa (x :: ps) = runDeallocs fa' ps := by
  show (match fa.dealloc x with
    | none => none
    | some fa2 => runDeallocs fa2 ps) = runDeallocs fa' ps
  rw [h]

/-- `runDeallocs` splits over append. -/
theorem runDeallocs_append (fa : StackFrameAllocator) (xs ys : List Nat) :
    runDeallocs fa (xs ++ ys) =
      (runDeallocs fa xs).bind fun fa' => runDeallocs fa' ys := by
  induction xs generalizing fa with
  | nil => rfl
  | cons x rest ih =>
    rcases hd : fa.dealloc x with _ | fa'
    · rw [show (x :: rest) ++ ys = x :: (rest ++ ys) from rfl,
        runDeallocs_cons_none fa x _ hd, runDeallocs_cons_none fa x rest hd]
      rfl
    · rw [show (x :: rest) ++ ys = x :: (rest ++ ys) from rfl,
        runDeallocs_cons_some fa fa' x _ hd,
        runDeallocs_cons_some fa fa' x rest hd]
      exact ih fa'

/-- `unmap_one` on an identical segment: no frame to drop. -/
theorem unmap_one_identical (ph : Phys) (l r perm v : Nat)
    (df : List (Nat × Nat)) (pt : PageTable) :
    MapArea.unmap_one ph ⟨l, r, df, .Identical, perm⟩ pt v =
      (PageTable.unmap ph pt v).map fun pp =>
        (pp.1, (⟨l, r, df, .Identical, perm⟩ : MapArea), pp.2) := rfl

/-- `unmap_one` on a framed segment with no recorded frame for the page. -/
theorem unmap_one_framed_nolk (ph : Phys) (l r perm v : Nat)
    (df : List (Nat × Nat)) (pt : PageTable)
    (hlk : dfLookup df v = none) :
    MapArea.unmap_one ph ⟨l, r, df, .Framed, perm⟩ pt v =
      (PageTable.unmap ph pt v).map fun pp =>
        (pp.1, (⟨l, r, dfRemove df v, .Framed, perm⟩ : MapArea), pp.2) := by
  unfold MapArea.unmap_one
  rw [hlk]

/-- `unmap_one` on a framed segment with a recorded frame: the dropped
tracker releases the frame first, then the leaf is removed. -/
theorem unmap_one_framed_lk (mA bA : Nat → Nat → Nat)
    (faA : StackFrameAllocator) (l r perm v f : Nat)
    (df : List (Nat × Nat)) (pt : PageTable) (fa1 : StackFrameAllocator)
    (hlk : dfLookup df v = some f) (hd : faA.dealloc f = some fa1) :
    MapArea.unmap_one ⟨mA, bA, faA⟩ ⟨l, r, df, .Framed, perm⟩ pt v =
      (PageTable.unmap ⟨mA, bA, fa1⟩ pt v).map fun pp =>
        (pp.1, (⟨l, r, dfRemove df v, .Framed, perm⟩ : MapArea), pp.2) := by
  unfold MapArea.unmap_one Phys.frame_dealloc
  simp only [hlk, hd]
  rfl

/-- `unmap_valid` with the physical state spelled out componentwise. -/
theorem unmap_valid_parts (m b : Nat → Nat → Nat)
    (fa : StackFrameAllocator) (pt : PageTable) (v : Nat)
    (h : validLeaf ⟨m, b, fa⟩ pt v = true) :
    PageTable.unmap ⟨m, b, fa⟩ pt v =
      some (⟨memSet m (node2 ⟨m, b, fa⟩ pt v) (idx2 v) 0, b, fa⟩, pt) :=
  unmap_valid ⟨m, b, fa⟩ pt v h

/-- A successful `unmap_one` continues the loop. -/
theorem unmapLoop_cons_some (ph ph1 : Phys) (a a1 : MapArea)
    (pt pt1 : PageTable) (v : Nat) (vs : List Nat)
    (h : MapArea.unmap_one ph a pt v = some (ph1, a1, pt1)) :
    MapArea.unmapLoop ph a pt (v :: vs) = MapArea.unmapLoop ph1 a1 pt1 vs := by
  show (match MapArea.unmap_one ph a pt v with
    | none => none
    | some (ph', a', pt') => MapArea.unmapLoop ph' a' pt' vs) = _
  rw [h]

/-- `filterMap` only looks at member elements. -/
theorem filterMap_congr_mem (f g : Nat → Option Nat) (l : List Nat)
    (h : ∀ x ∈ l, f x = g x) : l.filterMap f = l.filterMap g := by
  induction l with
  | nil => rfl
  | cons x rest ih =>
    rw [List.filterMap_cons, List.filterMap_cons,
      h x (List.mem_cons_self x rest),
      ih fun y hy => h y (List.mem_cons_of_mem _ hy)]

/-- The `MapArea::unmap` page loop, on pages with valid and pairwise
separated leaves, clears exactly those leaves, releases exactly the
recorded frames (in order), and leaves the byte view, the allocator
otherwise, and the page table (its owned-frame list included) unchanged. -/
theorem unmapLoop_clears (ph0 : Phys) (pt : PageTable) (P : Nat → Prop)
    (hPvalid : ∀ v, P v → validLeaf ph0 pt v = true)
    (hPsep : ∀ v w, P v → P w → leafSep ph0 pt v w) :
    ∀ (vs : List Nat) (l r perm : Nat) (ty : MapType)
      (df : List (Nat × Nat)) (D : List Nat)
      (bA : Nat → Nat → Nat) (faA faF : StackFrameAllocator),
      (∀ v ∈ vs, P v) → (∀ d ∈ D, P d) → (∀ v ∈ vs, v ∉ D) → vs.Nodup →
      runDeallocs faA
        (match ty with
          | .Framed => vs.filterMap (fun v => dfLookup df v)
          | .Identical => []) = some faF →
      ∃ df', MapArea.unmapLoop ⟨clearedMem ph0 pt D, bA, faA⟩
          ⟨l, r, df, ty, perm⟩ pt vs =
        some (⟨clearedMem ph0 pt (D ++ vs), bA, faF⟩,
          ⟨l, r, df', ty, perm⟩, pt) := by
  intro vs
  induction vs with
  | nil =>
    intro l r perm ty df D bA faA faF hPv hPD hnotD hnd hfa
    have hfaF : faA = faF := by
      cases ty <;> exact Option.some.inj hfa
    refine ⟨df, ?_⟩
    rw [List.append_nil, ← hfaF]
    rfl
  | cons v vs' ih =>
    intro l r perm ty df D bA faA faF hPv hPD hnotD hnd hfa
    have hPvv : P v := hPv v (List.mem_cons_self _ _)
    have hvD : v ∉ D := hnotD v (List.mem_cons_self _ _)
    have hvnotvs : v ∉ vs' := (List.nodup_cons.mp hnd).1
    -- the page-table unmap of `v` on any allocator state
    have hunm : ∀ faX : StackFrameAllocator,
        PageTable.unmap ⟨clearedMem ph0 pt D, bA, faX⟩ pt v =
          some (⟨clearedMem ph0 pt (D ++ [v]), bA, faX⟩, pt) := by
      intro faX
      have hw := walk_clearedMem ph0 pt D ⟨clearedMem ph0 pt D, bA, faX⟩
        rfl v (fun d hd => hPsep v d hPvv (hPD d hd)) hvD
      have hval : validLeaf ⟨clearedMem ph0 pt D, bA, faX⟩ pt v = true := by
        rw [hw.2.2.2.2.2]
        exact hPvalid v hPvv
      rw [unmap_valid_parts (clearedMem ph0 pt D) bA faX pt v hval,
        hw.2.2.2.1, clearedMem_snoc]
    have happ : (D ++ [v]) ++ vs' = D ++ v :: vs' := by simp
    have hih := fun (df2 : List (Nat × Nat)) (ty2 : MapType) (faA2 : _) hfa2 =>
      ih l r perm ty2 df2 (D ++ [v]) bA faA2 faF
        (fun u hu => hPv u (List.mem_cons_of_mem _ hu))
        (fun d hd => by
          rcases List.mem_append.mp hd with hd | hd
          · exact hPD d hd
          · simp at hd
            exact hd ▸ hPvv)
        (fun u hu => by
          intro hmem
          rcases List.mem_append.mp hmem with hmem | hmem
          · exact hnotD u (List.mem_cons_of_mem _ hu) hmem
          · simp at hmem
            exact hvnotvs (hmem ▸ hu))
        (List.nodup_cons.mp hnd).2 hfa2
    cases ty with
    | Identical =>
      have h1 : MapArea.unmap_one ⟨clearedMem ph0 pt D, bA, faA⟩
          ⟨l, r, df, .Identical, perm⟩ pt v =
          some (⟨clearedMem ph0 pt (D ++ [v]), bA, faA⟩,
            ⟨l, r, df, .Identical, perm⟩, pt) := by
        rw [unmap_one_identical, hunm faA]
        rfl
      obtain ⟨df', hloop⟩ := hih df .Identical faA hfa
      refine ⟨df', ?_⟩
      rw [unmapLoop_cons_some _ _ _ _ _ _ v vs' h1, hloop, happ]
    | Framed =>
      rw [List.filterMap_cons] at hfa
      rcases hlk : dfLookup df v with _ | f
      · rw [hlk] at hfa
        have h1 : MapArea.unmap_one ⟨clearedMem ph0 pt D, bA, faA⟩
            ⟨l, r, df, .Framed, perm⟩ pt v =
            some (⟨clearedMem ph0 pt (D ++ [v]), bA, faA⟩,
              ⟨l, r, dfRemove df v, .Framed, perm⟩, pt) := by
          rw [unmap_one_framed_nolk _ _ _ _ _ _ _ hlk, hunm faA]
          rfl
        have hfa2 : runDeallocs faA
            (vs'.filterMap (fun u => dfLookup (dfRemove df v) u)) =
            some faF := by
          rw [filterMap_congr_mem _ (fun u => dfLookup df u) vs'
            (fun u hu => dfLookup_dfRemove_ne df u v
              (fun hc => hvnotvs (hc ▸ hu)))]
          exact hfa
        obtain ⟨df', hloop⟩ := hih (dfRemove df v) .Framed faA hfa2
        refine ⟨df', ?_⟩
        rw [unmapLoop_cons_some _ _ _ _ _ _ v vs' h1, hloop, happ]
      · rw [hlk] at hfa
        rcases hd : faA.dealloc f with _ | fa1
        · rw [runDeallocs_cons_none faA f _ hd] at hfa
          cases hfa
        · rw [runDeallocs_cons_some faA fa1 f _ hd] at hfa
          have h1 : MapArea.unmap_one ⟨clearedMem ph0 pt D, bA, faA⟩
              ⟨l, r, df, .Framed, perm⟩ pt v =
              some (⟨clearedMem ph0 pt (D ++ [v]), bA, fa1⟩,
                ⟨l, r, dfRemove df v, .Framed, perm⟩, pt) := by
            rw [unmap_one_framed_lk _ _ _ _ _ _ _ _ _ _ _ hlk hd, hunm fa1]
            rfl
          have hfa2 : runDeallocs fa1
              (vs'.filterMap (fun u => dfLookup (dfRemove df v) u)) =
              some faF := by
            rw [filterMap_congr_mem _ (fun u => dfLookup df u) vs'
              (fun u hu => dfLookup_dfRemove_ne df u v
                (fun hc => hvnotvs (hc ▸ hu)))]
            exact hfa
          obtain ⟨df', hloop⟩ := hih (dfRemove df v) .Framed fa1 hfa2
          refine ⟨df', ?_⟩
          rw [unmapLoop_cons_some _ _ _ _ _ _ v vs' h1, hloop, happ]

/-- A page whose leaf has been cleared (and whose walk is separated from
the other cleared leaves) no longer has a valid translation. -/
theorem validLeaf_clearedMem_false (ph0 : Phys) (pt : PageTable)
    (D : List Nat) (bA : Nat → Nat → Nat) (faA : StackFrameAllocator)
    (v : Nat) (hsep : ∀ d ∈ D, leafSep ph0 pt v d) (hin : v ∈ D) :
    validLeaf ⟨clearedMem ph0 pt D, bA, faA⟩ pt v = false := by
  set phA : Phys := ⟨clearedMem ph0 pt D, bA, faA⟩ with hphA
  have he0 : entry0 phA pt v = entry0 ph0 pt v := by
    show (⟨clearedMem ph0 pt D pt.root_ppn (idx0 v)⟩ : PageTableEntry) = _
    unfold clearedMem
    rw [if_neg]
    · rfl
    rintro ⟨d, hd, hp, hi⟩
    rcases (hsep d hd).1 with hne | hne
    · exact hne hp.symm
    · exact hne hi.symm
  have hn1 : node1 phA pt v = node1 ph0 pt v := by
    unfold node1
    rw [he0]
  have he1 : entry1 phA pt v = entry1 ph0 pt v := by
    show (⟨clearedMem ph0 pt D (node1 phA pt v) (idx1 v)⟩ :
      PageTableEntry) = _
    rw [hn1]
    unfold clearedMem
    rw [if_neg]
    · rfl
    rintro ⟨d, hd, hp, hi⟩
    rcases (hsep d hd).2.1 with hne | hne
    · exact hne hp.symm
    · exact hne hi.symm
  have hn2 : node2 phA pt v = node2 ph0 pt v := by
    unfold node2
    rw [he1]
  have hleaf : leafEntry phA pt v = ⟨0⟩ := by
    show (⟨clearedMem ph0 pt D (node2 phA pt v) (idx2 v)⟩ :
      PageTableEntry) = _
    rw [hn2]
    unfold clearedMem
    rw [if_pos ⟨v, hin, rfl, rfl⟩]
  unfold validLeaf
  rw [hleaf]
  have : (⟨0⟩ : PageTableEntry).is_valid = false := by decide
  rw [this, Bool.and_false]

/-- The free list of a cons whose head is wholly contained. -/
theorem munmapFreeList_cons_pos (s e : Nat) (a : MapArea)
    (rest : List MapArea) (h : containedSeg s e a) :
    munmapFreeList (a :: rest) s e =
      areaFreeList a ++ munmapFreeList rest s e := by
  unfold munmapFreeList
  rw [List.filter_cons_of_pos (by simpa using h), List.map_cons,
    List.flatten_cons]

/-- The free list of a cons whose head is not wholly contained. -/
theorem munmapFreeList_cons_neg (s e : Nat) (a : MapArea)
    (rest : List MapArea) (h : ¬ containedSeg s e a) :
    munmapFreeList (a :: rest) s e = munmapFreeList rest s e := by
  unfold munmapFreeList
  rw [List.filter_cons_of_neg (by simpa using h)]

/-- The contained page count of a cons whose head is wholly contained. -/
theorem sumLens_cons_pos (s e : Nat) (a : MapArea) (rest : List MapArea)
    (h : containedSeg s e a) :
    sumLens (a :: rest) s e = (a.vpn_r - a.vpn_l) + sumLens rest s e := by
  unfold sumLens
  rw [List.filter_cons_of_pos (by simpa using h), List.map_cons,
    List.sum_cons]

/-- The contained page count of a cons whose head is not contained. -/
theorem sumLens_cons_neg (s e : Nat) (a : MapArea) (rest : List MapArea)
    (h : ¬ containedSeg s e a) :
    sumLens (a :: rest) s e = sumLens rest s e := by
  unfold sumLens
  rw [List.filter_cons_of_neg (by simpa using h)]

/-- `containedPage` is monotone under cons. -/
theorem containedPage_cons (s e v : Nat) (a : MapArea)
    (rest : List MapArea) (h : containedPage rest s e v) :
    containedPage (a :: rest) s e v := by
  obtain ⟨b, hb, hh⟩ := h
  exact ⟨b, List.mem_cons_of_mem _ hb, hh⟩

/-- One `munmapLoop` iteration on a contained head segment. -/
theorem munmapLoop_cons_pos (ph ph1 ph2 : Phys) (pt pt1 pt2 : PageTable)
    (s e remain rem2 : Nat) (a a1 : MapArea) (rest rest2 : List MapArea)
    (hc : s ≤ a.vpn_l ∧ a.vpn_r ≤ e)
    (hun : MapArea.unmapAll ph a pt = some (ph1, a1, pt1))
    (hrec : munmapLoop ph1 pt1 s e (remain - (a.vpn_r - a.vpn_l)) rest =
      some (ph2, pt2, rest2, rem2)) :
    munmapLoop ph pt s e remain (a :: rest) =
      some (ph2, pt2, a1 :: rest2, rem2) := by
  unfold munmapLoop
  rw [if_pos hc]
  simp only [hun, hrec]

/-- One `munmapLoop` iteration on a head segment that is not contained. -/
theorem munmapLoop_cons_neg (ph ph2 : Phys) (pt pt2 : PageTable)
    (s e remain rem2 : Nat) (a : MapArea) (rest rest2 : List MapArea)
    (hc : ¬ (s ≤ a.vpn_l ∧ a.vpn_r ≤ e))
    (hrec : munmapLoop ph pt s e remain rest =
      some (ph2, pt2, rest2, rem2)) :
    munmapLoop ph pt s e remain (a :: rest) =
      some (ph2, pt2, a :: rest2, rem2) := by
  unfold munmapLoop
  rw [if_neg hc]
  simp only [hrec]

/-- The whole `munmap` area loop: wholly contained segments (with valid,
separated pages) get their leaves cleared and their frames released, other
segments are untouched, the page table is unchanged, and the remaining
counter drops by exactly the contained page count. -/
theorem munmapLoop_clears (ph0 : Phys) (pt : PageTable) (s e : Nat)
    (P : Nat → Prop)
    (hPvalid : ∀ v, P v → validLeaf ph0 pt v = true)
    (hPsep : ∀ v w, P v → P w → leafSep ph0 pt v w) :
    ∀ (areas : List MapArea) (D : List Nat) (remain : Nat)
      (bA : Nat → Nat → Nat) (faA faF : StackFrameAllocator),
      (∀ a ∈ areas, containedSeg s e a → ∀ v ∈ a.pages, P v) →
      (∀ d ∈ D, P d) →
      (∀ a ∈ areas, containedSeg s e a → ∀ v ∈ a.pages, v ∉ D) →
      areas.Pairwise (fun a b => containedSeg s e a → containedSeg s e b →
        ∀ v ∈ a.pages, v ∉ b.pages) →
      runDeallocs faA (munmapFreeList areas s e) = some faF →
      ∃ areas' D',
        munmapLoop ⟨clearedMem ph0 pt D, bA, faA⟩ pt s e remain areas =
          some (⟨clearedMem ph0 pt (D ++ D'), bA, faF⟩, pt, areas',
            remain - sumLens areas s e) ∧
        (∀ d ∈ D', P d) ∧
        (∀ a ∈ areas, containedSeg s e a → ∀ v ∈ a.pages, v ∈ D ++ D') := by
  intro areas
  induction areas with
  | nil =>
    intro D remain bA faA faF hPa hPD hnotD hpair hfa
    refine ⟨[], [], ?_, by simp, by simp⟩
    have hfaF : faA = faF := Option.some.inj hfa
    rw [List.append_nil, show sumLens [] s e = 0 from rfl, Nat.sub_zero,
      ← hfaF]
    rfl
  | cons a rest ih =>
    intro D remain bA faA faF hPa hPD hnotD hpair hfa
    obtain ⟨l, r, df, ty, perm⟩ := a
    by_cases hca : containedSeg s e (⟨l, r, df, ty, perm⟩ : MapArea)
    · -- the head segment is wholly contained and gets unmapped
      rw [munmapFreeList_cons_pos s e _ rest hca, runDeallocs_append,
        Option.bind_eq_some] at hfa
      obtain ⟨faM, hfaM, hfaF⟩ := hfa
      have hPpages : ∀ v ∈ (⟨l, r, df, ty, perm⟩ : MapArea).pages, P v :=
        hPa _ (List.mem_cons_self _ _) hca
      have hnotDpages :
          ∀ v ∈ (⟨l, r, df, ty, perm⟩ : MapArea).pages, v ∉ D :=
        hnotD _ (List.mem_cons_self _ _) hca
      have hnd : ((⟨l, r, df, ty, perm⟩ : MapArea).pages).Nodup :=
        List.nodup_range' _ _
      obtain ⟨df', hloop⟩ := unmapLoop_clears ph0 pt P hPvalid hPsep
        ((⟨l, r, df, ty, perm⟩ : MapArea).pages) l r perm ty df D bA faA faM
        hPpages hPD hnotDpages hnd (by cases ty <;> exact hfaM)
      have hun : MapArea.unmapAll ⟨clearedMem ph0 pt D, bA, faA⟩
          ⟨l, r, df, ty, perm⟩ pt =
          some (⟨clearedMem ph0 pt
              (D ++ (⟨l, r, df, ty, perm⟩ : MapArea).pages), bA, faM⟩,
            ⟨l, r, df', ty, perm⟩, pt) := hloop
      obtain ⟨areas'', D'', hrec, hPD'', hcov⟩ := ih
        (D ++ (⟨l, r, df, ty, perm⟩ : MapArea).pages)
        (remain - (r - l)) bA faM faF
        (fun b hb hcb => hPa b (List.mem_cons_of_mem _ hb) hcb)
        (fun d hd => by
          rcases List.mem_append.mp hd with hd | hd
          · exact hPD d hd
          · exact hPpages d hd)
        (fun b hb hcb v hv => by
          intro hmem
          rcases List.mem_append.mp hmem with hmem | hmem
          · exact hnotD b (List.mem_cons_of_mem _ hb) hcb v hv hmem
          · exact (List.pairwise_cons.mp hpair).1 b hb hca hcb v hmem hv)
        (List.pairwise_cons.mp hpair).2 hfaF
      refine ⟨⟨l, r, df', ty, perm⟩ :: areas'',
        (⟨l, r, df, ty, perm⟩ : MapArea).pages ++ D'', ?_, ?_, ?_⟩
      · have hstep := munmapLoop_cons_pos
          ⟨clearedMem ph0 pt D, bA, faA⟩ _ _ pt pt pt s e remain
          ((remain - (r - l)) - sumLens rest s e) _ _ rest areas''
          hca hun hrec
        rw [hstep]
        rw [List.append_assoc, sumLens_cons_pos s e _ rest hca, Nat.sub_sub]
      · intro d hd
        rcases List.mem_append.mp hd with hd | hd
        · exact hPpages d hd
        · exact hPD'' d hd
      · intro b hb hcb v hv
        rcases List.mem_cons.mp hb with rfl | hb
        · rw [List.mem_append]
          right
          rw [List.mem_append]
          exact Or.inl hv
        · have := hcov b hb hcb v hv
          rw [List.append_assoc] at this
          exact this
    · -- the head segment is skipped
      rw [munmapFreeList_cons_neg s e _ rest hca] at hfa
      obtain ⟨areas'', D'', hrec, hPD'', hcov⟩ := ih D remain bA faA faF
        (fun b hb hcb => hPa b (List.mem_cons_of_mem _ hb) hcb)
        hPD
        (fun b hb hcb => hnotD b (List.mem_cons_of_mem _ hb) hcb)
        (List.pairwise_cons.mp hpair).2 hfa
      refine ⟨⟨l, r, df, ty, perm⟩ :: areas'', D'', ?_, hPD'', ?_⟩
      · have hstep := munmapLoop_cons_neg
          ⟨clearedMem ph0 pt D, bA, faA⟩ _ pt pt s e remain
          (remain - sumLens rest s e) _ rest areas'' hca hrec
        rw [hstep, sumLens_cons_neg s e _ rest hca]
      · intro b hb hcb v hv
        rcases List.mem_cons.mp hb with rfl | hb
        · exact absurd hcb hca
        · exact hcov b hb hcb v hv

/-- Pairwise-disjoint contained segments fit into any set containing them:
their total page count is at most its size. -/
theorem sumLens_le (s e : Nat) :
    ∀ (L : List MapArea) (S : Finset Nat),
      (∀ a ∈ L, containedSeg s e a → Finset.Ico a.vpn_l a.vpn_r ⊆ S) →
      L.Pairwise (fun a b => containedSeg s e a → containedSeg s e b →
        a.vpn_r ≤ b.vpn_l ∨ b.vpn_r ≤ a.vpn_l) →
      sumLens L s e ≤ S.card := by
  intro L
  induction L with
  | nil =>
    intro S hsub hpair
    show 0 ≤ S.card
    omega
  | cons a rest ih =>
    intro S hsub hpair
    by_cases hca : containedSeg s e a
    · rw [sumLens_cons_pos s e a rest hca]
      have hsubA : Finset.Ico a.vpn_l a.vpn_r ⊆ S :=
        hsub a (List.mem_cons_self _ _) hca
      have hrest : sumLens rest s e ≤ (S \ Finset.Ico a.vpn_l a.vpn_r).card := by
        apply ih
        · intro b hb hcb
          intro x hx
          rw [Finset.mem_sdiff]
          refine ⟨hsub b (List.mem_cons_of_mem _ hb) hcb hx, ?_⟩
          rw [Finset.mem_Ico] at hx ⊢
          intro hx2
          rcases (List.pairwise_cons.mp hpair).1 b hb hca hcb with hd | hd <;>
            omega
        · exact (List.pairwise_cons.mp hpair).2
      have hcardA : (Finset.Ico a.vpn_l a.vpn_r).card = a.vpn_r - a.vpn_l :=
        Nat.card_Ico _ _
      have hint : S ∩ Finset.Ico a.vpn_l a.vpn_r = Finset.Ico a.vpn_l a.vpn_r :=
        Finset.inter_eq_right.mpr hsubA
      have hsplit := Finset.card_sdiff_add_card_inter S
        (Finset.Ico a.vpn_l a.vpn_r)
      rw [hint, hcardA] at hsplit
      omega
    · rw [sumLens_cons_neg s e a rest hca]
      exact ih S (fun b hb hcb => hsub b (List.mem_cons_of_mem _ hb) hcb)
        (List.pairwise_cons.mp hpair).2

/-- A set covered by the contained segments is no larger than their total
page count. -/
theorem card_le_sumLens (s e : Nat) :
    ∀ (L : List MapArea) (S : Finset Nat),
      (∀ v ∈ S, ∃ a ∈ L, containedSeg s e a ∧ a.vpn_l ≤ v ∧ v < a.vpn_r) →
      S.card ≤ sumLens L s e := by
  intro L
  induction L with
  | nil =>
    intro S hcov
    have hS : S = ∅ := by
      apply Finset.eq_empty_of_forall_not_mem
      intro v hv
      obtain ⟨a, ha, _⟩ := hcov v hv
      simp at ha
    rw [hS]
    simp
  | cons a rest ih =>
    intro S hcov
    by_cases hca : containedSeg s e a
    · rw [sumLens_cons_pos s e a rest hca]
      have hrest : (S \ Finset.Ico a.vpn_l a.vpn_r).card ≤ sumLens rest s e := by
        apply ih
        intro v hv
        rw [Finset.mem_sdiff, Finset.mem_Ico] at hv
        obtain ⟨b, hb, hcb, hbl, hbr⟩ := hcov v hv.1
        rcases List.mem_cons.mp hb with rfl | hb
        · exact absurd ⟨hbl, hbr⟩ hv.2
        · exact ⟨b, hb, hcb, hbl, hbr⟩
      have hint : (S ∩ Finset.Ico a.vpn_l a.vpn_r).card ≤
          a.vpn_r - a.vpn_l := by
        calc (S ∩ Finset.Ico a.vpn_l a.vpn_r).card
            ≤ (Finset.Ico a.vpn_l a.vpn_r).card :=
              Finset.card_le_card Finset.inter_subset_right
        _ = a.vpn_r - a.vpn_l := Nat.card_Ico _ _
      have hsplit := Finset.card_sdiff_add_card_inter S
        (Finset.Ico a.vpn_l a.vpn_r)
      omega
    · rw [sumLens_cons_neg s e a rest hca]
      apply ih
      intro v hv
      obtain ⟨b, hb, hcb, hbl, hbr⟩ := hcov v hv
      rcases List.mem_cons.mp hb with rfl | hb
      · exact absurd hcb hca
      · exact ⟨b, hb, hcb, hbl, hbr⟩

/-- Membership in a step-1 `range'` is interval membership. -/
theorem mem_range'_iff (s n m : Nat) :
    m ∈ List.range' s n ↔ s ≤ m ∧ m < s + n := by
  rw [List.mem_range']
  constructor
  · rintro ⟨i, hi, rfl⟩
    omega
  · rintro ⟨h1, h2⟩
    exact ⟨m - s, by omega, by omega⟩

/-- A contained page lies within the requested page range. -/
theorem containedPage_bounds (areas : List MapArea) (s e v : Nat)
    (h : containedPage areas s e v) : s ≤ v ∧ v < e := by
  obtain ⟨a, _, ⟨hsl, hre⟩, hlv, hvr⟩ := h
  omega

/-- `munmap`, reduced through its loop. -/
theorem munmap_eq (ph ph2 : Phys) (ms : MemorySet) (start len e rem2 : Nat)
    (pt2 : PageTable) (areas2 : List MapArea)
    (he : VirtAddr.ceil (start + len) = some e)
    (hloop : munmapLoop ph ms.page_table (VirtAddr.floor start) e
      (e - VirtAddr.floor start) ms.areas = some (ph2, pt2, areas2, rem2)) :
    MemorySet.munmap ph ms start len =
      some (if rem2 = 0 then 0 else -1, ph2, ⟨pt2, areas2⟩) := by
  unfold MemorySet.munmap
  simp only [he, hloop]

/-- C3: `munmap(start, len)` unmaps exactly the segments wholly contained
in the requested page range: it removes every translation of their pages
and releases their frames; it returns 0 precisely when those segments
exactly cover the range (so any partial overlap or gap yields `-1`); the
page table's node structure, the byte view, and every leaf outside the
contained segments are untouched. -/
theorem munmap_spec (ph : Phys) (ms : MemorySet) (start len : Nat)
    (s e : Nat) (faF : StackFrameAllocator)
    (hs : s = VirtAddr.floor start)
    (he : VirtAddr.ceil (start + len) = some e)
    (Hvalid : ∀ v ∈ List.range' s (e - s), containedPage ms.areas s e v →
      validLeaf ph ms.page_table v = true)
    (Hsep : ∀ v ∈ List.range' s (e - s), ∀ w ∈ List.range' s (e - s),
      containedPage ms.areas s e v → containedPage ms.areas s e w →
      leafSep ph ms.page_table v w)
    (Hpair : ms.areas.Pairwise (fun a b => containedSeg s e a →
      containedSeg s e b → a.vpn_r ≤ b.vpn_l ∨ b.vpn_r ≤ a.vpn_l))
    (Hfree : runDeallocs ph.fa (munmapFreeList ms.areas s e) = some faF) :
    ∃ ph' areas',
      MemorySet.munmap ph ms start len =
        some (if ∀ v ∈ List.range' s (e - s), containedPage ms.areas s e v
          then 0 else -1, ph', ⟨ms.page_table, areas'⟩) ∧
      ph'.bytes = ph.bytes ∧ ph'.fa = faF ∧
      (∀ v, containedPage ms.areas s e v →
        validLeaf ph' ms.page_table v = false) ∧
      (∀ p i, ph'.mem p i = ph.mem p i ∨
        ∃ v, containedPage ms.areas s e v ∧
          p = node2 ph ms.page_table v ∧ i = idx2 v ∧ ph'.mem p i = 0) := by
  obtain ⟨m0, b0, fa0⟩ := ph
  set ph0 : Phys := ⟨m0, b0, fa0⟩ with hph0
  have hmemrange : ∀ v, containedPage ms.areas s e v →
      v ∈ List.range' s (e - s) := by
    intro v hv
    have hb := containedPage_bounds _ _ _ _ hv
    rw [mem_range'_iff]
    omega
  have hPvalid : ∀ v, containedPage ms.areas s e v →
      validLeaf ph0 ms.page_table v = true :=
    fun v hv => Hvalid v (hmemrange v hv) hv
  have hPsep : ∀ v w, containedPage ms.areas s e v →
      containedPage ms.areas s e w → leafSep ph0 ms.page_table v w :=
    fun v w hv hw => Hsep v (hmemrange v hv) w (hmemrange w hw) hv hw
  have hpages_mem : ∀ (a : MapArea), a ∈ ms.areas → containedSeg s e a →
      ∀ v ∈ a.pages, containedPage ms.areas s e v := by
    intro a ha hca v hv
    rw [MapArea.pages, mem_range'_iff] at hv
    exact ⟨a, ha, hca, hv.1, by omega⟩
  obtain ⟨areas', D', hloop, hPD', hcov'⟩ :=
    munmapLoop_clears ph0 ms.page_table s e (containedPage ms.areas s e)
      hPvalid hPsep ms.areas [] (e - s) b0 fa0 faF
      hpages_mem
      (by intro d hd; simp at hd)
      (by intro a ha hca v hv; exact List.not_mem_nil v)
      (Hpair.imp (by
        intro a b hab hca hcb v hv hvb
        rw [MapArea.pages, mem_range'_iff] at hv hvb
        rcases hab hca hcb with hd | hd <;> omega))
      Hfree
  rw [show clearedMem ph0 ms.page_table [] = m0 from clearedMem_nil ph0 _]
    at hloop
  rw [List.nil_append] at hloop hcov'
  -- the remaining counter is zero exactly on full coverage
  have hsum_le : sumLens ms.areas s e ≤ e - s := by
    have := sumLens_le s e ms.areas (Finset.Ico s e)
      (by
        intro a ha hca x hx
        rw [Finset.mem_Ico] at hx ⊢
        obtain ⟨h1, h2⟩ := hca
        omega)
      Hpair
    rwa [Nat.card_Ico] at this
  have hremain_iff : ((e - s) - sumLens ms.areas s e = 0) ↔
      (∀ v ∈ List.range' s (e - s), containedPage ms.areas s e v) := by
    constructor
    · intro h0 v hv
      by_contra hnc
      rw [mem_range'_iff] at hv
      have hlt : sumLens ms.areas s e ≤ (Finset.Ico s e \ {v}).card := by
        apply sumLens_le s e ms.areas _ _ Hpair
        intro a ha hca x hx
        rw [Finset.mem_sdiff, Finset.mem_Ico, Finset.mem_singleton]
        rw [Finset.mem_Ico] at hx
        obtain ⟨h1, h2⟩ := hca
        refine ⟨by omega, ?_⟩
        intro hxv
        exact hnc ⟨a, ha, ⟨h1, h2⟩, by omega, by omega⟩
      rw [Finset.card_sdiff (by
          rw [Finset.singleton_subset_iff, Finset.mem_Ico]; omega),
        Nat.card_Ico, Finset.card_singleton] at hlt
      omega
    · intro hcov
      have hge := card_le_sumLens s e ms.areas (Finset.Ico s e) (by
        intro v hv
        rw [Finset.mem_Ico] at hv
        obtain ⟨a, ha, hca, h1, h2⟩ := hcov v (by rw [mem_range'_iff]; omega)
        exact ⟨a, ha, hca, h1, h2⟩)
      rw [Nat.card_Ico] at hge
      omega
  have hiteq : (if (e - s) - sumLens ms.areas s e = 0 then (0 : Int)
      else -1) =
      (if ∀ v ∈ List.range' s (e - s), containedPage ms.areas s e v
        then 0 else -1) := by
    by_cases hc : (e - s) - sumLens ms.areas s e = 0
    · rw [if_pos hc, if_pos (hremain_iff.mp hc)]
    · rw [if_neg hc, if_neg (fun hcov => hc (hremain_iff.mpr hcov))]
  refine ⟨⟨clearedMem ph0 ms.page_table D', b0, faF⟩, areas', ?_, rfl, rfl,
    ?_, ?_⟩
  · have := munmap_eq ph0 ⟨clearedMem ph0 ms.page_table D', b0, faF⟩ ms
      start len e ((e - s) - sumLens ms.areas s e) ms.page_table areas' he
      (by rw [← hs]; exact hloop)
    rw [this, hiteq]
  · intro v hv
    have hin : v ∈ D' := by
      obtain ⟨a, ha, hca, h1, h2⟩ := hv
      refine hcov' a ha hca v ?_
      rw [MapArea.pages, mem_range'_iff]
      omega
    exact validLeaf_clearedMem_false ph0 ms.page_table D' b0 faF v
      (fun d hd => hPsep v d hv (hPD' d hd)) hin
  · intro p i
    show clearedMem ph0 ms.page_table D' p i = m0 p i ∨ _
    by_cases hd : ∃ d ∈ D', p = node2 ph0 ms.page_table d ∧ i = idx2 d
    · right
      obtain ⟨d, hdm, hp, hi⟩ := hd
      refine ⟨d, hPD' d hdm, hp, hi, ?_⟩
      show clearedMem ph0 ms.page_table D' p i = 0
      unfold clearedMem
      rw [if_pos ⟨d, hdm, hp, hi⟩]
    · left
      unfold clearedMem
      rw [if_neg hd]

/-- A page of the first leaf node has page-table indices `[0, 0, v]`. -/
theorem indexes_small (v : Nat) (h : v < 512) :
    VirtPageNum.indexes v = [0, 0, v] := by
  unfold VirtPageNum.indexes
  rw [Nat.shiftRight_eq_div_pow, Nat.shiftRight_eq_div_pow]
  have h18 : v / 2 ^ 18 = 0 := Nat.div_eq_of_lt (lt_of_lt_of_le h (by norm_num))
  have h9 : v / 2 ^ 9 = 0 := Nat.div_eq_of_lt (lt_of_lt_of_le h (by norm_num))
  rw [h18, h9]
  simp [Nat.mod_eq_of_lt h]

/-- The split indices of a first-leaf-node page. -/
theorem idx_small (v : Nat) (h : v < 512) :
    idx0 v = 0 ∧ idx1 v = 0 ∧ idx2 v = v := by
  unfold idx0 idx1 idx2
  rw [Nat.shiftRight_eq_div_pow, Nat.shiftRight_eq_div_pow]
  have h18 : v / 2 ^ 18 = 0 := Nat.div_eq_of_lt (lt_of_lt_of_le h (by norm_num))
  have h9 : v / 2 ^ 9 = 0 := Nat.div_eq_of_lt (lt_of_lt_of_le h (by norm_num))
  rw [h18, h9]
  simp [Nat.mod_eq_of_lt h]

/-- The trampoline page's indices. -/
theorem indexes_tramp : VirtPageNum.indexes trampVpn = [511, 511, 511] := by
  decide

/-- The trap-context page's indices. -/
theorem indexes_trapv : VirtPageNum.indexes trapVpn = [511, 511, 510] := by
  decide

/-- `MapArea::new` on a nonempty, well-ordered byte range. -/
theorem new?_some (s e : Nat) (ty : MapType) (perm : Nat) (he : e ≠ 0)
    (hse : s ≤ e) :
    MapArea.new? s e ty perm =
      some ⟨VirtAddr.floor s, (e - 1 + PAGE_SIZE) / PAGE_SIZE, [], ty,
        perm⟩ := by
  have hle : VirtAddr.floor s ≤ (e - 1 + PAGE_SIZE) / PAGE_SIZE := by
    unfold VirtAddr.floor PAGE_SIZE
    exact Nat.div_le_div_right (by omega)
  unfold MapArea.new? VirtAddr.ceil
  rw [if_neg he]
  simp only [hle, if_pos]

/-- `dfInsert` updates `dfLookup` pointwise. -/
theorem dfLookup_dfInsert (df : List (Nat × Nat)) (v f w : Nat) :
    dfLookup (dfInsert df v f) w =
      if w = v then some f else dfLookup df w := by
  induction df with
  | nil =>
    simp only [dfInsert, dfLookup]
    by_cases h : v = w
    · subst h; simp
    · rw [if_neg h, if_neg (fun hwv : w = v => h hwv.symm)]
  | cons kv rest ih =>
    obtain ⟨k, x⟩ := kv
    simp only [dfInsert]
    by_cases h1 : v < k
    · rw [if_pos h1]
      simp only [dfLookup]
      by_cases h : v = w
      · subst h; simp
      · rw [if_neg h, if_neg (fun hwv : w = v => h hwv.symm)]
    · rw [if_neg h1]
      by_cases h2 : v = k
      · subst h2
        rw [if_pos rfl]
        simp only [dfLookup]
        by_cases h : v = w
        · subst h; simp
        · rw [if_neg h, if_neg (fun hwv : w = v => h hwv.symm), if_neg h]
      · rw [if_neg h2]
        simp only [dfLookup]
        by_cases h3 : k = w
        · subst h3
          rw [if_pos rfl, if_pos rfl,
            if_neg (fun hwv : k = v => h2 hwv.symm)]
        · rw [if_neg h3, if_neg h3, ih]

/-- Forcing the low bit with `|` yields an odd result. -/
theorem or_one_and_one (x : Nat) : (x ||| 1) &&& 1 ≠ 0 := by
  intro hcontra
  have h := congrArg (fun n => n.testBit 0) hcontra
  have h1 : Nat.testBit 1 0 = true := rfl
  have h0 : Nat.testBit 0 0 = false := rfl
  simp only [Nat.testBit_and, Nat.testBit_or, h1, h0, Bool.or_true,
    Bool.and_true] at h
  simp at h

/-- A node-pointer entry (`V`-only, 44-bit target) is valid and recovers
its target. -/
theorem ptr_entry (x : Nat) (hx : x < 2 ^ 44) :
    (⟨x <<< 10 ||| 1⟩ : PageTableEntry).is_valid = true ∧
      (⟨x <<< 10 ||| 1⟩ : PageTableEntry).ppn = x :=
  ⟨pte_new_valid x 1 (by norm_num) (by decide),
    pte_new_ppn x 1 hx (by norm_num)⟩

/-- `getLastD` is the default or a member. -/
theorem getLastD_mem_or (l : List Nat) (d : Nat) :
    l.getLastD d = d ∨ l.getLastD d ∈ l := by
  induction l generalizing d with
  | nil => exact Or.inl rfl
  | cons a t ih =>
    rw [List.getLastD_cons]
    rcases ih a with h | h
    · right; rw [h]; exact List.mem_cons_self a t
    · right; exact List.mem_cons_of_mem a h

/-- In a sorted list every element is at most the last one. -/
theorem sorted_le_getLastD (l : List Nat) (d : Nat)
    (hs : l.Sorted (· ≤ ·)) : ∀ x ∈ l, x ≤ l.getLastD d := by
  induction l generalizing d with
  | nil => intro x hx; simp at hx
  | cons a t ih =>
    intro x hx
    rw [List.getLastD_cons]
    rcases List.mem_cons.mp hx with rfl | hxt
    · rcases getLastD_mem_or t x with he | hm
      · rw [he]
      · exact (List.sorted_cons.mp hs).1 _ hm
    · exact ih _ (List.sorted_cons.mp hs).2 x hxt

/-- The number of chunks `copy_data` visits, arithmetically. -/
theorem chunkList_length (l : List Nat) :
    (chunkList l).length = chunkCount l.length := by
  by_cases h : l.length ≤ PAGE_SIZE
  · rw [chunkList, if_pos h]
    unfold chunkCount PAGE_SIZE at *
    by_cases h0 : l.length = 0 <;> simp [h0] <;> omega
  · rw [chunkList, if_neg h]
    simp only [List.length_cons]
    rw [chunkList_length (l.drop PAGE_SIZE), List.length_drop]
    unfold chunkCount PAGE_SIZE at *
    split_ifs <;> omega
termination_by l.length
decreasing_by simp [List.length_drop]; unfold PAGE_SIZE at *; omega

/-- The permission byte derived from a header's flags fits in a byte. -/
theorem phPerm_lt (p : ProgramHeader) : phPerm p < 256 := by
  unfold phPerm MapPermU MapPermR MapPermW MapPermX
  have hb : (256 : Nat) = 2 ^ 8 := by norm_num
  rw [hb]
  refine Nat.or_lt_two_pow (Nat.or_lt_two_pow (Nat.or_lt_two_pow ?_ ?_) ?_) ?_
  · norm_num
  · cases p.is_read <;> simp
  · cases p.is_write <;> simp
  · cases p.is_execute <;> simp

/-- A point update leaves other pages' entries alone. -/
theorem memSet_page_ne (m : Nat → Nat → Nat) (p i x q j : Nat) (h : q ≠ p) :
    memSet m p i x q j = m q j := if_neg (fun hc => h hc.1)

/-- A page zero-fill leaves other pages alone. -/
theorem memZeroPage_ne (m : Nat → Nat → Nat) (p q j : Nat) (h : q ≠ p) :
    memZeroPage m p q j = m q j := if_neg h

/-- The trampoline spine survives any rewrite that fixes its three nodes. -/
theorem trampSpine_update (m m' : Nat → Nat → Nat) (r t1 t2 : Nat)
    (uo : Option (Nat × Nat)) (hs : trampSpine m r t1 t2 uo)
    (h1 : ∀ i < 512, m' r i = m r i) (h2 : ∀ i < 512, m' t1 i = m t1 i)
    (h3 : ∀ i < 512, m' t2 i = m t2 i) : trampSpine m' r t1 t2 uo :=
  ⟨fun i hi => (h1 i hi).trans (hs.1 i hi),
   fun i hi => (h2 i hi).trans (hs.2.1 i hi),
   fun i hi => (h3 i hi).trans (hs.2.2 i hi)⟩

/-- The user spine survives any rewrite that fixes its two nodes. -/
theorem userSpine_update (m m' : Nat → Nat → Nat) (u1 u2 : Nat)
    (S : Nat → Option (Nat × Nat)) (hs : userSpine m u1 u2 S)
    (h1 : ∀ i < 512, m' u1 i = m u1 i) (h2 : ∀ i < 512, m' u2 i = m u2 i) :
    userSpine m' u1 u2 S :=
  ⟨fun i hi => (h1 i hi).trans (hs.1 i hi),
   fun i hi => (h2 i hi).trans (hs.2 i hi)⟩

/-- The walk of a first-leaf-node page under the builder invariant with a
user spine: both non-leaf levels are valid and the leaf entry is `S v`. -/
theorem walk_small (ph : Phys) (pt : PageTable) (r t1 t2 u1 u2 : Nat)
    (S : Nat → Option (Nat × Nat)) (v : Nat)
    (hB : BInv ph pt r t1 t2 (some (u1, u2)) S) (hv : v < 512) :
    entry0 ph pt v = ⟨u1 <<< 10 ||| 1⟩ ∧ node1 ph pt v = u1 ∧
      entry1 ph pt v = ⟨u2 <<< 10 ||| 1⟩ ∧ node2 ph pt v = u2 ∧
      pathOk ph pt v = true ∧
      leafEntry ph pt v =
        ⟨match S v with | some (p, f) => p <<< 10 ||| f | none => 0⟩ := by
  obtain ⟨hroot, hrec, hce, hE, hr, ht1, ht2, hrt1, hrt2, ht12, hspine, hu,
    hSwf⟩ := hB
  obtain ⟨hu1c, hu2c, hu1r, hu1t1, hu1t2, hu2r, hu2t1, hu2t2, hu12,
    huser⟩ := hu
  obtain ⟨hidx0, hidx1, hidx2⟩ := idx_small v hv
  have hu1lt : u1 < 2 ^ 44 := lt_of_lt_of_le (lt_of_lt_of_le hu1c hce) hE
  have hu2lt : u2 < 2 ^ 44 := lt_of_lt_of_le (lt_of_lt_of_le hu2c hce) hE
  have he0 : entry0 ph pt v = ⟨u1 <<< 10 ||| 1⟩ := by
    unfold entry0
    rw [hroot, hidx0, hspine.1 0 (by norm_num)]
    rfl
  have hn1 : node1 ph pt v = u1 := by
    unfold node1
    rw [he0]
    exact (ptr_entry u1 hu1lt).2
  have he1 : entry1 ph pt v = ⟨u2 <<< 10 ||| 1⟩ := by
    unfold entry1
    rw [hn1, hidx1, huser.1 0 (by norm_num)]
    rfl
  have hn2 : node2 ph pt v = u2 := by
    unfold node2
    rw [he1]
    exact (ptr_entry u2 hu2lt).2
  have hpo : pathOk ph pt v = true := by
    unfold pathOk
    rw [he0, he1, (ptr_entry u1 hu1lt).1, (ptr_entry u2 hu2lt).1]
    rfl
  have hle : leafEntry ph pt v =
      ⟨match S v with | some (p, f) => p <<< 10 ||| f | none => 0⟩ := by
    unfold leafEntry
    rw [hn2, hidx2, huser.2 v hv]
  exact ⟨he0, hn1, he1, hn2, hpo, hle⟩

/-- Translation of a first-leaf-node page needs only the three user-path
reads; it survives into any later state that fixes them. -/
theorem translate_smallM (ph : Phys) (pt : PageTable) (r t1 t2 u1 u2 : Nat)
    (S : Nat → Option (Nat × Nat))
    (hB : BInv ph pt r t1 t2 (some (u1, u2)) S)
    (m' b' : Nat → Nat → Nat) (fa' : StackFrameAllocator) (pt' : PageTable)
    (hpt' : pt'.root_ppn = pt.root_ppn)
    (h1 : m' r 0 = ph.mem r 0) (h2 : m' u1 0 = ph.mem u1 0)
    (h3 : ∀ i < 512, m' u2 i = ph.mem u2 i)
    (w : Nat) (hw : w < 512) :
    PageTable.translate ⟨m', b', fa'⟩ pt' w =
      some ⟨match S w with | some (p, f) => p <<< 10 ||| f | none => 0⟩ := by
  obtain ⟨hroot, hrec, hce, hE, hr, ht1, ht2, hrt1, hrt2, ht12, hspine, hu,
    hSwf⟩ := hB
  obtain ⟨hu1c, hu2c, hu1r, hu1t1, hu1t2, hu2r, hu2t1, hu2t2, hu12,
    huser⟩ := hu
  obtain ⟨hidx0, hidx1, hidx2⟩ := idx_small w hw
  have hu1lt : u1 < 2 ^ 44 := lt_of_lt_of_le (lt_of_lt_of_le hu1c hce) hE
  have hu2lt : u2 < 2 ^ 44 := lt_of_lt_of_le (lt_of_lt_of_le hu2c hce) hE
  set phN : Phys := ⟨m', b', fa'⟩ with hphN
  have he0 : entry0 phN pt' w = ⟨u1 <<< 10 ||| 1⟩ := by
    unfold entry0
    show (⟨m' pt'.root_ppn (idx0 w)⟩ : PageTableEntry) = _
    rw [hpt', hroot, hidx0, h1, hspine.1 0 (by norm_num)]
    rfl
  have hn1 : node1 phN pt' w = u1 := by
    unfold node1
    rw [he0]
    exact (ptr_entry u1 hu1lt).2
  have he1 : entry1 phN pt' w = ⟨u2 <<< 10 ||| 1⟩ := by
    unfold entry1
    show (⟨m' (node1 phN pt' w) (idx1 w)⟩ : PageTableEntry) = _
    rw [hn1, hidx1, h2, huser.1 0 (by norm_num)]
    rfl
  have hn2 : node2 phN pt' w = u2 := by
    unfold node2
    rw [he1]
    exact (ptr_entry u2 hu2lt).2
  have hpo : pathOk phN pt' w = true := by
    unfold pathOk
    rw [he0, he1, (ptr_entry u1 hu1lt).1, (ptr_entry u2 hu2lt).1]
    rfl
  have hle : leafEntry phN pt' w =
      ⟨match S w with | some (p, f) => p <<< 10 ||| f | none => 0⟩ := by
    unfold leafEntry
    show (⟨m' (node2 phN pt' w) (idx2 w)⟩ : PageTableEntry) = _
    rw [hn2, hidx2, h3 w hw, huser.2 w hw]
  rw [PageTable.translate, find_pte_eq, if_pos hpo, hle]

/-- The write half of `PageTable::map`: given that the walk ended at the
leaf slot `(u2, v)` of a state satisfying the invariant, the fatal
valid-assert passes for a fresh page and exactly that slot is written,
extending `S` by the new leaf. -/
theorem map_write (ph phX : Phys) (pt ptX : PageTable) (r t1 t2 u1 u2 : Nat)
    (S : Nat → Option (Nat × Nat)) (v p fl : Nat)
    (hcr : PageTable.find_pte_create ph pt v = some ((u2, v), phX, ptX))
    (hBX : BInv phX ptX r t1 t2 (some (u1, u2)) S) (hv : v < 512)
    (hSv : S v = none) (hp : p < 2 ^ 44) (hfl : fl < 256) :
    PageTable.map ph pt v p fl =
      some (⟨memSet phX.mem u2 v (p <<< 10 ||| (fl ||| PTEV)), phX.bytes,
        phX.fa⟩, ptX) ∧
      BInv ⟨memSet phX.mem u2 v (p <<< 10 ||| (fl ||| PTEV)), phX.bytes,
        phX.fa⟩ ptX r t1 t2 (some (u1, u2))
        (fun w => if w = v then some (p, fl ||| PTEV) else S w) := by
  obtain ⟨hroot, hrec, hce, hE, hr, ht1, ht2, hrt1, hrt2, ht12, hspine, hu,
    hSwf⟩ := hBX
  obtain ⟨hu1c, hu2c, hu1r, hu1t1, hu1t2, hu2r, hu2t1, hu2t2, hu12,
    huser⟩ := hu
  have hleaf0 : phX.mem u2 v = 0 := by
    rw [huser.2 v hv, hSv]
  have hmap : PageTable.map ph pt v p fl =
      some (⟨memSet phX.mem u2 v (p <<< 10 ||| (fl ||| PTEV)), phX.bytes,
        phX.fa⟩, ptX) := by
    unfold PageTable.map
    rw [hcr]
    simp only [hleaf0]
    rw [if_neg (by decide)]
    rfl
  refine ⟨hmap, hroot, hrec, hce, hE, hr, ht1, ht2, hrt1, hrt2, ht12, ?_,
    ?_, ?_⟩
  · exact trampSpine_update phX.mem _ r t1 t2 _ hspine
      (fun i hi => memSet_page_ne _ _ _ _ _ _ (Ne.symm hu2r))
      (fun i hi => memSet_page_ne _ _ _ _ _ _ (Ne.symm hu2t1))
      (fun i hi => memSet_page_ne _ _ _ _ _ _ (Ne.symm hu2t2))
  · refine ⟨hu1c, hu2c, hu1r, hu1t1, hu1t2, hu2r, hu2t1, hu2t2, hu12, ?_,
      ?_⟩
    · intro i hi
      show memSet phX.mem u2 v (p <<< 10 ||| (fl ||| PTEV)) u1 i = _
      rw [memSet_page_ne _ _ _ _ _ _ hu12]
      exact huser.1 i hi
    · intro i hi
      by_cases hiv : i = v
      · subst hiv
        show memSet phX.mem u2 i (p <<< 10 ||| (fl ||| PTEV)) u2 i =
          match (if i = i then some (p, fl ||| PTEV) else S i) with
          | some (pw, fw) => pw <<< 10 ||| fw
          | none => 0
        rw [if_pos rfl]
        exact if_pos ⟨rfl, rfl⟩
      · show memSet phX.mem u2 v (p <<< 10 ||| (fl ||| PTEV)) u2 i =
          match (if i = v then some (p, fl ||| PTEV) else S i) with
          | some (pw, fw) => pw <<< 10 ||| fw
          | none => 0
        rw [if_neg hiv]
        have hms : memSet phX.mem u2 v (p <<< 10 ||| (fl ||| PTEV)) u2 i =
            phX.mem u2 i := if_neg (fun hc => hiv hc.2)
        rw [hms]
        exact huser.2 i hi
  · intro w pw fw hw
    by_cases hwv : w = v
    · have hw' : some (p, fl ||| PTEV) = some (pw, fw) := by
        rw [← hw]
        show some (p, fl ||| PTEV) =
          if w = v then some (p, fl ||| PTEV) else S w
        rw [if_pos hwv]
      have hpair : (p, fl ||| PTEV) = (pw, fw) := Option.some.inj hw'
      have hp1 : p = pw := congrArg Prod.fst hpair
      have hp2 : fl ||| PTEV = fw := congrArg Prod.snd hpair
      refine ⟨by rw [hwv]; exact hv, hp1 ▸ hp, ?_,
        hp2 ▸ or_one_and_one fl⟩
      rw [← hp2]
      have h8 : (2 : Nat) ^ 8 = 256 := by norm_num
      rw [← h8] at hfl ⊢
      exact Nat.or_lt_two_pow hfl (by decide)
    · have hw2 : S w = some (pw, fw) := by
        rw [← hw]
        show S w = if w = v then some (p, fl ||| PTEV) else S w
        rw [if_neg hwv]
      exact hSwf w pw fw hw2

/-- `PageTable::map` of a fresh first-leaf-node page under the invariant
with a user spine: no node is created, exactly the leaf slot of `u2` is
written, and the invariant extends `S` by the new leaf. -/
theorem map_small (ph : Phys) (pt : PageTable) (r t1 t2 u1 u2 : Nat)
    (S : Nat → Option (Nat × Nat)) (v p fl : Nat)
    (hB : BInv ph pt r t1 t2 (some (u1, u2)) S) (hv : v < 512)
    (hSv : S v = none) (hp : p < 2 ^ 44) (hfl : fl < 256) :
    PageTable.map ph pt v p fl =
      some (⟨memSet ph.mem u2 v (p <<< 10 ||| (fl ||| PTEV)), ph.bytes,
        ph.fa⟩, pt) ∧
      BInv ⟨memSet ph.mem u2 v (p <<< 10 ||| (fl ||| PTEV)), ph.bytes,
        ph.fa⟩ pt r t1 t2 (some (u1, u2))
        (fun w => if w = v then some (p, fl ||| PTEV) else S w) := by
  obtain ⟨he0, hn1, he1, hn2, hpo, hle⟩ :=
    walk_small ph pt r t1 t2 u1 u2 S v hB hv
  have hcr : PageTable.find_pte_create ph pt v = some ((u2, v), ph, pt) := by
    rw [find_pte_create_of_pathOk ph pt v hpo, hn2, (idx_small v hv).2.2]
  exact map_write ph ph pt pt r t1 t2 u1 u2 S v p fl hcr hB hv hSv hp hfl

/-- One fresh frame allocation under the invariant: it hands out `current`
(zero-filling that page in both views) and preserves the invariant. -/
theorem binv_alloc (ph : Phys) (pt : PageTable) (r t1 t2 : Nat)
    (uo : Option (Nat × Nat)) (S : Nat → Option (Nat × Nat))
    (hB : BInv ph pt r t1 t2 uo S) (hlt : ph.fa.current < ph.fa.end_) :
    ph.frame_alloc = some (ph.fa.current,
      ⟨memZeroPage ph.mem ph.fa.current, memZeroPage ph.bytes ph.fa.current,
        ⟨ph.fa.current + 1, ph.fa.end_, []⟩⟩) ∧
    BInv ⟨memZeroPage ph.mem ph.fa.current,
      memZeroPage ph.bytes ph.fa.current,
      ⟨ph.fa.current + 1, ph.fa.end_, []⟩⟩ pt r t1 t2 uo S := by
  obtain ⟨hroot, hrec, hce, hE, hr, ht1, ht2, hrt1, hrt2, ht12, hspine, hu,
    hSwf⟩ := hB
  have halloc : ph.fa.alloc = (some ph.fa.current,
      ⟨ph.fa.current + 1, ph.fa.end_, []⟩) := by
    unfold StackFrameAllocator.alloc
    rw [hrec]
    show (if ph.fa.current = ph.fa.end_ then (none, ph.fa)
      else (some ph.fa.current, ⟨ph.fa.current + 1, ph.fa.end_, []⟩)) = _
    rw [if_neg (Nat.ne_of_lt hlt)]
  refine ⟨?_, hroot, rfl, show ph.fa.current + 1 ≤ ph.fa.end_ by omega, hE,
    Nat.lt_succ_of_lt hr, Nat.lt_succ_of_lt ht1, Nat.lt_succ_of_lt ht2,
    hrt1, hrt2, ht12, ?_, ?_, hSwf⟩
  · unfold Phys.frame_alloc
    rw [halloc]
  · exact trampSpine_update ph.mem _ r t1 t2 uo hspine
      (fun i hi => memZeroPage_ne _ _ _ _ (Nat.ne_of_lt hr))
      (fun i hi => memZeroPage_ne _ _ _ _ (Nat.ne_of_lt ht1))
      (fun i hi => memZeroPage_ne _ _ _ _ (Nat.ne_of_lt ht2))
  · cases uo with
    | none => exact hu
    | some u =>
      obtain ⟨u1, u2⟩ := u
      obtain ⟨hu1c, hu2c, hu1r, hu1t1, hu1t2, hu2r, hu2t1, hu2t2, hu12,
        huser⟩ := hu
      exact ⟨Nat.lt_succ_of_lt hu1c, Nat.lt_succ_of_lt hu2c, hu1r, hu1t1,
        hu1t2, hu2r, hu2t1, hu2t2, hu12,
        userSpine_update ph.mem _ u1 u2 S huser
          (fun i hi => memZeroPage_ne _ _ _ _ (Nat.ne_of_lt hu1c))
          (fun i hi => memZeroPage_ne _ _ _ _ (Nat.ne_of_lt hu2c))⟩

/-- `frame_alloc` on a literal clean allocator state. -/
theorem frame_alloc_plain (m b : Nat → Nat → Nat) (c E : Nat) (h : c < E) :
    Phys.frame_alloc ⟨m, b, ⟨c, E, []⟩⟩ =
      some (c, ⟨memZeroPage m c, memZeroPage b c, ⟨c + 1, E, []⟩⟩) := by
  simp only [Phys.frame_alloc, StackFrameAllocator.alloc]
  rw [if_neg (Nat.ne_of_lt h)]

/-- `MapArea::map_one` of a fresh first-leaf-node page of a framed segment:
it allocates the data frame (and, on the very first user page, the two user
table nodes), installs the leaf, and extends the invariant by the new leaf. -/
theorem map_one_binv (ph : Phys) (pt : PageTable) (r t1 t2 : Nat)
    (uo : Option (Nat × Nat)) (S : Nat → Option (Nat × Nat))
    (al ar perm : Nat) (df : List (Nat × Nat)) (v : Nat)
    (hB : BInv ph pt r t1 t2 uo S) (hv : v < 512) (hSv : S v = none)
    (hperm : perm < 256) (hdfv : dfLookup df v = none)
    (hbud : ph.fa.current + 3 ≤ ph.fa.end_) :
    ∃ ph' pt' u1 u2 fv,
      MapArea.map_one ph ⟨al, ar, df, .Framed, perm⟩ pt v =
        some (ph', ⟨al, ar, dfInsert df v fv, .Framed, perm⟩, pt') ∧
      BInv ph' pt' r t1 t2 (some (u1, u2))
        (fun w => if w = v then some (fv, perm ||| PTEV) else S w) ∧
      (∀ x y, uo = some (x, y) → u1 = x ∧ u2 = y) ∧
      ph.fa.current ≤ ph'.fa.current ∧
      ph'.fa.current ≤ ph.fa.current + 3 ∧
      ph'.fa.end_ = ph.fa.end_ := by
  have hlt1 : ph.fa.current < ph.fa.end_ := by omega
  obtain ⟨hfa, hB1⟩ := binv_alloc ph pt r t1 t2 uo S hB hlt1
  have hE0 : ph.fa.end_ ≤ 2 ^ 44 := hB.2.2.2.1
  set fv := ph.fa.current with hfv
  set ph1 : Phys := ⟨memZeroPage ph.mem fv, memZeroPage ph.bytes fv,
    ⟨fv + 1, ph.fa.end_, []⟩⟩ with hph1
  have hfvlt : fv < 2 ^ 44 := by omega
  cases uo with
  | some u =>
    obtain ⟨x, y⟩ := u
    have hm := map_small ph1 pt r t1 t2 x y S v fv perm hB1 hv hSv hfvlt
      hperm
    refine ⟨⟨memSet ph1.mem y v (fv <<< 10 ||| (perm ||| PTEV)), ph1.bytes,
      ph1.fa⟩, pt, x, y, fv, ?_, hm.2, ?_, Nat.le_succ fv,
      Nat.add_le_add_left (by norm_num) fv, rfl⟩
    · unfold MapArea.map_one
      simp only [hfa, hdfv]
      rw [hm.1]
      rfl
    · intro a b hab
      have h2 := Option.some.inj hab
      exact ⟨congrArg Prod.fst h2, congrArg Prod.snd h2⟩
  | none =>
    obtain ⟨hroot0, hrec0, hce0, hE0b, hr0, ht10, ht20, hrt1, hrt2, ht12,
      hspine0, hu0, hSwf0⟩ := hB
    have hB1c := hB1
    obtain ⟨hroot1, hrec1, hce1, hE1, hr1, ht11, ht21, hrt1b, hrt2b, ht12b,
      hspine1, hu1n, hSwf1⟩ := hB1c
    have hu1lt : fv + 1 < 2 ^ 44 := by omega
    have hu2lt : fv + 2 < 2 ^ 44 := by omega
    obtain ⟨hfa2, hB2⟩ := binv_alloc ph1 pt r t1 t2 none S hB1
      (show fv + 1 < ph.fa.end_ by omega)
    rw [show ph1.fa.current = fv + 1 from rfl,
      show ph1.fa.end_ = ph.fa.end_ from rfl] at hfa2
    set ph2 : Phys := ⟨memZeroPage ph1.mem (fv + 1),
      memZeroPage ph1.bytes (fv + 1), ⟨fv + 2, ph.fa.end_, []⟩⟩ with hph2
    set phA : Phys := ⟨memSet ph2.mem r 0 (PageTableEntry.new (fv + 1)
      PTEV).bits, ph2.bytes, ⟨fv + 2, ph.fa.end_, []⟩⟩ with hphA
    set ptA : PageTable := ⟨r, pt.frames ++ [fv + 1]⟩ with hptA
    have hinv0 : (⟨ph1.mem r 0⟩ : PageTableEntry).is_valid = false := by
      rw [show ph1.mem r 0 = ph.mem r 0 from
        memZeroPage_ne _ _ _ _ (Nat.ne_of_lt hr0),
        hspine0.1 0 (by norm_num),
        if_neg (show ¬(0 : Nat) = 511 by norm_num)]
      decide
    have hstep1 : PageTable.find_pte_create ph1 pt v =
        find_pte_create_loop phA ptA (fv + 1) 1 [0, v] := by
      rw [find_pte_create_eq_loop, hroot0, (idx_small v hv).1,
        (idx_small v hv).2.1, (idx_small v hv).2.2,
        loop_step_invalid_alloc ph1 ph2 pt r 0 0 (fv + 1) [0, v]
          (by norm_num) hinv0 hfa2,
        pte_new_ppn (fv + 1) PTEV hu1lt (by decide), hroot0]
    have hA0 : phA.mem (fv + 1) 0 = 0 := by
      show memSet ph2.mem r 0 (PageTableEntry.new (fv + 1) PTEV).bits
        (fv + 1) 0 = 0
      rw [memSet_page_ne _ _ _ _ _ _ (by omega : fv + 1 ≠ r)]
      show memZeroPage ph1.mem (fv + 1) (fv + 1) 0 = 0
      exact if_pos rfl
    have hinvA : (⟨phA.mem (fv + 1) 0⟩ : PageTableEntry).is_valid =
        false := by
      rw [hA0]
      decide
    set ph3 : Phys := ⟨memZeroPage phA.mem (fv + 2),
      memZeroPage phA.bytes (fv + 2), ⟨fv + 3, ph.fa.end_, []⟩⟩ with hph3
    have hfa3 : phA.frame_alloc = some (fv + 2, ph3) :=
      frame_alloc_plain _ _ (fv + 2) ph.fa.end_ (by omega)
    set phB : Phys := ⟨memSet ph3.mem (fv + 1) 0 (PageTableEntry.new
      (fv + 2) PTEV).bits, ph3.bytes, ⟨fv + 3, ph.fa.end_, []⟩⟩ with hphB
    set ptB : PageTable := ⟨r, pt.frames ++ [fv + 1] ++ [fv + 2]⟩ with hptB
    have hstep2 : find_pte_create_loop phA ptA (fv + 1) 1 [0, v] =
        find_pte_create_loop phB ptB (fv + 2) 2 [v] := by
      rw [loop_step_invalid_alloc phA ph3 ptA (fv + 1) 1 0 (fv + 2) [v]
          (by norm_num) hinvA hfa3,
        pte_new_ppn (fv + 2) PTEV hu2lt (by decide)]
    have hcr : PageTable.find_pte_create ph1 pt v =
        some ((fv + 2, v), phB, ptB) := by
      rw [hstep1, hstep2, loop_last]
    have hmemr : ∀ i, i < 512 → phB.mem r i =
        if i = 0 then (fv + 1) <<< 10 ||| 1 else ph.mem r i := by
      intro i hi
      show memSet ph3.mem (fv + 1) 0 (PageTableEntry.new (fv + 2) PTEV).bits
        r i = _
      rw [memSet_page_ne _ _ _ _ _ _ (by omega : r ≠ fv + 1)]
      show memZeroPage phA.mem (fv + 2) r i = _
      rw [memZeroPage_ne _ _ _ _ (by omega : r ≠ fv + 2)]
      show memSet ph2.mem r 0 (PageTableEntry.new (fv + 1) PTEV).bits r i = _
      by_cases hi0 : i = 0
      · subst hi0
        rw [show memSet ph2.mem r 0 (PageTableEntry.new (fv + 1) PTEV).bits
            r 0 = (PageTableEntry.new (fv + 1) PTEV).bits from
          if_pos ⟨rfl, rfl⟩, if_pos rfl]
        rfl
      · have hms : memSet ph2.mem r 0 (PageTableEntry.new (fv + 1)
            PTEV).bits r i = ph2.mem r i := if_neg (fun hc => hi0 hc.2)
        rw [hms, if_neg hi0]
        show memZeroPage ph1.mem (fv + 1) r i = _
        rw [memZeroPage_ne _ _ _ _ (by omega : r ≠ fv + 1)]
        show memZeroPage ph.mem fv r i = _
        rw [memZeroPage_ne _ _ _ _ (Nat.ne_of_lt hr0)]
    have hmemq : ∀ q, q ≠ fv → q ≠ fv + 1 → q ≠ fv + 2 → q ≠ r →
        ∀ i, phB.mem q i = ph.mem q i := by
      intro q h1 h2 h3 h4 i
      show memSet ph3.mem (fv + 1) 0 (PageTableEntry.new (fv + 2) PTEV).bits
        q i = _
      rw [memSet_page_ne _ _ _ _ _ _ h2]
      show memZeroPage phA.mem (fv + 2) q i = _
      rw [memZeroPage_ne _ _ _ _ h3]
      show memSet ph2.mem r 0 (PageTableEntry.new (fv + 1) PTEV).bits q i = _
      rw [memSet_page_ne _ _ _ _ _ _ h4]
      show memZeroPage ph1.mem (fv + 1) q i = _
      rw [memZeroPage_ne _ _ _ _ h2]
      show memZeroPage ph.mem fv q i = _
      rw [memZeroPage_ne _ _ _ _ h1]
    have hmemu1 : ∀ i, phB.mem (fv + 1) i =
        if i = 0 then (fv + 2) <<< 10 ||| 1 else 0 := by
      intro i
      show memSet ph3.mem (fv + 1) 0 (PageTableEntry.new (fv + 2) PTEV).bits
        (fv + 1) i = _
      by_cases hi0 : i = 0
      · subst hi0
        rw [show memSet ph3.mem (fv + 1) 0 (PageTableEntry.new (fv + 2)
            PTEV).bits (fv + 1) 0 = (PageTableEntry.new (fv + 2) PTEV).bits
          from if_pos ⟨rfl, rfl⟩, if_pos rfl]
        rfl
      · have hms : memSet ph3.mem (fv + 1) 0 (PageTableEntry.new (fv + 2)
            PTEV).bits (fv + 1) i = ph3.mem (fv + 1) i :=
          if_neg (fun hc => hi0 hc.2)
        rw [hms, if_neg hi0]
        show memZeroPage phA.mem (fv + 2) (fv + 1) i = _
        rw [memZeroPage_ne _ _ _ _ (by omega : fv + 1 ≠ fv + 2)]
        show memSet ph2.mem r 0 (PageTableEntry.new (fv + 1) PTEV).bits
          (fv + 1) i = _
        rw [memSet_page_ne _ _ _ _ _ _ (by omega : fv + 1 ≠ r)]
        show memZeroPage ph1.mem (fv + 1) (fv + 1) i = _
        exact if_pos rfl
    have hmemu2 : ∀ i, phB.mem (fv + 2) i = 0 := by
      intro i
      show memSet ph3.mem (fv + 1) 0 (PageTableEntry.new (fv + 2) PTEV).bits
        (fv + 2) i = _
      rw [memSet_page_ne _ _ _ _ _ _ (by omega : fv + 2 ≠ fv + 1)]
      show memZeroPage phA.mem (fv + 2) (fv + 2) i = _
      exact if_pos rfl
    have hBB : BInv phB ptB r t1 t2 (some (fv + 1, fv + 2)) S := by
      refine ⟨rfl, rfl, show fv + 3 ≤ ph.fa.end_ by omega, hE0,
        show r < fv + 3 by omega, show t1 < fv + 3 by omega,
        show t2 < fv + 3 by omega, hrt1, hrt2, ht12, ⟨?_, ?_, ?_⟩,
        ⟨show fv + 1 < fv + 3 by omega, show fv + 2 < fv + 3 by omega,
          show fv + 1 ≠ r by omega, show fv + 1 ≠ t1 by omega,
          show fv + 1 ≠ t2 by omega, show fv + 2 ≠ r by omega,
          show fv + 2 ≠ t1 by omega, show fv + 2 ≠ t2 by omega,
          show fv + 1 ≠ fv + 2 by omega, ?_, ?_⟩, ?_⟩
      · intro i hi
        rw [hmemr i hi]
        by_cases h511 : i = 511
        · subst h511
          simp [hspine0.1 511 hi]
        · by_cases h0 : i = 0
          · subst h0
            simp
          · simp only [if_neg h0, if_neg h511]
            rw [hspine0.1 i hi, if_neg h511]
      · intro i hi
        rw [hmemq t1 (by omega) (by omega) (by omega) (Ne.symm hrt1) i]
        exact hspine0.2.1 i hi
      · intro i hi
        rw [hmemq t2 (by omega) (by omega) (by omega) (Ne.symm hrt2) i]
        exact hspine0.2.2 i hi
      · intro i hi
        rw [hmemu1 i]
      · intro i hi
        rw [hmemu2 i, hu0 i]
      · intro w pw fw hw
        rw [hu0 w] at hw
        exact Option.noConfusion hw
    have hmW := map_write ph1 phB pt ptB r t1 t2 (fv + 1) (fv + 2) S v fv
      perm hcr hBB hv hSv hfvlt hperm
    refine ⟨⟨memSet phB.mem (fv + 2) v (fv <<< 10 ||| (perm ||| PTEV)),
      phB.bytes, phB.fa⟩, ptB, fv + 1, fv + 2, fv, ?_, hmW.2, ?_,
      Nat.le_add_right fv 3, Nat.le_refl (fv + 3), rfl⟩
    · unfold MapArea.map_one
      simp only [hfa, hdfv]
      rw [hmW.1]
      rfl
    · intro x y hxy
      exact Option.noConfusion hxy

/-- `copy_data` visits at least one chunk. -/
theorem chunkCount_pos (n : Nat) : 1 ≤ chunkCount n := by
  unfold chunkCount PAGE_SIZE
  split_ifs <;> omega

/-- The page loop of `MapArea::map` over fresh first-leaf-node pages: every
page receives a fresh data frame and a leaf entry, and the invariant is
extended accordingly (on the first user page ever mapped, the two user
table nodes appear). -/
theorem mapLoop_binv (vs : List Nat) (ph : Phys) (pt : PageTable)
    (r t1 t2 : Nat) (uo : Option (Nat × Nat)) (S : Nat → Option (Nat × Nat))
    (al ar perm : Nat) (df : List (Nat × Nat))
    (hB : BInv ph pt r t1 t2 uo S) (hperm : perm < 256)
    (hvs : ∀ v ∈ vs, v < 512) (hnd : vs.Nodup)
    (hS : ∀ v ∈ vs, S v = none)
    (hdf : ∀ v ∈ vs, dfLookup df v = none)
    (hbud : ph.fa.current + 3 * vs.length ≤ ph.fa.end_) :
    ∃ ph' pt' df' uo' S',
      MapArea.mapLoop ph ⟨al, ar, df, .Framed, perm⟩ pt vs =
        some (ph', ⟨al, ar, df', .Framed, perm⟩, pt') ∧
      BInv ph' pt' r t1 t2 uo' S' ∧
      (∀ x y, uo = some (x, y) → uo' = some (x, y)) ∧
      (vs ≠ [] → ∃ x y, uo' = some (x, y)) ∧
      (∀ w, w ∉ vs → S' w = S w) ∧
      (∀ w ∈ vs, ∃ pw, S' w = some (pw, perm ||| PTEV)) ∧
      ph.fa.current ≤ ph'.fa.current ∧
      ph'.fa.current ≤ ph.fa.current + 3 * vs.length ∧
      ph'.fa.end_ = ph.fa.end_ := by
  revert ph pt uo S df hvs hnd
  induction vs with
  | nil =>
    intro ph pt uo S df hB hvs hnd hS hdf hbud
    exact ⟨ph, pt, df, uo, S, rfl, hB, fun x y h => h,
      fun h => absurd rfl h, fun w _ => rfl,
      fun w hw => absurd hw (List.not_mem_nil w), le_refl _,
      Nat.le_add_right _ _, rfl⟩
  | cons v rest ih =>
    intro ph pt uo S df hB hvs hnd hS hdf hbud
    have hlen : (v :: rest).length = rest.length + 1 := rfl
    rw [hlen, Nat.mul_succ] at hbud
    obtain ⟨ph1, pt1, u1, u2, fv, heq1, hB1, huo1, hc1a, hc1b, hend1⟩ :=
      map_one_binv ph pt r t1 t2 uo S al ar perm df v hB
        (hvs v (List.mem_cons_self v rest))
        (hS v (List.mem_cons_self v rest)) hperm
        (hdf v (List.mem_cons_self v rest)) (by omega)
    have hSnew : ∀ w ∈ rest,
        (fun w => if w = v then some (fv, perm ||| PTEV) else S w) w =
          none := by
      intro w hw
      have hwv : w ≠ v := by
        intro hJ
        subst hJ
        exact (List.nodup_cons.mp hnd).1 hw
      show (if w = v then _ else S w) = none
      rw [if_neg hwv]
      exact hS w (List.mem_cons_of_mem v hw)
    have hdfnew : ∀ w ∈ rest, dfLookup (dfInsert df v fv) w = none := by
      intro w hw
      have hwv : w ≠ v := by
        intro hJ
        subst hJ
        exact (List.nodup_cons.mp hnd).1 hw
      rw [dfLookup_dfInsert, if_neg hwv]
      exact hdf w (List.mem_cons_of_mem v hw)
    obtain ⟨ph2, pt2, df2, uo2, S2, heq2, hB2, hsome2, hne2, Sout2, Sin2,
      hca, hcb, hend2⟩ :=
      ih ph1 pt1 (some (u1, u2)) _ (dfInsert df v fv) hB1
        (fun w hw => hvs w (List.mem_cons_of_mem v hw))
        (List.nodup_cons.mp hnd).2 hSnew hdfnew (by omega)
    refine ⟨ph2, pt2, df2, uo2, S2, ?_, hB2, ?_,
      fun _ => ⟨u1, u2, hsome2 u1 u2 rfl⟩, ?_, ?_, by omega, ?_, by omega⟩
    · show MapArea.mapLoop ph ⟨al, ar, df, .Framed, perm⟩ pt (v :: rest) = _
      simp only [MapArea.mapLoop, heq1]
      exact heq2
    · intro x y hxy
      obtain ⟨hx, hy⟩ := huo1 x y hxy
      exact hsome2 x y (by rw [hx, hy])
    · intro w hw
      have h1 : w ∉ rest := fun hc => hw (List.mem_cons_of_mem v hc)
      have h2 : w ≠ v := fun hc => hw (hc ▸ List.mem_cons_self v rest)
      rw [Sout2 w h1]
      show (if w = v then _ else S w) = S w
      rw [if_neg h2]
    · intro w hw
      rcases List.mem_cons.mp hw with rfl | hwr
      · refine ⟨fv, ?_⟩
        have hvnr : w ∉ rest := (List.nodup_cons.mp hnd).1
        rw [Sout2 w hvnr]
        show (if w = w then some (fv, perm ||| PTEV) else S w) = _
        rw [if_pos rfl]
      · exact Sin2 w hwr
    · rw [hlen, Nat.mul_succ]
      omega

/-- `copy_data`'s chunk loop only touches the byte view: under the
invariant every first-leaf-node page it reaches resolves, so it never
panics and both the entry view and the allocator come through untouched. -/
theorem copyChunks_keeps (cs : List (List Nat)) (pt : PageTable)
    (r t1 t2 u1 u2 : Nat) (S : Nat → Option (Nat × Nat)) (ph : Phys)
    (hB : BInv ph pt r t1 t2 (some (u1, u2)) S) (w : Nat)
    (hw : w + cs.length ≤ 512) :
    ∃ b', copyChunks ph pt w cs = some ⟨ph.mem, b', ph.fa⟩ := by
  revert ph w
  induction cs with
  | nil =>
    intro ph hB w hw
    exact ⟨ph.bytes, rfl⟩
  | cons c cs ih =>
    intro ph hB w hw
    rw [List.length_cons] at hw
    have hw512 : w < 512 := by omega
    have htr : PageTable.translate ph pt w =
        some ⟨match S w with | some (p, f) => p <<< 10 ||| f | none => 0⟩ :=
      translate_smallM ph pt r t1 t2 u1 u2 S hB ph.mem ph.bytes ph.fa pt
        rfl rfl rfl (fun i hi => rfl) w hw512
    have hstep : copyChunks ph pt w (c :: cs) =
        copyChunks ⟨ph.mem, bytesWrite ph.bytes
          ((⟨match S w with | some (p, f) => p <<< 10 ||| f | none => 0⟩ :
            PageTableEntry)).ppn c, ph.fa⟩ pt (w + 1) cs := by
      simp only [copyChunks, htr]
    obtain ⟨b2, hb2⟩ := ih ⟨ph.mem, bytesWrite ph.bytes
      ((⟨match S w with | some (p, f) => p <<< 10 ||| f | none => 0⟩ :
        PageTableEntry)).ppn c, ph.fa⟩ hB (w + 1) (by omega)
    refine ⟨b2, ?_⟩
    rw [hstep]
    exact hb2

/-- `MemorySet::push` of a fresh framed first-leaf-node segment, with or
without initial data, under the invariant. -/
theorem push_binv (ph : Phys) (pt : PageTable) (r t1 t2 : Nat)
    (uo : Option (Nat × Nat)) (S : Nat → Option (Nat × Nat))
    (areas : List MapArea) (al ar perm : Nat) (data : Option (List Nat))
    (hB : BInv ph pt r t1 t2 uo S) (hperm : perm < 256) (har : ar ≤ 512)
    (hS : ∀ w, al ≤ w → w < ar → S w = none)
    (hbud : ph.fa.current + 3 * (ar - al) ≤ ph.fa.end_)
    (hdata : ∀ d, data = some d → chunkCount d.length ≤ ar - al) :
    ∃ ph' pt' df' uo' S',
      MemorySet.push ph ⟨pt, areas⟩ ⟨al, ar, [], .Framed, perm⟩ data =
        some (ph', ⟨pt', areas ++ [⟨al, ar, df', .Framed, perm⟩]⟩) ∧
      BInv ph' pt' r t1 t2 uo' S' ∧
      (∀ x y, uo = some (x, y) → uo' = some (x, y)) ∧
      (al < ar → ∃ x y, uo' = some (x, y)) ∧
      (∀ w, ¬(al ≤ w ∧ w < ar) → S' w = S w) ∧
      (∀ w, al ≤ w → w < ar → ∃ pw, S' w = some (pw, perm ||| PTEV)) ∧
      ph.fa.current ≤ ph'.fa.current ∧
      ph'.fa.current ≤ ph.fa.current + 3 * (ar - al) ∧
      ph'.fa.end_ = ph.fa.end_ := by
  have hmemiff : ∀ w, w ∈ List.range' al (ar - al) ↔ (al ≤ w ∧ w < ar) := by
    intro w
    rw [mem_range'_iff]
    omega
  obtain ⟨ph1, pt1, df1, uo1, S1, heqL, hB1, hsome1, hne1, Sout1, Sin1, hca,
    hcb, hend1⟩ :=
    mapLoop_binv (List.range' al (ar - al)) ph pt r t1 t2 uo S al ar perm []
      hB hperm (fun v hv => by have := (hmemiff v).mp hv; omega)
      (List.nodup_range' _ _) (fun v hv => hS v ((hmemiff v).mp hv).1
        ((hmemiff v).mp hv).2) (fun v _ => rfl)
      (by rw [List.length_range']; omega)
  rw [List.length_range'] at hcb
  have hnonempty : al < ar → List.range' al (ar - al) ≠ [] := by
    intro hlt hc
    have := congrArg List.length hc
    rw [List.length_range'] at this
    simp at this
    omega
  cases data with
  | none =>
    refine ⟨ph1, pt1, df1, uo1, S1, ?_, hB1, hsome1,
      fun hlt => hne1 (hnonempty hlt), ?_, ?_, hca, hcb, hend1⟩
    · show MemorySet.push ph ⟨pt, areas⟩ ⟨al, ar, [], .Framed, perm⟩
        none = _
      simp only [MemorySet.push, MapArea.mapAll, MapArea.pages, heqL]
    · intro w hw
      exact Sout1 w (fun hc => hw ((hmemiff w).mp hc))
    · intro w h1 h2
      exact Sin1 w ((hmemiff w).mpr ⟨h1, h2⟩)
  | some d =>
    have hcc : chunkCount d.length ≤ ar - al := hdata d rfl
    have hlt : al < ar := by
      have := chunkCount_pos d.length
      omega
    obtain ⟨x, y, huo1⟩ := hne1 (hnonempty hlt)
    subst huo1
    obtain ⟨b', hcp⟩ := copyChunks_keeps (chunkList d) pt1 r t1 t2 x y S1
      ph1 hB1 al (by rw [chunkList_length]; omega)
    refine ⟨⟨ph1.mem, b', ph1.fa⟩, pt1, df1, some (x, y), S1, ?_, hB1,
      hsome1, fun _ => ⟨x, y, rfl⟩, ?_, ?_, hca, hcb, hend1⟩
    · show MemorySet.push ph ⟨pt, areas⟩ ⟨al, ar, [], .Framed, perm⟩
        (some d) = _
      have hcd : MapArea.copy_data ph1 ⟨al, ar, df1, .Framed, perm⟩ pt1 d =
          some ⟨ph1.mem, b', ph1.fa⟩ := hcp
      simp only [MemorySet.push, MapArea.mapAll, MapArea.pages, heqL, hcd]
    · intro w hw
      exact Sout1 w (fun hc => hw ((hmemiff w).mp hc))
    · intro w h1 h2
      exact Sin1 w ((hmemiff w).mpr ⟨h1, h2⟩)

/-- The program-header loop of `from_elf` under the invariant: one framed
user segment is pushed per loadable header, the accumulator ends at the
last loadable end (the initial value if there is none), and the leaf map is
extended by exactly the loaded pages. -/
theorem elfLoop_binv (phs : List ProgramHeader) (input : List Nat)
    (r t1 t2 : Nat) (ph : Phys) (pt : PageTable) (areas : List MapArea)
    (uo : Option (Nat × Nat)) (S : Nat → Option (Nat × Nat)) (maxEnd0 : Nat)
    (hB : BInv ph pt r t1 t2 uo S)
    (hwf : ∀ p ∈ phs, p.ptype = .Load →
      p.virtual_addr + p.mem_size ≠ 0 ∧ phR p ≤ 512 ∧
      chunkCount ((input.drop p.offset).take p.file_size).length ≤
        phR p - phL p)
    (hfresh : ∀ p ∈ phs, p.ptype = .Load →
      ∀ v, phL p ≤ v → v < phR p → S v = none)
    (hdisj : phs.Pairwise (fun p q => p.ptype = .Load → q.ptype = .Load →
      phR p ≤ phL q ∨ phR q ≤ phL p))
    (hbud : ph.fa.current + 3 * loadPages phs ≤ ph.fa.end_) :
    ∃ ph' pt' areas2 uo' S',
      elfLoop ph ⟨pt, areas⟩ input phs maxEnd0 =
        some (ph', ⟨pt', areas ++ areas2⟩,
          (loadEnds phs).getLastD maxEnd0) ∧
      BInv ph' pt' r t1 t2 uo' S' ∧
      (∀ x y, uo = some (x, y) → uo' = some (x, y)) ∧
      (∀ w, (∀ p ∈ phs, p.ptype = .Load → ¬(phL p ≤ w ∧ w < phR p)) →
        S' w = S w) ∧
      ph.fa.current ≤ ph'.fa.current ∧
      ph'.fa.current ≤ ph.fa.current + 3 * loadPages phs ∧
      ph'.fa.end_ = ph.fa.end_ := by
  revert ph pt areas uo S maxEnd0 hwf hdisj
  induction phs with
  | nil =>
    intro ph pt areas uo S maxEnd0 hB hwf hfresh hdisj hbud
    refine ⟨ph, pt, [], uo, S, ?_, hB, fun x y h => h, fun w _ => rfl,
      le_refl _, Nat.le_add_right _ _, rfl⟩
    show elfLoop ph ⟨pt, areas⟩ input [] maxEnd0 = _
    rw [List.append_nil]
    rfl
  | cons p rest ih =>
    intro ph pt areas uo S maxEnd0 hB hwf hfresh hdisj hbud
    by_cases hload : p.ptype = .Load
    · obtain ⟨hnz, h512, hchunk⟩ := hwf p (List.mem_cons_self p rest) hload
      have hnew := new?_some p.virtual_addr (p.virtual_addr + p.mem_size)
        .Framed (phPerm p) hnz (Nat.le_add_right _ _)
      have hnew' : MapArea.new? p.virtual_addr
          (p.virtual_addr + p.mem_size) .Framed
          (MapPermU ||| (if p.is_read then MapPermR else 0) |||
            (if p.is_write then MapPermW else 0) |||
            (if p.is_execute then MapPermX else 0)) =
          some ⟨phL p, phR p, [], .Framed, phPerm p⟩ := hnew
      have hloadpages : loadPages (p :: rest) =
          (phR p - phL p) + loadPages rest := by
        unfold loadPages
        simp [hload]
      rw [hloadpages] at hbud
      obtain ⟨ph1, pt1, df1, uo1, S1, heqP, hB1, hsome1, hne1, Sout1, Sin1,
        hca, hcb, hend1⟩ :=
        push_binv ph pt r t1 t2 uo S areas (phL p) (phR p) (phPerm p)
          (some ((input.drop p.offset).take p.file_size)) hB (phPerm_lt p)
          h512
          (fun w h1 h2 => hfresh p (List.mem_cons_self p rest) hload w h1 h2)
          (by omega)
          (fun d hd => by rw [← Option.some.inj hd]; exact hchunk)
      have hdisjp := (List.pairwise_cons.mp hdisj).1
      obtain ⟨ph2, pt2, areas2, uo2, S2, heqR, hB2, hsome2, Sout2, hc2a,
        hc2b, hend2⟩ :=
        ih ph1 pt1 (areas ++ [⟨phL p, phR p, df1, .Framed, phPerm p⟩]) uo1
          S1 (phR p) hB1
          (fun q hq hlq => hwf q (List.mem_cons_of_mem p hq) hlq)
          (fun q hq hlq w h1 h2 => by
            rw [Sout1 w (fun hc => by
              rcases hdisjp q hq hload hlq with hd | hd <;> omega)]
            exact hfresh q (List.mem_cons_of_mem p hq) hlq w h1 h2)
          (List.pairwise_cons.mp hdisj).2 (by omega)
      have hLE : loadEnds (p :: rest) = phR p :: loadEnds rest := by
        unfold loadEnds
        rw [List.filterMap_cons]
        simp [hload]
      refine ⟨ph2, pt2, ⟨phL p, phR p, df1, .Framed, phPerm p⟩ :: areas2,
        uo2, S2, ?_, hB2, fun x y h => hsome2 x y (hsome1 x y h), ?_,
        by omega, ?_, by omega⟩
      · show elfLoop ph ⟨pt, areas⟩ input (p :: rest) maxEnd0 = _
        simp only [elfLoop]
        rw [if_pos hload, hnew']
        simp only [heqP]
        rw [heqR, hLE, List.getLastD_cons, List.append_assoc,
          List.singleton_append]
      · intro w hw
        rw [Sout2 w (fun q hq hlq => hw q (List.mem_cons_of_mem p hq) hlq)]
        exact Sout1 w (hw p (List.mem_cons_self p rest) hload)
      · rw [hloadpages]
        omega
    · have hloadpages : loadPages (p :: rest) = loadPages rest := by
        unfold loadPages
        simp [hload]
      rw [hloadpages] at hbud
      obtain ⟨ph2, pt2, areas2, uo2, S2, heqR, hB2, hsome2, Sout2, hc2a,
        hc2b, hend2⟩ :=
        ih ph pt areas uo S maxEnd0 hB
          (fun q hq hlq => hwf q (List.mem_cons_of_mem p hq) hlq)
          (fun q hq hlq w h1 h2 =>
            hfresh q (List.mem_cons_of_mem p hq) hlq w h1 h2)
          (List.pairwise_cons.mp hdisj).2 hbud
      have hLE : loadEnds (p :: rest) = loadEnds rest := by
        unfold loadEnds
        rw [List.filterMap_cons]
        simp [hload]
      refine ⟨ph2, pt2, areas2, uo2, S2, ?_, hB2, hsome2, ?_,
        hc2a, ?_, hend2⟩
      · show elfLoop ph ⟨pt, areas⟩ input (p :: rest) maxEnd0 = _
        simp only [elfLoop]
        rw [if_neg hload, heqR, hLE]
      · intro w hw
        exact Sout2 w (fun q hq hlq => hw q (List.mem_cons_of_mem p hq) hlq)
      · rw [hloadpages]
        exact hc2b

/-- `new_bare` followed by the trampoline mapping: three fresh zero-filled
nodes are allocated (root, then the two trampoline levels), the trampoline
leaf is installed, and the builder invariant holds with an empty leaf map
and no user spine yet. -/
theorem from_elf_init (ph : Phys)
    (hrec : ph.fa.recycled = [])
    (hbud : ph.fa.current + 3 ≤ ph.fa.end_)
    (hE : ph.fa.end_ ≤ 2 ^ 44) :
    ∃ ph2 pt2,
      MemorySet.new_bare ph = some (⟨⟨ph.fa.current, [ph.fa.current]⟩, []⟩,
        ⟨memZeroPage ph.mem ph.fa.current,
          memZeroPage ph.bytes ph.fa.current,
          ⟨ph.fa.current + 1, ph.fa.end_, []⟩⟩) ∧
      PageTable.map
        ⟨memZeroPage ph.mem ph.fa.current,
          memZeroPage ph.bytes ph.fa.current,
          ⟨ph.fa.current + 1, ph.fa.end_, []⟩⟩
        ⟨ph.fa.current, [ph.fa.current]⟩ trampVpn
        (strampoline / PAGE_SIZE) (PTER ||| PTEX) = some (ph2, pt2) ∧
      BInv ph2 pt2 ph.fa.current (ph.fa.current + 1) (ph.fa.current + 2)
        none (fun _ => none) ∧
      ph2.fa.current = ph.fa.current + 3 ∧ ph2.fa.end_ = ph.fa.end_ := by
  set c0 := ph.fa.current with hc0
  have halloc : ph.fa.alloc = (some c0, ⟨c0 + 1, ph.fa.end_, []⟩) := by
    unfold StackFrameAllocator.alloc
    rw [hrec]
    show (if ph.fa.current = ph.fa.end_ then (none, ph.fa)
      else (some ph.fa.current, ⟨ph.fa.current + 1, ph.fa.end_, []⟩)) = _
    rw [if_neg (by omega : ¬ph.fa.current = ph.fa.end_)]
  have hfa1 : ph.frame_alloc = some (c0,
      ⟨memZeroPage ph.mem c0, memZeroPage ph.bytes c0,
        ⟨c0 + 1, ph.fa.end_, []⟩⟩) := by
    unfold Phys.frame_alloc
    rw [halloc]
  set ph1 : Phys := ⟨memZeroPage ph.mem c0, memZeroPage ph.bytes c0,
    ⟨c0 + 1, ph.fa.end_, []⟩⟩ with hph1
  have hnb : MemorySet.new_bare ph = some (⟨⟨c0, [c0]⟩, []⟩, ph1) := by
    unfold MemorySet.new_bare PageTable.new
    rw [hfa1]
    rfl
  have ht1lt : c0 + 1 < 2 ^ 44 := by omega
  have ht2lt : c0 + 2 < 2 ^ 44 := by omega
  have hcr0 : PageTable.find_pte_create ph1 ⟨c0, [c0]⟩ trampVpn =
      find_pte_create_loop ph1 ⟨c0, [c0]⟩ c0 0 [511, 511, 511] := by
    show find_pte_create_loop ph1 ⟨c0, [c0]⟩
      (⟨c0, [c0]⟩ : PageTable).root_ppn 0 (VirtPageNum.indexes trampVpn) = _
    rw [indexes_tramp]
  have hinv0 : (⟨ph1.mem c0 511⟩ : PageTableEntry).is_valid = false := by
    rw [show ph1.mem c0 511 = 0 from if_pos rfl]
    decide
  have hfa2 : ph1.frame_alloc = some (c0 + 1,
      ⟨memZeroPage ph1.mem (c0 + 1), memZeroPage ph1.bytes (c0 + 1),
        ⟨c0 + 2, ph.fa.end_, []⟩⟩) :=
    frame_alloc_plain _ _ (c0 + 1) ph.fa.end_ (by omega)
  set ph2a : Phys := ⟨memZeroPage ph1.mem (c0 + 1),
    memZeroPage ph1.bytes (c0 + 1), ⟨c0 + 2, ph.fa.end_, []⟩⟩ with hph2a
  set phA : Phys := ⟨memSet ph2a.mem c0 511 (PageTableEntry.new (c0 + 1)
    PTEV).bits, ph2a.bytes, ⟨c0 + 2, ph.fa.end_, []⟩⟩ with hphA
  set ptA : PageTable := ⟨c0, [c0] ++ [c0 + 1]⟩ with hptA
  have hstep1 : find_pte_create_loop ph1 ⟨c0, [c0]⟩ c0 0 [511, 511, 511] =
      find_pte_create_loop phA ptA (c0 + 1) 1 [511, 511] := by
    rw [loop_step_invalid_alloc ph1 ph2a ⟨c0, [c0]⟩ c0 0 511 (c0 + 1)
        [511, 511] (by norm_num) hinv0 hfa2,
      pte_new_ppn (c0 + 1) PTEV ht1lt (by decide)]
  have hA0 : phA.mem (c0 + 1) 511 = 0 := by
    show memSet ph2a.mem c0 511 (PageTableEntry.new (c0 + 1) PTEV).bits
      (c0 + 1) 511 = 0
    rw [memSet_page_ne _ _ _ _ _ _ (by omega : c0 + 1 ≠ c0)]
    show memZeroPage ph1.mem (c0 + 1) (c0 + 1) 511 = 0
    exact if_pos rfl
  have hinvA : (⟨phA.mem (c0 + 1) 511⟩ : PageTableEntry).is_valid =
      false := by
    rw [hA0]
    decide
  set ph3 : Phys := ⟨memZeroPage phA.mem (c0 + 2),
    memZeroPage phA.bytes (c0 + 2), ⟨c0 + 3, ph.fa.end_, []⟩⟩ with hph3
  have hfa3 : phA.frame_alloc = some (c0 + 2, ph3) :=
    frame_alloc_plain _ _ (c0 + 2) ph.fa.end_ (by omega)
  set phB : Phys := ⟨memSet ph3.mem (c0 + 1) 511 (PageTableEntry.new
    (c0 + 2) PTEV).bits, ph3.bytes, ⟨c0 + 3, ph.fa.end_, []⟩⟩ with hphB
  set ptB : PageTable := ⟨c0, [c0] ++ [c0 + 1] ++ [c0 + 2]⟩ with hptB
  have hstep2 : find_pte_create_loop phA ptA (c0 + 1) 1 [511, 511] =
      find_pte_create_loop phB ptB (c0 + 2) 2 [511] := by
    rw [loop_step_invalid_alloc phA ph3 ptA (c0 + 1) 1 511 (c0 + 2) [511]
        (by norm_num) hinvA hfa3,
      pte_new_ppn (c0 + 2) PTEV ht2lt (by decide)]
  have hcr : PageTable.find_pte_create ph1 ⟨c0, [c0]⟩ trampVpn =
      some ((c0 + 2, 511), phB, ptB) := by
    rw [hcr0, hstep1, hstep2, loop_last]
  have hleafB : phB.mem (c0 + 2) 511 = 0 := by
    show memSet ph3.mem (c0 + 1) 511 (PageTableEntry.new (c0 + 2) PTEV).bits
      (c0 + 2) 511 = 0
    rw [memSet_page_ne _ _ _ _ _ _ (by omega : c0 + 2 ≠ c0 + 1)]
    show memZeroPage phA.mem (c0 + 2) (c0 + 2) 511 = 0
    exact if_pos rfl
  have hmap : PageTable.map ph1 ⟨c0, [c0]⟩ trampVpn
      (strampoline / PAGE_SIZE) (PTER ||| PTEX) =
      some (⟨memSet phB.mem (c0 + 2) 511 (PageTableEntry.new
        (strampoline / PAGE_SIZE) ((PTER ||| PTEX) ||| PTEV)).bits,
        phB.bytes, phB.fa⟩, ptB) := by
    unfold PageTable.map
    rw [hcr]
    show (if (⟨phB.mem (c0 + 2) 511⟩ : PageTableEntry).is_valid = true
      then none
      else some ((⟨memSet phB.mem (c0 + 2) 511 (PageTableEntry.new
        (strampoline / PAGE_SIZE) ((PTER ||| PTEX) ||| PTEV)).bits,
        phB.bytes, phB.fa⟩ : Phys), ptB)) = _
    rw [hleafB, if_neg (by decide)]
  have hmemc0 : ∀ i, memSet phB.mem (c0 + 2) 511 (PageTableEntry.new
      (strampoline / PAGE_SIZE) ((PTER ||| PTEX) ||| PTEV)).bits c0 i =
      if i = 511 then (c0 + 1) <<< 10 ||| 1 else 0 := by
    intro i
    rw [memSet_page_ne _ _ _ _ _ _ (by omega : c0 ≠ c0 + 2)]
    show memSet ph3.mem (c0 + 1) 511 (PageTableEntry.new (c0 + 2)
      PTEV).bits c0 i = _
    rw [memSet_page_ne _ _ _ _ _ _ (by omega : c0 ≠ c0 + 1)]
    show memZeroPage phA.mem (c0 + 2) c0 i = _
    rw [memZeroPage_ne _ _ _ _ (by omega : c0 ≠ c0 + 2)]
    show memSet ph2a.mem c0 511 (PageTableEntry.new (c0 + 1) PTEV).bits
      c0 i = _
    by_cases h511 : i = 511
    · subst h511
      rw [show memSet ph2a.mem c0 511 (PageTableEntry.new (c0 + 1)
          PTEV).bits c0 511 = (PageTableEntry.new (c0 + 1) PTEV).bits from
        if_pos ⟨rfl, rfl⟩, if_pos rfl]
      rfl
    · have hms : memSet ph2a.mem c0 511 (PageTableEntry.new (c0 + 1)
          PTEV).bits c0 i = ph2a.mem c0 i := if_neg (fun hc => h511 hc.2)
      rw [hms, if_neg h511]
      show memZeroPage ph1.mem (c0 + 1) c0 i = 0
      rw [memZeroPage_ne _ _ _ _ (by omega : c0 ≠ c0 + 1)]
      exact if_pos rfl
  have hmemc1 : ∀ i, memSet phB.mem (c0 + 2) 511 (PageTableEntry.new
      (strampoline / PAGE_SIZE) ((PTER ||| PTEX) ||| PTEV)).bits (c0 + 1)
      i = if i = 511 then (c0 + 2) <<< 10 ||| 1 else 0 := by
    intro i
    rw [memSet_page_ne _ _ _ _ _ _ (by omega : c0 + 1 ≠ c0 + 2)]
    show memSet ph3.mem (c0 + 1) 511 (PageTableEntry.new (c0 + 2)
      PTEV).bits (c0 + 1) i = _
    by_cases h511 : i = 511
    · subst h511
      rw [show memSet ph3.mem (c0 + 1) 511 (PageTableEntry.new (c0 + 2)
          PTEV).bits (c0 + 1) 511 = (PageTableEntry.new (c0 + 2) PTEV).bits
        from if_pos ⟨rfl, rfl⟩, if_pos rfl]
      rfl
    · have hms : memSet ph3.mem (c0 + 1) 511 (PageTableEntry.new (c0 + 2)
          PTEV).bits (c0 + 1) i = ph3.mem (c0 + 1) i :=
        if_neg (fun hc => h511 hc.2)
      rw [hms, if_neg h511]
      show memZeroPage phA.mem (c0 + 2) (c0 + 1) i = 0
      rw [memZeroPage_ne _ _ _ _ (by omega : c0 + 1 ≠ c0 + 2)]
      show memSet ph2a.mem c0 511 (PageTableEntry.new (c0 + 1) PTEV).bits
        (c0 + 1) i = 0
      rw [memSet_page_ne _ _ _ _ _ _ (by omega : c0 + 1 ≠ c0)]
      exact if_pos rfl
  have hmemc2 : ∀ i, memSet phB.mem (c0 + 2) 511 (PageTableEntry.new
      (strampoline / PAGE_SIZE) ((PTER ||| PTEX) ||| PTEV)).bits (c0 + 2)
      i = if i = 511 then (strampoline / PAGE_SIZE) <<< 10 ||| 11
        else 0 := by
    intro i
    by_cases h511 : i = 511
    · subst h511
      rw [show memSet phB.mem (c0 + 2) 511 (PageTableEntry.new
          (strampoline / PAGE_SIZE) ((PTER ||| PTEX) ||| PTEV)).bits
          (c0 + 2) 511 = (PageTableEntry.new (strampoline / PAGE_SIZE)
          ((PTER ||| PTEX) ||| PTEV)).bits from if_pos ⟨rfl, rfl⟩,
        if_pos rfl]
      rfl
    · have hms : memSet phB.mem (c0 + 2) 511 (PageTableEntry.new
          (strampoline / PAGE_SIZE) ((PTER ||| PTEX) ||| PTEV)).bits
          (c0 + 2) i = phB.mem (c0 + 2) i := if_neg (fun hc => h511 hc.2)
      rw [hms, if_neg h511]
      show memSet ph3.mem (c0 + 1) 511 (PageTableEntry.new (c0 + 2)
        PTEV).bits (c0 + 2) i = 0
      rw [memSet_page_ne _ _ _ _ _ _ (by omega : c0 + 2 ≠ c0 + 1)]
      show memZeroPage phA.mem (c0 + 2) (c0 + 2) i = 0
      exact if_pos rfl
  refine ⟨⟨memSet phB.mem (c0 + 2) 511 (PageTableEntry.new
      (strampoline / PAGE_SIZE) ((PTER ||| PTEX) ||| PTEV)).bits,
      phB.bytes, phB.fa⟩, ptB, hnb, hmap,
    ⟨rfl, rfl, show c0 + 3 ≤ ph.fa.end_ by omega, hE,
      show c0 < c0 + 3 by omega, show c0 + 1 < c0 + 3 by omega,
      show c0 + 2 < c0 + 3 by omega, by omega, by omega, by omega,
      ⟨fun i hi => hmemc0 i, fun i hi => hmemc1 i, fun i hi => hmemc2 i⟩,
      fun v => rfl, ?_⟩, rfl, rfl⟩
  intro v p f hv
  exact Option.noConfusion hv

/-- Pushing the trap-context segment: its single page lives under the
trampoline's level-1 node, so only slot 510 of `t2` is written (plus one
fresh zero-filled data frame), and every first-leaf-node translation
survives unchanged. -/
theorem push_trap (ph : Phys) (pt : PageTable) (r t1 t2 u1 u2 : Nat)
    (S : Nat → Option (Nat × Nat)) (areas : List MapArea)
    (hB : BInv ph pt r t1 t2 (some (u1, u2)) S)
    (hlt : ph.fa.current < ph.fa.end_) :
    ∃ ph' a',
      MemorySet.push ph ⟨pt, areas⟩
        ⟨trapVpn, trampVpn, [], .Framed, MapPermR ||| MapPermW⟩ none =
        some (ph', ⟨pt, areas ++ [a']⟩) ∧
      (∀ w, w < 512 → PageTable.translate ph' pt w =
        some ⟨match S w with
          | some (p, f) => p <<< 10 ||| f
          | none => 0⟩) := by
  obtain ⟨hfa1, hB1⟩ := binv_alloc ph pt r t1 t2 (some (u1, u2)) S hB hlt
  set fz := ph.fa.current with hfz
  set ph1 : Phys := ⟨memZeroPage ph.mem fz, memZeroPage ph.bytes fz,
    ⟨fz + 1, ph.fa.end_, []⟩⟩ with hph1
  obtain ⟨hroot, hrec, hce, hE, hr, ht1c, ht2c, hrt1, hrt2, ht12, hspine,
    hu, hSwf⟩ := hB
  obtain ⟨hu1c, hu2c, hu1r, hu1t1, hu1t2, hu2r, hu2t1, hu2t2, hu12,
    huser⟩ := hu
  have ht1lt : t1 < 2 ^ 44 := by omega
  have ht2lt : t2 < 2 ^ 44 := by omega
  have hr511 : ph1.mem r 511 = t1 <<< 10 ||| 1 := by
    show memZeroPage ph.mem fz r 511 = _
    rw [memZeroPage_ne _ _ _ _ (Nat.ne_of_lt hr)]
    rw [hspine.1 511 (by norm_num)]
    rfl
  have ht511 : ph1.mem t1 511 = t2 <<< 10 ||| 1 := by
    show memZeroPage ph.mem fz t1 511 = _
    rw [memZeroPage_ne _ _ _ _ (Nat.ne_of_lt ht1c)]
    rw [hspine.2.1 511 (by norm_num)]
    rfl
  have ht510 : ph1.mem t2 510 = 0 := by
    show memZeroPage ph.mem fz t2 510 = _
    rw [memZeroPage_ne _ _ _ _ (Nat.ne_of_lt ht2c)]
    rw [hspine.2.2 510 (by norm_num)]
    rfl
  have hcr : PageTable.find_pte_create ph1 pt trapVpn =
      some ((t2, 510), ph1, pt) := by
    show find_pte_create_loop ph1 pt pt.root_ppn 0
      (VirtPageNum.indexes trapVpn) = _
    rw [indexes_trapv, hroot,
      loop_step_valid ph1 pt r 0 511 [511, 510] (by norm_num)
        (by rw [hr511]; exact (ptr_entry t1 ht1lt).1)]
    rw [show (⟨ph1.mem r 511⟩ : PageTableEntry).ppn = t1 from by
      rw [hr511]; exact (ptr_entry t1 ht1lt).2]
    rw [loop_step_valid ph1 pt t1 1 511 [510] (by norm_num)
      (by rw [ht511]; exact (ptr_entry t2 ht2lt).1)]
    rw [show (⟨ph1.mem t1 511⟩ : PageTableEntry).ppn = t2 from by
      rw [ht511]; exact (ptr_entry t2 ht2lt).2]
    rw [loop_last]
  have hmap : PageTable.map ph1 pt trapVpn fz (MapPermR ||| MapPermW) =
      some (⟨memSet ph1.mem t2 510 (PageTableEntry.new fz
        ((MapPermR ||| MapPermW) ||| PTEV)).bits, ph1.bytes, ph1.fa⟩,
        pt) := by
    unfold PageTable.map
    rw [hcr]
    show (if (⟨ph1.mem t2 510⟩ : PageTableEntry).is_valid = true then none
      else some ((⟨memSet ph1.mem t2 510 (PageTableEntry.new fz
        ((MapPermR ||| MapPermW) ||| PTEV)).bits, ph1.bytes, ph1.fa⟩ :
          Phys), pt)) = _
    rw [ht510, if_neg (by decide)]
  refine ⟨⟨memSet ph1.mem t2 510 (PageTableEntry.new fz
      ((MapPermR ||| MapPermW) ||| PTEV)).bits, ph1.bytes, ph1.fa⟩,
    ⟨trapVpn, trampVpn, dfInsert [] trapVpn fz, .Framed,
      MapPermR ||| MapPermW⟩, ?_, ?_⟩
  · show MemorySet.push ph ⟨pt, areas⟩
      ⟨trapVpn, trampVpn, [], .Framed, MapPermR ||| MapPermW⟩ none = _
    have hpages : (⟨trapVpn, trampVpn, [], .Framed,
        MapPermR ||| MapPermW⟩ : MapArea).pages = [trapVpn] := by decide
    have hm1 : MapArea.map_one ph ⟨trapVpn, trampVpn, [], .Framed,
        MapPermR ||| MapPermW⟩ pt trapVpn =
        some (⟨memSet ph1.mem t2 510 (PageTableEntry.new fz
          ((MapPermR ||| MapPermW) ||| PTEV)).bits, ph1.bytes, ph1.fa⟩,
          ⟨trapVpn, trampVpn, dfInsert [] trapVpn fz, .Framed,
            MapPermR ||| MapPermW⟩, pt) := by
      unfold MapArea.map_one
      simp only [hfa1, dfLookup]
      rw [hmap]
      rfl
    simp only [MemorySet.push, MapArea.mapAll, hpages, MapArea.mapLoop,
      hm1]
  · intro w hw
    refine translate_smallM ph pt r t1 t2 u1 u2 S
      ⟨hroot, hrec, hce, hE, hr, ht1c, ht2c, hrt1, hrt2, ht12, hspine,
        ⟨hu1c, hu2c, hu1r, hu1t1, hu1t2, hu2r, hu2t1, hu2t2, hu12, huser⟩,
        hSwf⟩ _ _ _ pt rfl ?_ ?_ ?_ w hw
    · show memSet ph1.mem t2 510 (PageTableEntry.new fz
        ((MapPermR ||| MapPermW) ||| PTEV)).bits r 0 = ph.mem r 0
      rw [memSet_page_ne _ _ _ _ _ _ hrt2]
      show memZeroPage ph.mem fz r 0 = ph.mem r 0
      rw [memZeroPage_ne _ _ _ _ (Nat.ne_of_lt hr)]
    · show memSet ph1.mem t2 510 (PageTableEntry.new fz
        ((MapPermR ||| MapPermW) ||| PTEV)).bits u1 0 = ph.mem u1 0
      rw [memSet_page_ne _ _ _ _ _ _ hu1t2]
      show memZeroPage ph.mem fz u1 0 = ph.mem u1 0
      rw [memZeroPage_ne _ _ _ _ (Nat.ne_of_lt hu1c)]
    · intro i hi
      show memSet ph1.mem t2 510 (PageTableEntry.new fz
        ((MapPermR ||| MapPermW) ||| PTEV)).bits u2 i = ph.mem u2 i
      rw [memSet_page_ne _ _ _ _ _ _ hu2t2]
      show memZeroPage ph.mem fz u2 i = ph.mem u2 i
      rw [memZeroPage_ne _ _ _ _ (Nat.ne_of_lt hu2c)]

/-- C4: for every well-formed small executable image (magic intact;
loadable segments nonempty, within the first leaf node, page-disjoint,
listed with ascending ends as the ELF ABI requires, with the file data
fitting the segments; enough free frames), `from_elf` succeeds and returns
the built space, the user stack top and the image's entry point; the
tracked `max_end_vpn` is the highest loadable segment end; the page
immediately above it is left unmapped (the guard page); and immediately
above the guard page a fixed-size framed user stack is mapped with
read, write and user permissions. -/
theorem from_elf_spec (ph : Phys) (elf : ElfImage)
    (hrec : ph.fa.recycled = [])
    (hE : ph.fa.end_ ≤ 2 ^ 44)
    (hbud : ph.fa.current + 10 + 3 * loadPages elf.phs ≤ ph.fa.end_)
    (hmagic : elf.magic = elfMagic)
    (hwf : ∀ p ∈ elf.phs, p.ptype = .Load →
      p.virtual_addr + p.mem_size ≠ 0 ∧ phR p ≤ 509 ∧
      chunkCount ((elf.input.drop p.offset).take p.file_size).length ≤
        phR p - phL p)
    (hdisj : elf.phs.Pairwise (fun p q => p.ptype = .Load →
      q.ptype = .Load → phR p ≤ phL q ∨ phR q ≤ phL p))
    (hsort : (loadEnds elf.phs).Sorted (· ≤ ·)) :
    ∃ ph5 pt5 areasL stackDf trapA,
      MemorySet.from_elf ph elf = some (ph5, ⟨pt5, areasL ++
        [⟨(loadEnds elf.phs).getLastD 0 + 1,
          (loadEnds elf.phs).getLastD 0 + 3, stackDf, .Framed,
          MapPermR ||| MapPermW ||| MapPermU⟩, trapA]⟩,
        (loadEnds elf.phs).getLastD 0 * PAGE_SIZE + PAGE_SIZE +
          USER_STACK_SIZE, elf.entry_point) ∧
      (∀ x ∈ loadEnds elf.phs, x ≤ (loadEnds elf.phs).getLastD 0) ∧
      unmappedAt ph5 pt5 ((loadEnds elf.phs).getLastD 0) ∧
      (∀ w, (loadEnds elf.phs).getLastD 0 + 1 ≤ w →
        w < (loadEnds elf.phs).getLastD 0 + 3 →
        ∃ pte, PageTable.translate ph5 pt5 w = some pte ∧
          pte.is_valid = true ∧ pte.readable = true ∧
          pte.writable = true ∧ pte.flags &&& PTEU ≠ 0) := by
  set maxEnd := (loadEnds elf.phs).getLastD 0 with hmax
  have hloadbound : ∀ x ∈ loadEnds elf.phs, x ≤ 509 := by
    intro x hx
    obtain ⟨q, hq, hqe⟩ := List.mem_filterMap.mp hx
    by_cases hlq : q.ptype = .Load
    · rw [if_pos hlq] at hqe
      have h509 := (hwf q hq hlq).2.1
      rw [← Option.some.inj hqe]
      exact h509
    · rw [if_neg hlq] at hqe
      exact Option.noConfusion hqe
  have hmax509 : maxEnd ≤ 509 := by
    rcases getLastD_mem_or (loadEnds elf.phs) 0 with h | h
    · rw [hmax, h]
      omega
    · exact hloadbound _ h
  have hml : ∀ q ∈ elf.phs, q.ptype = .Load → phR q ≤ maxEnd := by
    intro q hq hlq
    exact sorted_le_getLastD _ 0 hsort _
      (List.mem_filterMap.mpr ⟨q, hq, by rw [if_pos hlq]⟩)
  obtain ⟨ph2, pt2, hnb, hmapT, hB2, hcur2, hend2⟩ :=
    from_elf_init ph hrec (by omega) hE
  obtain ⟨ph3, pt3, areas2, uo3, S3, heqL, hB3, hsome3, Sout3, hc3a, hc3b,
    hend3⟩ :=
    elfLoop_binv elf.phs elf.input ph.fa.current (ph.fa.current + 1)
      (ph.fa.current + 2) ph2 pt2 [] none (fun _ => none) 0 hB2
      (fun p hp hl => ⟨(hwf p hp hl).1,
        by have := (hwf p hp hl).2.1; omega, (hwf p hp hl).2.2⟩)
      (fun p hp hl v h1 h2 => rfl)
      hdisj (by omega)
  have hS3none : ∀ w, maxEnd ≤ w → S3 w = none := by
    intro w hwge
    rw [Sout3 w ?_]
    intro q hq hlq hc
    have := hml q hq hlq
    omega
  have hnewS : MapArea.new? (maxEnd * PAGE_SIZE + PAGE_SIZE)
      (maxEnd * PAGE_SIZE + PAGE_SIZE + USER_STACK_SIZE) .Framed
      (MapPermR ||| MapPermW ||| MapPermU) =
      some ⟨maxEnd + 1, maxEnd + 3, [], .Framed,
        MapPermR ||| MapPermW ||| MapPermU⟩ := by
    rw [new?_some _ _ _ _ (by unfold PAGE_SIZE USER_STACK_SIZE; omega)
      (Nat.le_add_right _ _)]
    have h1 : VirtAddr.floor (maxEnd * PAGE_SIZE + PAGE_SIZE) =
        maxEnd + 1 := by
      unfold VirtAddr.floor PAGE_SIZE
      omega
    have h2 : (maxEnd * PAGE_SIZE + PAGE_SIZE + USER_STACK_SIZE - 1 +
        PAGE_SIZE) / PAGE_SIZE = maxEnd + 3 := by
      unfold PAGE_SIZE USER_STACK_SIZE
      omega
    rw [h1, h2]
  obtain ⟨ph4, pt4, df4, uo4, S4, heqS, hB4, hsome4, hne4, Sout4, Sin4,
    hc4a, hc4b, hend4⟩ :=
    push_binv ph3 pt3 ph.fa.current (ph.fa.current + 1)
      (ph.fa.current + 2) uo3 S3 ([] ++ areas2) (maxEnd + 1) (maxEnd + 3)
      (MapPermR ||| MapPermW ||| MapPermU) none hB3 (by decide)
      (by omega) (fun w h1 h2 => hS3none w (by omega)) (by omega)
      (fun d hd => Option.noConfusion hd)
  obtain ⟨x4, y4, huo4⟩ := hne4 (by omega)
  subst huo4
  have hnewT : MapArea.new? TRAP_CONTEXT TRAMPOLINE .Framed
      (MapPermR ||| MapPermW) =
      some ⟨trapVpn, trampVpn, [], .Framed, MapPermR ||| MapPermW⟩ := by
    rw [new?_some _ _ _ _ (by decide) (by decide)]
    rfl
  obtain ⟨ph5, trapA, heqT, htrans⟩ :=
    push_trap ph4 pt4 ph.fa.current (ph.fa.current + 1)
      (ph.fa.current + 2) x4 y4 S4
      (([] ++ areas2) ++ [⟨maxEnd + 1, maxEnd + 3, df4, .Framed,
        MapPermR ||| MapPermW ||| MapPermU⟩]) hB4 (by omega)
  obtain ⟨hBr1, hBr2, hBr3, hBr4, hBr5, hBr6, hBr7, hBr8, hBr9, hBr10,
    hBr11, hBr12, hSwf4⟩ := hB4
  refine ⟨ph5, pt4, [] ++ areas2, df4, trapA, ?_, ?_, ?_, ?_⟩
  · have hmapT' : PageTable.map
        ⟨memZeroPage ph.mem ph.fa.current, memZeroPage ph.bytes
          ph.fa.current, ⟨ph.fa.current + 1, ph.fa.end_, []⟩⟩
        ⟨ph.fa.current, [ph.fa.current]⟩ (TRAMPOLINE / PAGE_SIZE)
        (strampoline / PAGE_SIZE) (PTER ||| PTEX) = some (ph2, pt2) :=
      hmapT
    show MemorySet.from_elf ph elf = _
    unfold MemorySet.from_elf
    rw [hnb]
    simp only []
    rw [hmapT']
    simp only []
    rw [if_neg (show ¬elf.magic ≠ elfMagic from fun h => h hmagic)]
    rw [heqL]
    simp only []
    rw [hnewS]
    simp only []
    rw [heqS]
    simp only []
    rw [hnewT]
    simp only []
    rw [heqT, List.append_assoc]
    rfl
  · exact sorted_le_getLastD _ 0 hsort
  · intro pte hpte
    have hS4max : S4 maxEnd = none := by
      rw [Sout4 maxEnd (by omega)]
      exact hS3none maxEnd (le_refl _)
    rw [htrans maxEnd (by omega), hS4max] at hpte
    rw [(Option.some.inj hpte).symm]
    decide
  · intro w h1 h2
    have hw512 : w < 512 := by omega
    obtain ⟨pw, hpw⟩ := Sin4 w h1 h2
    obtain ⟨hw512', hpw44, hpwfl, hpwv⟩ := hSwf4 w pw _ hpw
    have hfl : (⟨pw <<< 10 |||
        ((MapPermR ||| MapPermW ||| MapPermU) ||| PTEV)⟩ :
        PageTableEntry).flags =
        (MapPermR ||| MapPermW ||| MapPermU) ||| PTEV :=
      pte_new_flags pw _ (by decide)
    refine ⟨⟨pw <<< 10 ||| ((MapPermR ||| MapPermW ||| MapPermU) |||
      PTEV)⟩, ?_, ?_, ?_, ?_, ?_⟩
    · rw [htrans w hw512, hpw]
    · unfold PageTableEntry.is_valid
      rw [hfl]
      decide
    · unfold PageTableEntry.readable
      rw [hfl]
      decide
    · unfold PageTableEntry.writable
      rw [hfl]
      decide
    · rw [hfl]
      decide

/-- Witness for `from_elf_spec`: loading the minimal two-segment image
into a fresh machine. -/
theorem from_elf_spec_witness :
    ∃ ph5 pt5 areasL stackDf trapA,
      MemorySet.from_elf phC elfW = some (ph5, ⟨pt5, areasL ++
        [⟨(loadEnds elfW.phs).getLastD 0 + 1,
          (loadEnds elfW.phs).getLastD 0 + 3, stackDf, .Framed,
          MapPermR ||| MapPermW ||| MapPermU⟩, trapA]⟩,
        (loadEnds elfW.phs).getLastD 0 * PAGE_SIZE + PAGE_SIZE +
          USER_STACK_SIZE, elfW.entry_point) ∧
      (∀ x ∈ loadEnds elfW.phs, x ≤ (loadEnds elfW.phs).getLastD 0) ∧
      unmappedAt ph5 pt5 ((loadEnds elfW.phs).getLastD 0) ∧
      (∀ w, (loadEnds elfW.phs).getLastD 0 + 1 ≤ w →
        w < (loadEnds elfW.phs).getLastD 0 + 3 →
        ∃ pte, PageTable.translate ph5 pt5 w = some pte ∧
          pte.is_valid = true ∧ pte.readable = true ∧
          pte.writable = true ∧ pte.flags &&& PTEU ≠ 0) :=
  from_elf_spec phC elfW rfl (by decide) (by decide) rfl (by decide)
    (by decide) (by decide)

/-- Witness for `munmap_spec`: on the concrete machine, unmapping the single
one-page framed segment at page 0 with `munmap(0, 4096)` exactly covers the
range, so it clears the leaf, releases frame 5 and returns 0. -/
theorem munmap_spec_witness :
    ∃ ph' areas',
      MemorySet.munmap phW msW3 0 4096 =
        some (if ∀ v ∈ List.range' 0 (1 - 0), containedPage msW3.areas 0 1 v
          then 0 else -1, ph', ⟨msW3.page_table, areas'⟩) ∧
      ph'.bytes = phW.bytes ∧ ph'.fa = ⟨6, 10, [5]⟩ ∧
      (∀ v, containedPage msW3.areas 0 1 v →
        validLeaf ph' msW3.page_table v = false) ∧
      (∀ p i, ph'.mem p i = phW.mem p i ∨
        ∃ v, containedPage msW3.areas 0 1 v ∧
          p = node2 phW msW3.page_table v ∧ i = idx2 v ∧ ph'.mem p i = 0) :=
  munmap_spec phW msW3 0 4096 0 1 ⟨6, 10, [5]⟩ (by decide) (by decide)
    (by decide) (by decide) (List.pairwise_singleton _ _) (by decide)

end Os4
